import Mathlib

set_option linter.unusedSectionVars false

/-!
# AOgmaNeo `Actor`: a shallow embedding and its verified properties

The definitions below translate `Array.h`, `Helpers.h`, `Actor.h` and `Actor.cpp`.

* `int` values are `Int`, without overflow; C++ `/` and `%` on `int` are `Int.tdiv` and
  `Int.tmod`.
* `Array<T>` is `List T`; `rd` and `wr` are `operator[]` used as a read and as a write.
  An index outside the array is undefined behaviour in C++; here a read gives the supplied
  default and a write changes nothing.
* `float` is a type parameter `F` carrying the arithmetic and the comparisons the code uses.
  The kernels are therefore the same text for an ordered field (exact arithmetic, where
  `x / 0 = 0`) and for `Flt`, exact rationals extended with the IEEE special values (where
  `x / 0` is an infinity or NaN). Rounding is not represented.
* What is only declared in the headers (`expf`, `rand`, `randf`, `initSMLocalRF`) is a field of
  `Extern`; the global generator state `seed` is passed explicitly.
* The buffer arguments of `Actor::step` are pointers (`const IntBuffer*`), and `step` reads them
  during the forward kernel and again when it copies them into the history, after the forward
  kernel has rewritten `hiddenCs`. `stepPtr` is the call in general: an argument is the address
  of a buffer of the caller or the address of the actor's own `hiddenCs` (`getHiddenCs()` hands
  out that reference; the other integer buffers of the actor are private), and it is read at the
  moment the code reads it. `step` is the call on buffers of the caller, which the actor never
  writes, so that their contents are passed by value; `stepPtr_caller` shows that the two agree
  there.
-/

namespace ogmaneo

/-! ## Helpers.h -/

/-- `Vec2<int>`. -/
structure Int2 where
  x : Int
  y : Int
deriving DecidableEq, Repr

/-- `Vec3<int>` (the padding member is not represented). -/
structure Int3 where
  x : Int
  y : Int
  z : Int
deriving DecidableEq, Repr

/-- `Array<int>`. -/
abbrev IntBuffer := List Int

/-- `Array<float>`. -/
abbrev FloatBuffer (F : Type) := List F

/-- Read `a[index]`; `d` stands for the value read outside the array. -/
def rd {α : Type} (a : List α) (index : Int) (d : α) : α :=
  if 0 ≤ index then a.getD index.toNat d else d

/-- Write `a[index] = v`. -/
def wr {α : Type} (a : List α) (index : Int) (v : α) : List α :=
  if 0 ≤ index then a.set index.toNat v else a

/-- `Array<T>::resize(size)`: the first `min(oldSize, size)` elements are kept, the others are
default-constructed. -/
def resize {α : Type} (a : List α) (size : Int) (d : α) : List α :=
  a.take size.toNat ++ List.replicate (size.toNat - a.length) d

/-- `Array<T>(size, value)`. -/
def filled {α : Type} (size : Int) (value : α) : List α :=
  List.replicate size.toNat value

section Arith

variable {F : Type} [Zero F] [One F] [Add F] [Sub F] [Mul F] [Div F] [Neg F] [IntCast F]
  [OfScientific F] [LT F] [LE F] [DecidableRel (fun a b : F => a < b)] [DecidableRel (fun a b : F => a ≤ b)]

/-- `max(left, right)` of Helpers.h: `if (left > right) return left; return right;`. -/
def max {T : Type} [LT T] [DecidableRel (fun a b : T => a < b)] (left right : T) : T :=
  if left > right then left else right

/-- `address2`. -/
def address2 (pos dims : Int2) : Int :=
  pos.y + pos.x * dims.y

/-- `address3`. -/
def address3 (pos dims : Int3) : Int :=
  pos.z + pos.y * dims.z + pos.x * dims.z * dims.y

/-- `CircleBuffer<T>`. -/
structure CircleBuffer (T : Type) where
  data : List T
  start : Int
deriving DecidableEq, Repr

namespace CircleBuffer

variable {T : Type}

/-- The constructor `CircleBuffer()`: no storage, `start(0)`. -/
def new : CircleBuffer T :=
  { data := [], start := 0 }

/-- `size()`. -/
def size (b : CircleBuffer T) : Int :=
  b.data.length

/-- `resize(size)`. -/
def resize (b : CircleBuffer T) (size : Int) (d : T) : CircleBuffer T :=
  { b with data := ogmaneo.resize b.data size d }

/-- `pushFront()`. -/
def pushFront (b : CircleBuffer T) : CircleBuffer T :=
  let start := b.start - 1
  { b with start := if start < 0 then start + b.size else start }

/-- The storage slot `(start + index) % data.size()` that `operator[]` accesses. -/
def slot (b : CircleBuffer T) (index : Int) : Int :=
  Int.tmod (b.start + index) b.size

/-- `operator[]` as a read. -/
def get (b : CircleBuffer T) (index : Int) (d : T) : T :=
  rd b.data (b.slot index) d

/-- `operator[]` as a write of the whole element. -/
def put (b : CircleBuffer T) (index : Int) (v : T) : CircleBuffer T :=
  { b with data := wr b.data (b.slot index) v }

end CircleBuffer

/-- Modelled from the spec: `copyInt` and `copyFloat` (declared in Helpers.h, defined in a
file that is not among the sources) copy the source buffer's contents by value over the
destination. -/
def copy {α : Type} (src : List α) (_dst : List α) : List α :=
  src

/-! ## SparseMatrix -/

/-- Modelled from the spec: the sparse weight matrix (`SparseMatrix.h` is not among the
sources). Per output unit it holds an ordered list of (input flat index, weight) pairs, stored
flat: `nonZeroValues` (the member `Actor::initRandom` fills) holds the weights,
`columnIndices` the input flat index of each weight, and output unit `row` owns the entries
`rowRanges[row] .. rowRanges[row + 1] - 1`. -/
structure SparseMatrix (F : Type) where
  nonZeroValues : List F
  rowRanges : List Int
  columnIndices : List Int
deriving DecidableEq, Repr

namespace SparseMatrix

/-- The default-constructed matrix. -/
def empty : SparseMatrix F :=
  { nonZeroValues := [], rowRanges := [], columnIndices := [] }

/-- Modelled from the spec: `nonzeroCount(outputIndex)`, the number of connected
(input-column, state) weight entries feeding the output unit. -/
def count (m : SparseMatrix F) (row : Int) : Int :=
  rd m.rowRanges (row + 1) 0 - rd m.rowRanges row 0

/-- Modelled from the spec: the entries of output unit `row` that are active under the
one-hot inputs: the entry of input flat index `c` belongs to input column `c / oneHotSize` and
state `c % oneHotSize`, and is active when that state is the column's active state. -/
def activeEntries (m : SparseMatrix F) (nonZeroIndices : IntBuffer) (row oneHotSize : Int) :
    List Int :=
  ((List.range (m.count row).toNat).map (fun (k : Nat) => rd m.rowRanges row 0 + (k : Int))).filter
    (fun j =>
      let c := rd m.columnIndices j 0
      decide (Int.tmod c oneHotSize = rd nonZeroIndices (Int.tdiv c oneHotSize) 0))

/-- Modelled from the spec: `weightedOneHotSum`, the sum of the weights connecting the active
states to the output unit. -/
def multiplyOHVs (m : SparseMatrix F) (nonZeroIndices : IntBuffer) (row oneHotSize : Int) : F :=
  (m.activeEntries nonZeroIndices row oneHotSize).foldl
    (fun sum j => sum + rd m.nonZeroValues j 0) 0

/-- Modelled from the spec: `applyOneHotDelta`, which adds `delta` to exactly the active
weights of the output unit. -/
def deltaOHVs (m : SparseMatrix F) (nonZeroIndices : IntBuffer) (delta : F)
    (row oneHotSize : Int) : SparseMatrix F :=
  let active := m.activeEntries nonZeroIndices row oneHotSize
  { m with nonZeroValues := active.foldl (fun vs j => wr vs j (rd vs j 0 + delta)) m.nonZeroValues }

end SparseMatrix

/-! ## Actor.h -/

/-- `Actor::VisibleLayerDesc`. -/
structure VisibleLayerDesc where
  size : Int3
  radius : Int
deriving DecidableEq, Repr

/-- The defaults of the constructor `VisibleLayerDesc()`. -/
instance : Inhabited VisibleLayerDesc :=
  ⟨{ size := ⟨4, 4, 16⟩, radius := 2 }⟩

/-- `Actor::VisibleLayer`. -/
structure VisibleLayer (F : Type) where
  valueWeights : SparseMatrix F
  actionWeights : SparseMatrix F
deriving DecidableEq, Repr

instance : Inhabited (VisibleLayer F) :=
  ⟨{ valueWeights := SparseMatrix.empty, actionWeights := SparseMatrix.empty }⟩

/-- `Actor::HistorySample`. -/
structure HistorySample (F : Type) where
  inputCs : List IntBuffer
  hiddenTargetCsPrev : IntBuffer
  hiddenValuesPrev : FloatBuffer F
  reward : F
deriving DecidableEq, Repr

/-- A default-constructed sample: empty buffers (the reward is not initialised; `0` stands
for it). -/
instance : Inhabited (HistorySample F) :=
  ⟨{ inputCs := [], hiddenTargetCsPrev := [], hiddenValuesPrev := [], reward := 0 }⟩

/-- The data members of `class Actor`. -/
structure Actor (F : Type) where
  hiddenSize : Int3
  historySize : Int
  hiddenCs : IntBuffer
  hiddenValues : FloatBuffer F
  historySamples : CircleBuffer (HistorySample F)
  visibleLayers : List (VisibleLayer F)
  visibleLayerDescs : List VisibleLayerDesc
  alpha : F
  beta : F
  gamma : F
  minSteps : Int
  historyIters : Int
deriving DecidableEq, Repr

/-- What Helpers.h only declares: `expf`, the generator functions `rand()`, `randf()` and
`randf(low, high)` acting on the global `seed`, and `initSMLocalRF`. -/
structure Extern (F : Type) where
  expf : F → F
  rand : Nat → Int × Nat
  randf : Nat → F × Nat
  randfRange : F → F → Nat → F × Nat
  initSMLocalRF : Int3 → Int3 → Int → SparseMatrix F

/-- The constructor `Actor()`: the tunables get their defaults, the containers are empty, the
circular buffer starts at `0` (`hiddenSize` and `historySize` are not initialised; `0` stands
for them). -/
def Actor.new : Actor F :=
  { hiddenSize := ⟨0, 0, 0⟩
    historySize := 0
    hiddenCs := []
    hiddenValues := []
    historySamples := CircleBuffer.new
    visibleLayers := []
    visibleLayerDescs := []
    alpha := 0.03
    beta := 0.03
    gamma := 0.99
    minSteps := 4
    historyIters := 4 }

/-! ## Actor.cpp: the kernels -/

/-- The loop "for each visible layer" at the head of `forward` and of `learn`: it accumulates
`value` (a `float`) and `count` (an `int`, with `int` division by the layer depth). -/
def valueCount (a : Actor F) (inputCs : List IntBuffer) (hiddenColumnIndex : Int) : F × Int :=
  (List.range a.visibleLayers.length).foldl
    (fun (acc : F × Int) vli =>
      let vl := a.visibleLayers.getD vli default
      let vld := a.visibleLayerDescs.getD vli default
      (acc.1 + vl.valueWeights.multiplyOHVs (inputCs.getD vli []) hiddenColumnIndex vld.size.z,
       acc.2 + Int.tdiv (vl.valueWeights.count hiddenColumnIndex) vld.size.z))
    (0, 0)

/-- The inner loop "for each visible layer" of the action pass: `sum` for one hidden unit. -/
def actionSum (a : Actor F) (inputCs : List IntBuffer) (hiddenIndex : Int) : F :=
  (List.range a.visibleLayers.length).foldl
    (fun (sum : F) vli =>
      let vl := a.visibleLayers.getD vli default
      let vld := a.visibleLayerDescs.getD vli default
      sum + vl.actionWeights.multiplyOHVs (inputCs.getD vli []) hiddenIndex vld.size.z)
    0

/-- The array `activations` after the first loop over `hc`: `sum /= count` for every slot. -/
def logits (a : Actor F) (pos : Int2) (inputCs : List IntBuffer) (count : Int) : List F :=
  (List.range a.hiddenSize.z.toNat).map
    (fun (hc : Nat) =>
      actionSum a inputCs (address3 ⟨pos.x, pos.y, (hc : Int)⟩ a.hiddenSize) / (count : F))

/-- The running maximum: it starts at `-999999.0f` and takes `max(maxActivation, sum)` at every
slot. -/
def maxActivation (sums : List F) : F :=
  sums.foldl (fun m sum => max m sum) (-999999.0)

/-- The array `activations` after the second loop: `expf(activations[hc] - maxActivation)`. -/
def expActivations (E : Extern F) (sums : List F) : List F :=
  sums.map (fun sum => E.expf (sum - maxActivation sums))

/-- The variable `total` after the second loop. -/
def total (acts : List F) : F :=
  acts.foldl (fun t x => t + x) 0

/-- The selection loop of `forward` from slot `hc` on, `sumSoFar` being the running sum and
`rest` the activations not yet visited; `selectIndex` keeps its initial `0` when the loop ends
without a `break`. -/
def selectFrom (cusp : F) : Int → F → List F → Int
  | _, _, [] => 0
  | hc, sumSoFar, x :: rest =>
    if sumSoFar + x ≥ cusp then hc else selectFrom cusp (hc + 1) (sumSoFar + x) rest

/-- `Actor::forward`; the generator state is passed in and out. -/
def forward (E : Extern F) (a : Actor F) (pos : Int2) (inputCs : List IntBuffer) (seed : Nat) :
    Actor F × Nat :=
  let hiddenColumnIndex := address2 pos ⟨a.hiddenSize.x, a.hiddenSize.y⟩
  let vc := valueCount a inputCs hiddenColumnIndex
  let hiddenValues := wr a.hiddenValues hiddenColumnIndex (vc.1 / (vc.2 : F))
  let activations := expActivations E (logits a pos inputCs vc.2)
  let r := E.randf seed
  let cusp := r.1 * total activations
  let selectIndex := selectFrom cusp 0 0 activations
  ({ a with hiddenValues := hiddenValues, hiddenCs := wr a.hiddenCs hiddenColumnIndex selectIndex },
   r.2)

/-- The expression for `deltaAction` in `learn`, slot `hc`:
`(mimic ? beta : (tdErrorAction > 0.0f ? beta : -beta)) *
((hc == targetC ? 1.0f : 0.0f) - activations[hc] / max(0.0001f, total))`. -/
def deltaAction (beta tdErrorAction : F) (targetC : Int) (activations : List F) (mimic : Bool)
    (hc : Int) : F :=
  (if mimic then beta else (if tdErrorAction > 0 then beta else -beta)) *
    ((if hc = targetC then 1 else 0) - rd activations hc 0 / max 0.0001 (total activations))

/-- The probability that `learn` uses for slot `hc`:
`activations[hc] / max(0.0001f, total)`. -/
def probability (activations : List F) (hc : Int) : F :=
  rd activations hc 0 / max 0.0001 (total activations)

/-- The loop of `learn` that applies `deltaValue` to the value weights of every visible
layer. -/
def applyValueDelta (a : Actor F) (inputCsPrev : List IntBuffer) (delta : F)
    (hiddenColumnIndex : Int) : Actor F :=
  (List.range a.visibleLayers.length).foldl
    (fun (a : Actor F) vli =>
      let vl := a.visibleLayers.getD vli default
      let vld := a.visibleLayerDescs.getD vli default
      let w := vl.valueWeights.deltaOHVs (inputCsPrev.getD vli []) delta hiddenColumnIndex vld.size.z
      { a with visibleLayers := a.visibleLayers.set vli { vl with valueWeights := w } })
    a

/-- The inner loop of `learn` that applies `deltaAction` to the action weights of every
visible layer. -/
def applyActionDelta (a : Actor F) (inputCsPrev : List IntBuffer) (delta : F)
    (hiddenIndex : Int) : Actor F :=
  (List.range a.visibleLayers.length).foldl
    (fun (a : Actor F) vli =>
      let vl := a.visibleLayers.getD vli default
      let vld := a.visibleLayerDescs.getD vli default
      let w := vl.actionWeights.deltaOHVs (inputCsPrev.getD vli []) delta hiddenIndex vld.size.z
      { a with visibleLayers := a.visibleLayers.set vli { vl with actionWeights := w } })
    a

/-- `Actor::learn`. -/
def learn (E : Extern F) (a : Actor F) (pos : Int2) (inputCsPrev : List IntBuffer)
    (hiddenTargetCsPrev : IntBuffer) (hiddenValuesPrev : FloatBuffer F) (q g : F)
    (mimic : Bool) : Actor F :=
  let hiddenColumnIndex := address2 pos ⟨a.hiddenSize.x, a.hiddenSize.y⟩
  let newValue := q + g * rd a.hiddenValues hiddenColumnIndex 0
  let vc := valueCount a inputCsPrev hiddenColumnIndex
  let value := vc.1 / (vc.2 : F)
  let tdErrorValue := newValue - value
  let deltaValue := a.alpha * tdErrorValue
  let a1 := applyValueDelta a inputCsPrev deltaValue hiddenColumnIndex
  let tdErrorAction := newValue - rd hiddenValuesPrev hiddenColumnIndex 0
  let targetC := rd hiddenTargetCsPrev hiddenColumnIndex 0
  let activations := expActivations E (logits a1 pos inputCsPrev vc.2)
  (List.range a1.hiddenSize.z.toNat).foldl
    (fun (acc : Actor F) (hc : Nat) =>
      applyActionDelta acc inputCsPrev
        (deltaAction a1.beta tdErrorAction targetC activations mimic (hc : Int))
        (address3 ⟨pos.x, pos.y, (hc : Int)⟩ a1.hiddenSize))
    a1

/-- The value `deltaValue` that a call of `learn` computes and applies to the value weights. -/
def learnDeltaValue (a : Actor F) (pos : Int2) (inputCsPrev : List IntBuffer) (q g : F) : F :=
  let hiddenColumnIndex := address2 pos ⟨a.hiddenSize.x, a.hiddenSize.y⟩
  let newValue := q + g * rd a.hiddenValues hiddenColumnIndex 0
  let vc := valueCount a inputCsPrev hiddenColumnIndex
  let value := vc.1 / (vc.2 : F)
  let tdErrorValue := newValue - value
  a.alpha * tdErrorValue

/-- The softmax activations `expf(activations[hc] - maxActivation)` that a call of `learn`
computes, after its value weights are updated. -/
def learnActivations (E : Extern F) (a : Actor F) (pos : Int2) (inputCsPrev : List IntBuffer)
    (q g : F) : List F :=
  let hiddenColumnIndex := address2 pos ⟨a.hiddenSize.x, a.hiddenSize.y⟩
  let vc := valueCount a inputCsPrev hiddenColumnIndex
  let a1 := applyValueDelta a inputCsPrev (learnDeltaValue a pos inputCsPrev q g) hiddenColumnIndex
  expActivations E (logits a1 pos inputCsPrev vc.2)

/-- The value `deltaAction` that a call of `learn` computes and applies to the action weights
of slot `hc`. -/
def learnDeltaAction (E : Extern F) (a : Actor F) (pos : Int2) (inputCsPrev : List IntBuffer)
    (hiddenTargetCsPrev : IntBuffer) (hiddenValuesPrev : FloatBuffer F) (q g : F) (mimic : Bool)
    (hc : Int) : F :=
  let hiddenColumnIndex := address2 pos ⟨a.hiddenSize.x, a.hiddenSize.y⟩
  let newValue := q + g * rd a.hiddenValues hiddenColumnIndex 0
  let a1 := applyValueDelta a inputCsPrev (learnDeltaValue a pos inputCsPrev q g) hiddenColumnIndex
  let tdErrorAction := newValue - rd hiddenValuesPrev hiddenColumnIndex 0
  let targetC := rd hiddenTargetCsPrev hiddenColumnIndex 0
  deltaAction a1.beta tdErrorAction targetC (learnActivations E a pos inputCsPrev q g) mimic hc

/-- The positions visited by `for x < hiddenSize.x` / `for y < hiddenSize.y`, in order. -/
def columns (hiddenSize : Int3) : List Int2 :=
  (List.range hiddenSize.x.toNat).flatMap
    (fun (x : Nat) => (List.range hiddenSize.y.toNat).map (fun (y : Nat) => (⟨(x : Int), (y : Int)⟩ : Int2)))

/-- The forward kernel of `step`: `forward` at every column. -/
def forwardAll (E : Extern F) (a : Actor F) (inputCs : List IntBuffer) (seed : Nat) :
    Actor F × Nat :=
  (columns a.hiddenSize).foldl (fun (s : Actor F × Nat) pos => forward E s.1 pos inputCs s.2)
    (a, seed)

/-- The learn kernel of `step`: `learn` at every column. -/
def learnAll (E : Extern F) (a : Actor F) (inputCsPrev : List IntBuffer)
    (hiddenTargetCsPrev : IntBuffer) (hiddenValuesPrev : FloatBuffer F) (q g : F)
    (mimic : Bool) : Actor F :=
  (columns a.hiddenSize).foldl
    (fun (acc : Actor F) pos =>
      learn E acc pos inputCsPrev hiddenTargetCsPrev hiddenValuesPrev q g mimic)
    a

/-- The block "Add new sample" of `step`, acting on `historySamples[0]`. -/
def addSample (a : Actor F) (inputCs : List IntBuffer) (hiddenTargetCsPrev : IntBuffer)
    (reward : F) : Actor F :=
  let s := a.historySamples.get 0 default
  let ins := (List.range a.visibleLayers.length).foldl
    (fun (ins : List IntBuffer) vli => ins.set vli (copy (inputCs.getD vli []) (ins.getD vli [])))
    s.inputCs
  let s1 : HistorySample F :=
    { inputCs := ins
      hiddenTargetCsPrev := copy hiddenTargetCsPrev s.hiddenTargetCsPrev
      hiddenValuesPrev := copy a.hiddenValues s.hiddenValuesPrev
      reward := reward }
  { a with historySamples := a.historySamples.put 0 s1 }

/-- The loop `for (int t = historyIndex; t >= 0; t--)` of `step` with `n = t + 1` iterations
left, `qg` being the current `(q, g)`. -/
def returnLoop (samples : CircleBuffer (HistorySample F)) (gamma : F) : Nat → F × F → F × F
  | 0, qg => qg
  | t + 1, qg => returnLoop samples gamma t (qg.1 + (samples.get t default).reward * qg.2, qg.2 * gamma)

/-- The `historyIndex` drawn in `step` from the value `r` of `rand()`. -/
def historyIndex (r historySize minSteps : Int) : Int :=
  Int.tmod r (historySize - 1 - minSteps) + minSteps

/-- One iteration of the replay loop of `step`. -/
def replay (E : Extern F) (a : Actor F) (mimic : Bool) (seed : Nat) : Actor F × Nat :=
  let r := E.rand seed
  let historyIndex := historyIndex r.1 a.historySize a.minSteps
  let sPrev := a.historySamples.get (historyIndex + 1) default
  let s := a.historySamples.get historyIndex default
  let qg := returnLoop a.historySamples a.gamma (historyIndex + 1).toNat (0, 1)
  (learnAll E a sPrev.inputCs s.hiddenTargetCsPrev sPrev.hiddenValuesPrev qg.1 qg.2 mimic, r.2)

/-- The replay iteration as the specification words it: inputs from history index `i + 1`,
targets and value snapshot both from history index `i`. It is compared with `replay`. -/
def replaySpec (E : Extern F) (a : Actor F) (mimic : Bool) (seed : Nat) : Actor F × Nat :=
  let r := E.rand seed
  let historyIndex := historyIndex r.1 a.historySize a.minSteps
  let sPrev := a.historySamples.get (historyIndex + 1) default
  let s := a.historySamples.get historyIndex default
  let qg := returnLoop a.historySamples a.gamma (historyIndex + 1).toNat (0, 1)
  (learnAll E a sPrev.inputCs s.hiddenTargetCsPrev s.hiddenValuesPrev qg.1 qg.2 mimic, r.2)

/-- The part of `step` before the learning branch: the forward kernel, `pushFront`, the
saturating increment of `historySize` and the new sample. The buffers `inputCs` and
`hiddenTargetCsPrev` belong to the caller (see `stepRecordPtr` for the general call). -/
def stepRecord (E : Extern F) (a : Actor F) (inputCs : List IntBuffer)
    (hiddenTargetCsPrev : IntBuffer) (reward : F) (seed : Nat) : Actor F × Nat :=
  let f := forwardAll E a inputCs seed
  let a1 : Actor F := { f.1 with historySamples := f.1.historySamples.pushFront }
  let a2 : Actor F :=
    if a1.historySize < a1.historySamples.size then { a1 with historySize := a1.historySize + 1 }
    else a1
  (addSample a2 inputCs hiddenTargetCsPrev reward, f.2)

/-- `Actor::step` on buffers `inputCs` and `hiddenTargetCsPrev` that belong to the caller (see
`stepPtr` for the general call). -/
def step (E : Extern F) (a : Actor F) (inputCs : List IntBuffer)
    (hiddenTargetCsPrev : IntBuffer) (reward : F) (learnEnabled mimic : Bool) (seed : Nat) :
    Actor F × Nat :=
  let s := stepRecord E a inputCs hiddenTargetCsPrev reward seed
  if learnEnabled ∧ s.1.historySize > s.1.minSteps + 1 then
    (List.range s.1.historyIters.toNat).foldl
      (fun (acc : Actor F × Nat) _ => replay E acc.1 mimic acc.2) s
  else s

/-- The loop of `initRandom` that draws every action weight with `randf(-0.01f, 0.01f)`. -/
def randomize (E : Extern F) (values : List F) (seed : Nat) : List F × Nat :=
  (List.range values.length).foldl
    (fun (acc : List F × Nat) i =>
      let r := E.randfRange (-0.01) 0.01 acc.2
      (acc.1.set i r.1, r.2))
    (values, seed)

/-- The loop "Create layers" of `initRandom`: one `VisibleLayer` per descriptor, the value
weights set to `0.0f`, the action weights drawn at random. -/
def createLayers (E : Extern F) (hiddenSize : Int3) :
    List VisibleLayerDesc → Nat → List (VisibleLayer F) × Nat
  | [], seed => ([], seed)
  | vld :: rest, seed =>
    let valueWeights := E.initSMLocalRF vld.size ⟨hiddenSize.x, hiddenSize.y, 1⟩ vld.radius
    let actionWeights := E.initSMLocalRF vld.size hiddenSize vld.radius
    let zeros := List.replicate valueWeights.nonZeroValues.length (0 : F)
    let r := randomize E actionWeights.nonZeroValues seed
    let vl : VisibleLayer F :=
      { valueWeights := { valueWeights with nonZeroValues := zeros }
        actionWeights := { actionWeights with nonZeroValues := r.1 } }
    let more := createLayers E hiddenSize rest r.2
    (vl :: more.1, more.2)

/-- `Actor::initRandom`. The buffers of a history sample are allocated without being
initialised; `0` stands for their contents. -/
def initRandom (E : Extern F) (a : Actor F) (hiddenSize : Int3) (historyCapacity : Int)
    (visibleLayerDescs : List VisibleLayerDesc) (seed : Nat) : Actor F × Nat :=
  let numHiddenColumns := hiddenSize.x * hiddenSize.y
  let layers := createLayers E hiddenSize visibleLayerDescs seed
  let sample (old : HistorySample F) : HistorySample F :=
    { inputCs := visibleLayerDescs.map (fun vld => filled (vld.size.x * vld.size.y) 0)
      hiddenTargetCsPrev := filled numHiddenColumns 0
      hiddenValuesPrev := filled numHiddenColumns 0
      reward := old.reward }
  let samples := a.historySamples.resize historyCapacity default
  ({ a with
      visibleLayerDescs := visibleLayerDescs
      hiddenSize := hiddenSize
      visibleLayers := layers.1
      hiddenCs := filled numHiddenColumns 0
      hiddenValues := filled numHiddenColumns 0
      historySize := 0
      historySamples := { samples with data := samples.data.map sample } },
   layers.2)

/-- The arguments of one call of `step`. -/
structure StepCall (F : Type) where
  inputCs : List IntBuffer
  hiddenTargetCsPrev : IntBuffer
  reward : F
  learnEnabled : Bool
  mimic : Bool
deriving DecidableEq, Repr

/-- A sequence of `step` calls, the first call first. -/
def steps (E : Extern F) (s : Actor F × Nat) (calls : List (StepCall F)) : Actor F × Nat :=
  calls.foldl
    (fun (s : Actor F × Nat) c =>
      step E s.1 c.inputCs c.hiddenTargetCsPrev c.reward c.learnEnabled c.mimic s.2)
    s

/-- The property of `hiddenCs` that `forward` maintains: the recorded hidden size, one entry
per column, every entry a slot of the column. -/
def HiddenOk (hiddenSize : Int3) (a : Actor F) : Prop :=
  a.hiddenSize = hiddenSize ∧ a.hiddenCs.length = (hiddenSize.x * hiddenSize.y).toNat ∧
    ∀ c ∈ a.hiddenCs, 0 ≤ c ∧ c < hiddenSize.z

/-- A history sample holds the reward, the input columns and the target actions of a call. -/
def Records (s : HistorySample F) (c : StepCall F) : Prop :=
  s.reward = c.reward ∧ s.inputCs = c.inputCs ∧ s.hiddenTargetCsPrev = c.hiddenTargetCsPrev

/-- The property of the history that `step` maintains, `past` being the calls made so far,
the most recent first, and `layers` the number of visible layers. -/
def HistoryOk (layers : Nat) (past : List (StepCall F)) (a : Actor F) : Prop :=
  0 ≤ a.historySamples.start ∧ 1 ≤ a.historySamples.size ∧
    a.visibleLayers.length = layers ∧
    (∀ s ∈ a.historySamples.data, s.inputCs.length = layers) ∧
    a.historySize = min (past.length : Int) a.historySamples.size ∧
    ∀ k : Nat, (k : Int) < a.historySize →
      ∃ c, past[k]? = some c ∧ Records (a.historySamples.get k default) c

/-! ## Actor.cpp: the buffer arguments of `step` as pointers -/

/-- A `const IntBuffer*` argument of `step`: the address of a buffer of the caller, which the
actor never writes, or the address of the actor's own `hiddenCs` (the reference that
`getHiddenCs()` returns), which the forward kernel rewrites during the call. -/
inductive IntBufferPtr where
  | caller (contents : IntBuffer)
  | hiddenCs
deriving DecidableEq, Repr

/-- The contents `*p` of the buffer that `p` points to, read in the state `a`. -/
def IntBufferPtr.read (p : IntBufferPtr) (a : Actor F) : IntBuffer :=
  match p with
  | IntBufferPtr.caller contents => contents
  | IntBufferPtr.hiddenCs => a.hiddenCs

/-- The forward kernel of `step` on pointer arguments. `forward` reads `*inputCs[vli]` in the
state in which it is called, that is after the columns before it have written their entry of
`hiddenCs`, and writes its own entry of `hiddenCs` after its last read. -/
def forwardAllPtr (E : Extern F) (a : Actor F) (inputCs : List IntBufferPtr) (seed : Nat) :
    Actor F × Nat :=
  (columns a.hiddenSize).foldl
    (fun (s : Actor F × Nat) pos =>
      forward E s.1 pos (inputCs.map (fun (p : IntBufferPtr) => p.read s.1)) s.2)
    (a, seed)

/-- The part of `step` before the learning branch, on pointer arguments: `copyInt` reads the
arguments after the forward kernel; none of the copies writes `hiddenCs`. -/
def stepRecordPtr (E : Extern F) (a : Actor F) (inputCs : List IntBufferPtr)
    (hiddenTargetCsPrev : IntBufferPtr) (reward : F) (seed : Nat) : Actor F × Nat :=
  let f := forwardAllPtr E a inputCs seed
  let a1 : Actor F := { f.1 with historySamples := f.1.historySamples.pushFront }
  let a2 : Actor F :=
    if a1.historySize < a1.historySamples.size then { a1 with historySize := a1.historySize + 1 }
    else a1
  (addSample a2 (inputCs.map (fun (p : IntBufferPtr) => p.read a2)) (hiddenTargetCsPrev.read a2)
    reward, f.2)

/-- `Actor::step`, its buffer arguments being pointers. The learning branch reads the history
samples only. -/
def stepPtr (E : Extern F) (a : Actor F) (inputCs : List IntBufferPtr)
    (hiddenTargetCsPrev : IntBufferPtr) (reward : F) (learnEnabled mimic : Bool) (seed : Nat) :
    Actor F × Nat :=
  let s := stepRecordPtr E a inputCs hiddenTargetCsPrev reward seed
  if learnEnabled ∧ s.1.historySize > s.1.minSteps + 1 then
    (List.range s.1.historyIters.toNat).foldl
      (fun (acc : Actor F × Nat) _ => replay E acc.1 mimic acc.2) s
  else s

/-- The arguments of one call of `step`, the buffers given as pointers. -/
structure StepCallPtr (F : Type) where
  inputCs : List IntBufferPtr
  hiddenTargetCsPrev : IntBufferPtr
  reward : F
  learnEnabled : Bool
  mimic : Bool
deriving DecidableEq, Repr

/-- The arguments of a call with the contents that its buffers have in the state `a`. -/
def StepCallPtr.contents (c : StepCallPtr F) (a : Actor F) : StepCall F :=
  { inputCs := c.inputCs.map (fun (p : IntBufferPtr) => p.read a)
    hiddenTargetCsPrev := c.hiddenTargetCsPrev.read a
    reward := c.reward
    learnEnabled := c.learnEnabled
    mimic := c.mimic }

/-- The call on buffers of the caller that hold the given contents. -/
def StepCall.byPointer (c : StepCall F) : StepCallPtr F :=
  { inputCs := c.inputCs.map IntBufferPtr.caller
    hiddenTargetCsPrev := IntBufferPtr.caller c.hiddenTargetCsPrev
    reward := c.reward
    learnEnabled := c.learnEnabled
    mimic := c.mimic }

/-- A sequence of `step` calls on pointer arguments, the first call first. -/
def stepsPtr (E : Extern F) (s : Actor F × Nat) (calls : List (StepCallPtr F)) : Actor F × Nat :=
  calls.foldl
    (fun (s : Actor F × Nat) c =>
      stepPtr E s.1 c.inputCs c.hiddenTargetCsPrev c.reward c.learnEnabled c.mimic s.2)
    s

end Arith

/-! ## A small instance over exact rationals -/

/-- A connectivity in which every output unit is connected to every input state. -/
def denseMatrix (inSize outSize : Int3) : SparseMatrix ℚ :=
  let inputs := (inSize.x * inSize.y * inSize.z).toNat
  let outputs := (outSize.x * outSize.y * outSize.z).toNat
  { nonZeroValues := List.replicate (outputs * inputs) 1
    rowRanges := (List.range (outputs + 1)).map (fun (r : Nat) => ((r * inputs : Nat) : Int))
    columnIndices := (List.range (outputs * inputs)).map (fun (j : Nat) => ((j % inputs : Nat) : Int)) }

/-- An instance of the declared functions: a positive function for `expf`, a counter as
generator, `randf()` constantly `1/2`, `randf(low, high)` constantly `low`. -/
def exampleExtern : Extern ℚ :=
  { expf := fun x => 1 / (1 + x * x)
    rand := fun seed => ((seed : Int), seed + 1)
    randf := fun seed => (1 / 2, seed + 1)
    randfRange := fun low _ seed => (low, seed + 1)
    initSMLocalRF := fun inSize outSize _ => denseMatrix inSize outSize }

/-- Three calls of `step` on one visible layer of one column. -/
def exampleCalls : List (StepCall ℚ) :=
  [ { inputCs := [[0]], hiddenTargetCsPrev := [0, 0], reward := 1, learnEnabled := true,
      mimic := false },
    { inputCs := [[1]], hiddenTargetCsPrev := [1, 0], reward := 2, learnEnabled := true,
      mimic := false },
    { inputCs := [[0]], hiddenTargetCsPrev := [2, 1], reward := 3, learnEnabled := true,
      mimic := true } ]

/-- Three calls of `step` on one visible layer of one column; the second passes the actor's
own `hiddenCs` as `hiddenTargetCsPrev`. -/
def exampleCallsPtr : List (StepCallPtr ℚ) :=
  [ { inputCs := [IntBufferPtr.caller [0]], hiddenTargetCsPrev := IntBufferPtr.caller [0, 0],
      reward := 1, learnEnabled := true, mimic := false },
    { inputCs := [IntBufferPtr.caller [1]], hiddenTargetCsPrev := IntBufferPtr.hiddenCs,
      reward := 2, learnEnabled := true, mimic := false },
    { inputCs := [IntBufferPtr.caller [0]], hiddenTargetCsPrev := IntBufferPtr.caller [2, 1],
      reward := 3, learnEnabled := true, mimic := true } ]

/-- An actor with two hidden columns of three slots, one visible layer of one column with two
states, and room for two history samples. -/
def exampleActor : Actor ℚ × Nat :=
  initRandom exampleExtern Actor.new ⟨2, 1, 3⟩ 2 [{ size := ⟨1, 1, 2⟩, radius := 1 }] 0

/-- A history whose three samples all have reward `1`. -/
def exampleHistory : CircleBuffer (HistorySample ℚ) :=
  { data := List.replicate 3
      { inputCs := [[0]], hiddenTargetCsPrev := [0, 0], hiddenValuesPrev := [0, 0], reward := 1 }
    start := 0 }

/-- An actor with one hidden column of two slots, one visible layer of one column with two
states, room for three history samples, and the tunables `minSteps = 0`, `historyIters = 1`. -/
def smallActor : Actor ℚ :=
  { (initRandom exampleExtern Actor.new ⟨1, 1, 2⟩ 3 [{ size := ⟨1, 1, 2⟩, radius := 1 }] 0).1 with
    minSteps := 0, historyIters := 1 }

/-- Two calls of `step` with reward `1` and learning enabled. -/
def smallCalls : List (StepCall ℚ) :=
  [ { inputCs := [[0]], hiddenTargetCsPrev := [0], reward := 1, learnEnabled := true,
      mimic := false },
    { inputCs := [[0]], hiddenTargetCsPrev := [0], reward := 1, learnEnabled := true,
      mimic := false } ]

/-- The state of `smallActor` after `smallCalls`; the second call has learned. -/
def trainedActor : Actor ℚ × Nat :=
  steps exampleExtern (smallActor, 0) smallCalls

/-! ## IEEE special values -/

/-- A `float` with exact finite values: a rational, `+∞`, `-∞` or NaN. There is no rounding
and no overflow, and `-0` is not distinguished from `+0`. -/
inductive Flt where
  | fin (q : ℚ)
  | pinf
  | ninf
  | nan
deriving DecidableEq, Repr

namespace Flt

/-- Whether the value is a finite number. -/
def isFinite : Flt → Bool
  | fin _ => true
  | _ => false

/-- Negation. -/
def neg : Flt → Flt
  | fin a => fin (-a)
  | pinf => ninf
  | ninf => pinf
  | nan => nan

/-- Addition: `∞ + (-∞)` is NaN. -/
def add : Flt → Flt → Flt
  | nan, _ => nan
  | _, nan => nan
  | pinf, ninf => nan
  | ninf, pinf => nan
  | pinf, _ => pinf
  | _, pinf => pinf
  | ninf, _ => ninf
  | _, ninf => ninf
  | fin a, fin b => fin (a + b)

/-- An infinity of the sign of `a`, NaN for `a = 0`. -/
def signed (a : ℚ) (positive : Flt) : Flt :=
  if a = 0 then nan else if 0 < a then positive else positive.neg

/-- Multiplication: `0 * ∞` is NaN. -/
def mul : Flt → Flt → Flt
  | nan, _ => nan
  | _, nan => nan
  | fin a, fin b => fin (a * b)
  | fin a, pinf => signed a pinf
  | fin a, ninf => signed a ninf
  | pinf, fin b => signed b pinf
  | ninf, fin b => signed b ninf
  | pinf, pinf => pinf
  | ninf, ninf => pinf
  | pinf, ninf => ninf
  | ninf, pinf => ninf

/-- Division: `x / 0` is `±∞` for `x ≠ 0` and NaN for `x = 0`; `∞ / ∞` is NaN. -/
def div : Flt → Flt → Flt
  | nan, _ => nan
  | _, nan => nan
  | fin a, fin b => if b = 0 then signed a pinf else fin (a / b)
  | fin _, pinf => fin 0
  | fin _, ninf => fin 0
  | pinf, fin b => if 0 ≤ b then pinf else ninf
  | ninf, fin b => if 0 ≤ b then ninf else pinf
  | pinf, pinf => nan
  | pinf, ninf => nan
  | ninf, pinf => nan
  | ninf, ninf => nan

/-- The comparison `<`: false whenever an operand is NaN. -/
def blt : Flt → Flt → Bool
  | fin a, fin b => decide (a < b)
  | ninf, fin _ => true
  | ninf, pinf => true
  | fin _, pinf => true
  | _, _ => false

/-- The comparison `<=`: false whenever an operand is NaN. -/
def ble : Flt → Flt → Bool
  | fin a, fin b => decide (a ≤ b)
  | ninf, fin _ => true
  | ninf, pinf => true
  | ninf, ninf => true
  | fin _, pinf => true
  | pinf, pinf => true
  | _, _ => false

instance : Zero Flt := ⟨fin 0⟩
instance : One Flt := ⟨fin 1⟩
instance : Add Flt := ⟨add⟩
instance : Neg Flt := ⟨neg⟩
instance : Sub Flt := ⟨fun a b => add a (neg b)⟩
instance : Mul Flt := ⟨mul⟩
instance : Div Flt := ⟨div⟩
instance : IntCast Flt := ⟨fun n => fin n⟩
instance : OfScientific Flt := ⟨fun m s e => fin (OfScientific.ofScientific m s e)⟩
instance : LT Flt := ⟨fun a b => blt a b = true⟩
instance : LE Flt := ⟨fun a b => ble a b = true⟩
instance : DecidableRel (fun a b : Flt => a < b) := fun a b => decEq (blt a b) true
instance : DecidableRel (fun a b : Flt => a ≤ b) := fun a b => decEq (ble a b) true

end Flt

/-- An instance of the declared functions over `Flt` in which `initSMLocalRF` connects no
input to any output unit (every row is empty). -/
def unconnectedExtern : Extern Flt :=
  { expf := fun x => match x with
      | Flt.fin q => Flt.fin (1 / (1 + q * q))
      | Flt.pinf => Flt.pinf
      | Flt.ninf => Flt.fin 0
      | Flt.nan => Flt.nan
    rand := fun seed => ((seed : Int), seed + 1)
    randf := fun seed => (Flt.fin (1 / 2), seed + 1)
    randfRange := fun low _ seed => (low, seed + 1)
    initSMLocalRF := fun _ outSize _ =>
      { nonZeroValues := []
        rowRanges := List.replicate ((outSize.x * outSize.y * outSize.z).toNat + 1) 0
        columnIndices := [] } }

/-- An actor over `Flt` with one hidden column of two slots whose visible layer is not
connected to it. -/
def unconnectedActor : Actor Flt :=
  (initRandom unconnectedExtern Actor.new ⟨1, 1, 2⟩ 3 [{ size := ⟨1, 1, 2⟩, radius := 0 }] 0).1

/-- The state inside a third call of `step` on `trainedActor`, with reward `0`, before the
learning branch. -/
def recordedActor : Actor ℚ × Nat :=
  stepRecord exampleExtern trainedActor.1 [[0]] [0] 0 trainedActor.2

/-! ## Theorems -/

section Generic

variable {F : Type} [Zero F] [One F] [Add F] [Sub F] [Mul F] [Div F] [Neg F] [IntCast F]
  [OfScientific F] [LT F] [LE F] [DecidableRel (fun a b : F => a < b)]
  [DecidableRel (fun a b : F => a ≤ b)]

/-! ### Lists and loops -/

theorem foldl_inv {α β : Type} (P : β → Prop) (f : β → α → β)
    (h : ∀ b x, P b → P (f b x)) (l : List α) (b : β) (hb : P b) : P (l.foldl f b) := by
  induction l generalizing b with
  | nil => exact hb
  | cons x xs ih => exact ih _ (h b x hb)

theorem length_wr {α : Type} (l : List α) (i : Int) (v : α) : (wr l i v).length = l.length := by
  unfold wr
  split <;> simp

theorem mem_wr {α : Type} {l : List α} {i : Int} {v c : α} (h : c ∈ wr l i v) :
    c ∈ l ∨ c = v := by
  unfold wr at h
  split at h
  · exact List.mem_or_eq_of_mem_set h
  · exact Or.inl h

/-! ### The frame of the kernels -/

theorem selectFrom_range (cusp : F) (l : List F) (hc : Int) (sumSoFar : F) :
    selectFrom cusp hc sumSoFar l = 0 ∨
      (hc ≤ selectFrom cusp hc sumSoFar l ∧ selectFrom cusp hc sumSoFar l < hc + l.length) := by
  induction l generalizing hc sumSoFar with
  | nil => exact Or.inl rfl
  | cons x rest ih =>
    unfold selectFrom
    split
    · right
      simp only [List.length_cons, Nat.cast_add, Nat.cast_one]
      omega
    · rcases ih (hc + 1) (sumSoFar + x) with h | h
      · exact Or.inl h
      · right
        simp only [List.length_cons, Nat.cast_add, Nat.cast_one]
        omega

theorem length_expActivations (E : Extern F) (sums : List F) :
    (expActivations E sums).length = sums.length := by
  simp [expActivations]

theorem length_logits (a : Actor F) (pos : Int2) (inputCs : List IntBuffer) (count : Int) :
    (logits a pos inputCs count).length = a.hiddenSize.z.toNat := by
  unfold logits
  rw [List.length_map, List.length_range]

theorem forward_hiddenOk (E : Extern F) (hs : Int3) (hz : 1 ≤ hs.z) (a : Actor F) (pos : Int2)
    (inputCs : List IntBuffer) (seed : Nat) (h : HiddenOk hs a) :
    HiddenOk hs (forward E a pos inputCs seed).1 := by
  obtain ⟨rfl, h2, h3⟩ := h
  refine ⟨rfl, ?_, ?_⟩
  · simp only [forward, length_wr]
    exact h2
  · intro c hc
    simp only [forward] at hc
    rcases mem_wr hc with hc | hc
    · exact h3 c hc
    · have hr := selectFrom_range ((E.randf seed).1 * total (expActivations E
        (logits a pos inputCs (valueCount a inputCs
          (address2 pos ⟨a.hiddenSize.x, a.hiddenSize.y⟩)).2)))
        (expActivations E (logits a pos inputCs (valueCount a inputCs
          (address2 pos ⟨a.hiddenSize.x, a.hiddenSize.y⟩)).2)) 0 0
      rw [length_expActivations, length_logits, ← hc] at hr
      omega

/-- Everything `forward` leaves alone. -/
theorem forward_frame (E : Extern F) (a : Actor F) (pos : Int2) (inputCs : List IntBuffer)
    (seed : Nat) :
    (forward E a pos inputCs seed).1 =
      { a with hiddenValues := (forward E a pos inputCs seed).1.hiddenValues
               hiddenCs := (forward E a pos inputCs seed).1.hiddenCs } := rfl

theorem forwardAll_hiddenOk (E : Extern F) (hs : Int3) (hz : 1 ≤ hs.z) (a : Actor F)
    (inputCs : List IntBuffer) (seed : Nat) (h : HiddenOk hs a) :
    HiddenOk hs (forwardAll E a inputCs seed).1 := by
  unfold forwardAll
  exact foldl_inv (fun s : Actor F × Nat => HiddenOk hs s.1) _
    (fun s pos hs1 => forward_hiddenOk E hs hz s.1 pos inputCs s.2 hs1) _ _ h

/-- The members that the weight updates of `learn` leave alone. -/
theorem applyValueDelta_frame (a : Actor F) (inputCsPrev : List IntBuffer) (delta : F)
    (col : Int) :
    ∃ vls, vls.length = a.visibleLayers.length ∧
      applyValueDelta a inputCsPrev delta col = { a with visibleLayers := vls } := by
  unfold applyValueDelta
  exact foldl_inv (fun b : Actor F => ∃ vls, vls.length = a.visibleLayers.length ∧
      b = { a with visibleLayers := vls }) _
    (fun b x ⟨vls, hl, hb⟩ => by
      subst hb
      exact ⟨_, by rw [List.length_set]; exact hl, rfl⟩) _ _ ⟨_, rfl, rfl⟩

theorem applyActionDelta_frame (a : Actor F) (inputCsPrev : List IntBuffer) (delta : F)
    (row : Int) :
    ∃ vls, vls.length = a.visibleLayers.length ∧
      applyActionDelta a inputCsPrev delta row = { a with visibleLayers := vls } := by
  unfold applyActionDelta
  exact foldl_inv (fun b : Actor F => ∃ vls, vls.length = a.visibleLayers.length ∧
      b = { a with visibleLayers := vls }) _
    (fun b x ⟨vls, hl, hb⟩ => by
      subst hb
      exact ⟨_, by rw [List.length_set]; exact hl, rfl⟩) _ _ ⟨_, rfl, rfl⟩

theorem learn_frame (E : Extern F) (a : Actor F) (pos : Int2) (inputCsPrev : List IntBuffer)
    (hiddenTargetCsPrev : IntBuffer) (hiddenValuesPrev : FloatBuffer F) (q g : F)
    (mimic : Bool) :
    ∃ vls, vls.length = a.visibleLayers.length ∧
      learn E a pos inputCsPrev hiddenTargetCsPrev hiddenValuesPrev q g mimic =
        { a with visibleLayers := vls } := by
  unfold learn
  obtain ⟨v1, hl1, h1⟩ := applyValueDelta_frame a inputCsPrev
    (a.alpha * (q + g * rd a.hiddenValues (address2 pos ⟨a.hiddenSize.x, a.hiddenSize.y⟩) 0 -
      (valueCount a inputCsPrev (address2 pos ⟨a.hiddenSize.x, a.hiddenSize.y⟩)).1 /
        ((valueCount a inputCsPrev (address2 pos ⟨a.hiddenSize.x, a.hiddenSize.y⟩)).2 : F)))
    (address2 pos ⟨a.hiddenSize.x, a.hiddenSize.y⟩)
  simp only []
  rw [h1]
  exact foldl_inv (fun b : Actor F => ∃ vls, vls.length = a.visibleLayers.length ∧
      b = { a with visibleLayers := vls }) _
    (fun b x ⟨vls, hl, hb⟩ => by
      subst hb
      obtain ⟨w, hlw, hw⟩ := applyActionDelta_frame { a with visibleLayers := vls } inputCsPrev
        (deltaAction a.beta
          (q + g * rd a.hiddenValues (address2 pos ⟨a.hiddenSize.x, a.hiddenSize.y⟩) 0 -
            rd hiddenValuesPrev (address2 pos ⟨a.hiddenSize.x, a.hiddenSize.y⟩) 0)
          (rd hiddenTargetCsPrev (address2 pos ⟨a.hiddenSize.x, a.hiddenSize.y⟩) 0)
          (expActivations E (logits { a with visibleLayers := v1 } pos inputCsPrev
            (valueCount a inputCsPrev (address2 pos ⟨a.hiddenSize.x, a.hiddenSize.y⟩)).2))
          mimic x)
        (address3 ⟨pos.x, pos.y, x⟩ a.hiddenSize)
      exact ⟨w, hlw.trans hl, hw⟩) _ _ ⟨_, hl1, rfl⟩

theorem learnAll_frame (E : Extern F) (a : Actor F) (inputCsPrev : List IntBuffer)
    (hiddenTargetCsPrev : IntBuffer) (hiddenValuesPrev : FloatBuffer F) (q g : F)
    (mimic : Bool) :
    ∃ vls, vls.length = a.visibleLayers.length ∧
      learnAll E a inputCsPrev hiddenTargetCsPrev hiddenValuesPrev q g mimic =
        { a with visibleLayers := vls } := by
  unfold learnAll
  exact foldl_inv (fun b : Actor F => ∃ vls, vls.length = a.visibleLayers.length ∧
      b = { a with visibleLayers := vls }) _
    (fun b pos ⟨vls, hl, hb⟩ => by
      subst hb
      obtain ⟨w, hlw, hw⟩ := learn_frame E { a with visibleLayers := vls } pos inputCsPrev
        hiddenTargetCsPrev hiddenValuesPrev q g mimic
      exact ⟨w, hlw.trans hl, hw⟩) _ _ ⟨_, rfl, rfl⟩

theorem replay_frame (E : Extern F) (a : Actor F) (mimic : Bool) (seed : Nat) :
    ∃ vls, vls.length = a.visibleLayers.length ∧
      (replay E a mimic seed).1 = { a with visibleLayers := vls } := by
  unfold replay
  exact learnAll_frame E a _ _ _ _ _ mimic

theorem HiddenOk.congr {hs : Int3} {a b : Actor F} (h : HiddenOk hs a)
    (h1 : b.hiddenSize = a.hiddenSize) (h2 : b.hiddenCs = a.hiddenCs) : HiddenOk hs b := by
  unfold HiddenOk at *
  rw [h1, h2]
  exact h

theorem stepRecord_hidden (E : Extern F) (a : Actor F) (inputCs : List IntBuffer)
    (hiddenTargetCsPrev : IntBuffer) (reward : F) (seed : Nat) :
    (stepRecord E a inputCs hiddenTargetCsPrev reward seed).1.hiddenSize =
        (forwardAll E a inputCs seed).1.hiddenSize ∧
      (stepRecord E a inputCs hiddenTargetCsPrev reward seed).1.hiddenCs =
        (forwardAll E a inputCs seed).1.hiddenCs := by
  unfold stepRecord addSample
  simp only []
  split <;> exact ⟨rfl, rfl⟩

theorem replays_frame (E : Extern F) (mimic : Bool) (n : Nat) (s : Actor F × Nat) :
    ∃ vls, vls.length = s.1.visibleLayers.length ∧
      ((List.range n).foldl (fun (acc : Actor F × Nat) _ => replay E acc.1 mimic acc.2)
        s).1 = { s.1 with visibleLayers := vls } := by
  exact foldl_inv (fun b : Actor F × Nat => ∃ vls, vls.length = s.1.visibleLayers.length ∧
      b.1 = { s.1 with visibleLayers := vls }) _
    (fun b _ ⟨vls, hl, hb⟩ => by
      obtain ⟨w, hlw, hw⟩ := replay_frame E b.1 mimic b.2
      refine ⟨w, ?_, by rw [hw, hb]⟩
      rw [hlw, hb]
      exact hl) _ _ ⟨_, rfl, rfl⟩

/-- The learning branch of `step` changes the weights only. -/
theorem step_frame (E : Extern F) (a : Actor F) (inputCs : List IntBuffer)
    (hiddenTargetCsPrev : IntBuffer) (reward : F) (learnEnabled mimic : Bool) (seed : Nat) :
    ∃ vls, vls.length = (stepRecord E a inputCs hiddenTargetCsPrev reward seed).1.visibleLayers.length ∧
      (step E a inputCs hiddenTargetCsPrev reward learnEnabled mimic seed).1 =
        { (stepRecord E a inputCs hiddenTargetCsPrev reward seed).1 with visibleLayers := vls } := by
  unfold step
  simp only []
  split
  · exact replays_frame E mimic _ _
  · exact ⟨_, rfl, rfl⟩

theorem step_hiddenOk (E : Extern F) (hs : Int3) (hz : 1 ≤ hs.z) (a : Actor F)
    (inputCs : List IntBuffer) (hiddenTargetCsPrev : IntBuffer) (reward : F)
    (learnEnabled mimic : Bool) (seed : Nat) (h : HiddenOk hs a) :
    HiddenOk hs (step E a inputCs hiddenTargetCsPrev reward learnEnabled mimic seed).1 := by
  obtain ⟨vls, -, hv⟩ := step_frame E a inputCs hiddenTargetCsPrev reward learnEnabled mimic seed
  obtain ⟨h1, h2⟩ := stepRecord_hidden E a inputCs hiddenTargetCsPrev reward seed
  refine (forwardAll_hiddenOk E hs hz a inputCs seed h).congr ?_ ?_
  · rw [hv]; exact h1
  · rw [hv]; exact h2

theorem initRandom_hiddenOk (E : Extern F) (a : Actor F) (hs : Int3) (hz : 1 ≤ hs.z)
    (historyCapacity : Int) (vlds : List VisibleLayerDesc) (seed : Nat) :
    HiddenOk hs (initRandom E a hs historyCapacity vlds seed).1 := by
  refine ⟨rfl, ?_, ?_⟩
  · simp [initRandom, filled]
  · intro c hc
    simp only [initRandom, filled] at hc
    rw [List.eq_of_mem_replicate hc]
    omega

theorem steps_hiddenOk (E : Extern F) (hs : Int3) (hz : 1 ≤ hs.z) (calls : List (StepCall F))
    (s : Actor F × Nat) (h : HiddenOk hs s.1) : HiddenOk hs (steps E s calls).1 := by
  unfold steps
  exact foldl_inv (fun b : Actor F × Nat => HiddenOk hs b.1) _
    (fun b c hb => step_hiddenOk E hs hz b.1 _ _ _ _ _ b.2 hb) _ _ h

/-- C1. After `initRandom` with hidden size `(width, height, depth)`, `depth ≥ 1`, and after any
sequence of `step` calls, `hiddenCs` has `width * height` entries and every entry `c` satisfies
`0 ≤ c < depth`. This holds for every arithmetic `F`, every `expf`, every generator and every
arguments of the calls. -/
theorem hiddenCs_shape (E : Extern F) (a : Actor F) (hiddenSize : Int3) (historyCapacity : Int)
    (visibleLayerDescs : List VisibleLayerDesc) (seed : Nat) (calls : List (StepCall F))
    (hdepth : 1 ≤ hiddenSize.z) :
    ((steps E (initRandom E a hiddenSize historyCapacity visibleLayerDescs seed) calls).1.hiddenCs.length
        = (hiddenSize.x * hiddenSize.y).toNat) ∧
      ∀ c ∈ (steps E (initRandom E a hiddenSize historyCapacity visibleLayerDescs seed)
        calls).1.hiddenCs, 0 ≤ c ∧ c < hiddenSize.z :=
  (steps_hiddenOk E hiddenSize hdepth calls _
    (initRandom_hiddenOk E a hiddenSize hdepth historyCapacity visibleLayerDescs seed)).2

/-! ### The history counter -/

theorem forwardAll_frame (E : Extern F) (a : Actor F) (inputCs : List IntBuffer) (seed : Nat) :
    ∃ hv hc, (forwardAll E a inputCs seed).1 = { a with hiddenValues := hv, hiddenCs := hc } := by
  unfold forwardAll
  exact foldl_inv
    (fun b : Actor F × Nat => ∃ hv hc, b.1 = { a with hiddenValues := hv, hiddenCs := hc }) _
    (fun b pos ⟨hv, hc, hb⟩ => by
      refine ⟨(forward E b.1 pos inputCs b.2).1.hiddenValues,
        (forward E b.1 pos inputCs b.2).1.hiddenCs, ?_⟩
      rw [forward_frame, hb]) _ _ ⟨_, _, rfl⟩

/-- What `step` does to the history counter and to the storage of the history buffer. -/
theorem step_history (E : Extern F) (a : Actor F) (inputCs : List IntBuffer)
    (hiddenTargetCsPrev : IntBuffer) (reward : F) (learnEnabled mimic : Bool) (seed : Nat) :
    (step E a inputCs hiddenTargetCsPrev reward learnEnabled mimic seed).1.historySize =
        (if a.historySize < a.historySamples.size then a.historySize + 1 else a.historySize) ∧
      (step E a inputCs hiddenTargetCsPrev reward learnEnabled mimic seed).1.historySamples.size =
        a.historySamples.size := by
  obtain ⟨vls, -, hv⟩ := step_frame E a inputCs hiddenTargetCsPrev reward learnEnabled mimic seed
  obtain ⟨fv, fc, hf⟩ := forwardAll_frame E a inputCs seed
  rw [hv]
  unfold stepRecord addSample
  simp only [hf, CircleBuffer.size, CircleBuffer.pushFront, CircleBuffer.put, length_wr]
  constructor
  · split <;> rfl
  · split <;> simp [length_wr]

theorem length_resize {α : Type} (l : List α) (size : Int) (d : α) :
    (resize l size d).length = size.toNat := by
  simp only [resize, List.length_append, List.length_take, List.length_replicate]
  omega

theorem initRandom_history (E : Extern F) (a : Actor F) (hs : Int3) (historyCapacity : Int)
    (vlds : List VisibleLayerDesc) (seed : Nat) :
    (initRandom E a hs historyCapacity vlds seed).1.historySize = 0 ∧
      (initRandom E a hs historyCapacity vlds seed).1.historySamples.size =
        historyCapacity.toNat := by
  simp [initRandom, CircleBuffer.size, CircleBuffer.resize, length_resize]

theorem steps_history (E : Extern F) (calls : List (StepCall F)) (s : Actor F × Nat) :
    (steps E s calls).1.historySamples.size = s.1.historySamples.size ∧
      (0 ≤ s.1.historySize → s.1.historySize ≤ s.1.historySamples.size →
        (steps E s calls).1.historySize =
          min (s.1.historySize + calls.length) s.1.historySamples.size) := by
  induction calls generalizing s with
  | nil =>
    refine ⟨rfl, fun _ h2 => ?_⟩
    simp only [steps, List.foldl_nil, List.length_nil, Nat.cast_zero, add_zero]
    omega
  | cons c rest ih =>
    have hs := step_history E s.1 c.inputCs c.hiddenTargetCsPrev c.reward c.learnEnabled
      c.mimic s.2
    have hr := ih (step E s.1 c.inputCs c.hiddenTargetCsPrev c.reward c.learnEnabled c.mimic s.2)
    have hst : steps E s (c :: rest) = steps E (step E s.1 c.inputCs c.hiddenTargetCsPrev
      c.reward c.learnEnabled c.mimic s.2) rest := rfl
    rw [hst]
    refine ⟨by rw [hr.1, hs.2], fun h1 h2 => ?_⟩
    rw [hr.2 (by rw [hs.1]; split <;> omega) (by rw [hs.1, hs.2]; split <;> omega), hs.1, hs.2]
    simp only [List.length_cons, Nat.cast_add, Nat.cast_one]
    split <;> omega

theorem historySize_eq (E : Extern F) (a : Actor F) (hiddenSize : Int3)
    (historyCapacity : Int) (visibleLayerDescs : List VisibleLayerDesc) (seed : Nat)
    (calls : List (StepCall F)) :
    (steps E (initRandom E a hiddenSize historyCapacity visibleLayerDescs seed) calls).1.historySize
      = min (calls.length : Int) historyCapacity.toNat := by
  obtain ⟨h0, hC⟩ := initRandom_history E a hiddenSize historyCapacity visibleLayerDescs seed
  have h := (steps_history E calls
    (initRandom E a hiddenSize historyCapacity visibleLayerDescs seed)).2
  rw [h0, hC] at h
  rw [h (le_refl 0) (by omega)]
  simp

/-- C2. Starting from `initRandom` with history capacity `C`, after `n` calls of `step` the
counter `historySize` equals `min(n, C)`; and one more call adds exactly one while the counter
is below `C` and leaves it alone at `C`, so it never decreases and never exceeds `C`. (The
capacity is an array size; `toNat` reads a negative `int` as no storage.) -/
theorem historySize_saturates (E : Extern F) (a : Actor F) (hiddenSize : Int3)
    (historyCapacity : Int) (visibleLayerDescs : List VisibleLayerDesc) (seed : Nat)
    (calls : List (StepCall F)) (c : StepCall F) :
    (steps E (initRandom E a hiddenSize historyCapacity visibleLayerDescs seed) calls).1.historySize
        = min (calls.length : Int) historyCapacity.toNat ∧
      (steps E (initRandom E a hiddenSize historyCapacity visibleLayerDescs seed)
          (calls ++ [c])).1.historySize =
        (if (steps E (initRandom E a hiddenSize historyCapacity visibleLayerDescs seed)
            calls).1.historySize < historyCapacity.toNat
         then (steps E (initRandom E a hiddenSize historyCapacity visibleLayerDescs seed)
            calls).1.historySize + 1
         else (steps E (initRandom E a hiddenSize historyCapacity visibleLayerDescs seed)
            calls).1.historySize) := by
  refine ⟨historySize_eq E a hiddenSize historyCapacity visibleLayerDescs seed calls, ?_⟩
  rw [historySize_eq, historySize_eq]
  simp only [List.length_append, List.length_cons, List.length_nil, Nat.cast_add, Nat.cast_one]
  split <;> omega

/-! ### The contents of the history -/

theorem rd_wr_same {α : Type} (l : List α) (i : Int) (v d : α) (h0 : 0 ≤ i)
    (h1 : i < l.length) : rd (wr l i v) i d = v := by
  have h2 : i.toNat < l.length := by omega
  simp [rd, wr, h0, List.getD_eq_getElem?_getD, List.getElem?_set, h2]

theorem rd_wr_ne {α : Type} (l : List α) (i j : Int) (v d : α) (h : i ≠ j) (hi : 0 ≤ i)
    (hj : 0 ≤ j) : rd (wr l i v) j d = rd l j d := by
  have h2 : i.toNat ≠ j.toNat := by omega
  simp [rd, wr, hi, hj, List.getD_eq_getElem?_getD, List.getElem?_set, h2]

/-- The copy loop of `step` over the visible layers stores exactly the supplied inputs. -/
theorem copyLoop_getElem? (inputCs : List IntBuffer) (n : Nat) (ins : List IntBuffer) (i : Nat) :
    ((List.range n).foldl
      (fun (ins : List IntBuffer) vli =>
        ins.set vli (copy (inputCs.getD vli []) (ins.getD vli []))) ins)[i]? =
      if i < n ∧ i < ins.length then some (inputCs.getD i []) else ins[i]? := by
  induction n with
  | zero => simp
  | succ n ih =>
    rw [List.range_succ, List.foldl_append]
    simp only [List.foldl_cons, List.foldl_nil, List.getElem?_set, copy]
    have hl : ((List.range n).foldl (fun (ins : List IntBuffer) vli =>
        ins.set vli (copy (inputCs.getD vli []) (ins.getD vli []))) ins).length = ins.length := by
      exact foldl_inv (fun b : List IntBuffer => b.length = ins.length) _
        (fun b x hb => by
          show (b.set _ _).length = ins.length
          rw [List.length_set]; exact hb) _ _ rfl
    simp only [copy] at hl ih
    rw [hl, ih]
    by_cases h1 : n = i
    · subst h1
      by_cases h2 : n < ins.length
      · simp [h2]
      · simp only [h2, and_false, if_false, lt_add_iff_pos_right, zero_lt_one, true_and]
        rw [if_pos trivial, List.getElem?_eq_none (Nat.le_of_not_lt h2)]
    · by_cases h2 : i < n
      · have : i < n + 1 := by omega
        simp [h1, h2, this]
      · have : ¬ i < n + 1 := by omega
        simp [h1, h2, this]

theorem copyLoop_eq (inputCs ins : List IntBuffer) (h : ins.length = inputCs.length) :
    (List.range inputCs.length).foldl
      (fun (ins : List IntBuffer) vli =>
        ins.set vli (copy (inputCs.getD vli []) (ins.getD vli []))) ins = inputCs := by
  apply List.ext_getElem?
  intro i
  rw [copyLoop_getElem?, h]
  by_cases h1 : i < inputCs.length
  · simp [h1, List.getD_eq_getElem?_getD]
  · simp only [h1, and_self, if_false]
    rw [List.getElem?_eq_none (by omega), List.getElem?_eq_none (by omega)]

namespace CircleBuffer

variable {T : Type}

theorem slot_range (b : CircleBuffer T) (index : Int) (h0 : 0 ≤ b.start) (h1 : 1 ≤ b.size)
    (hi : 0 ≤ index) : 0 ≤ b.slot index ∧ b.slot index < b.size := by
  unfold slot
  rw [Int.tmod_eq_emod (by omega) (by omega)]
  exact ⟨Int.emod_nonneg _ (by omega), Int.emod_lt_of_pos _ (by omega)⟩

theorem pushFront_start (b : CircleBuffer T) (h0 : 0 ≤ b.start) (h1 : 1 ≤ b.size) :
    0 ≤ b.pushFront.start := by
  unfold pushFront
  simp only []
  split <;> omega

theorem pushFront_size (b : CircleBuffer T) : b.pushFront.size = b.size := rfl

/-- After `pushFront`, index `k + 1` is the slot that index `k` was. -/
theorem pushFront_slot_succ (b : CircleBuffer T) (h0 : 0 ≤ b.start)
    (k : Int) (hk : 0 ≤ k) : b.pushFront.slot (k + 1) = b.slot k := by
  unfold slot pushFront
  simp only [size]
  have hs : (0 : Int) ≤ b.data.length := by omega
  split
  · have h2 : b.start = 0 := by omega
    rw [Int.tmod_eq_emod (by omega) hs, Int.tmod_eq_emod (by omega) hs, h2]
    have : (0 : Int) - 1 + b.data.length + (k + 1) = b.data.length + k := by ring
    rw [this, Int.add_emod_self_left, zero_add]
  · congr 1
    ring

/-- After `pushFront`, index `0` is a slot different from those of the indices `1 .. n - 1`. -/
theorem pushFront_slot_zero_ne (b : CircleBuffer T) (h0 : 0 ≤ b.start) (h1 : 1 ≤ b.size)
    (k : Int) (hk : 0 ≤ k) (hk1 : k + 1 < b.size) :
    b.pushFront.slot 0 ≠ b.pushFront.slot (k + 1) := by
  have hp := pushFront_start b h0 h1
  unfold slot
  rw [pushFront_size, Int.tmod_eq_emod (by omega) (by omega),
    Int.tmod_eq_emod (by omega) (by omega)]
  intro h
  rw [Int.emod_eq_emod_iff_emod_sub_eq_zero] at h
  have h3 : b.pushFront.start + 0 - (b.pushFront.start + (k + 1)) = -(k + 1) := by ring
  rw [h3, Int.neg_emod] at h
  have h5 : (b.size - (k + 1)) % b.size = b.size - (k + 1) :=
    Int.emod_eq_of_lt (by omega) (by omega)
  omega

theorem get_put_zero (b : CircleBuffer T) (v d : T) (h0 : 0 ≤ b.start) (h1 : 1 ≤ b.size) :
    (b.put 0 v).get 0 d = v := by
  have hr := slot_range b 0 h0 h1 (le_refl 0)
  unfold get put
  have : ({ b with data := wr b.data (b.slot 0) v } : CircleBuffer T).slot 0 = b.slot 0 := by
    simp [slot, size, length_wr]
  rw [this]
  exact rd_wr_same _ _ _ _ hr.1 hr.2

/-- The push of `step`: index `0` holds the new element and index `k + 1` holds what index `k`
held, as long as `k + 1` is below the capacity. -/
theorem get_push_succ (b : CircleBuffer T) (v d : T) (h0 : 0 ≤ b.start) (h1 : 1 ≤ b.size)
    (k : Nat) (hk : (k : Int) + 1 < b.size) :
    (b.pushFront.put 0 v).get ((k : Int) + 1) d = b.get k d := by
  have hp := pushFront_start b h0 h1
  have hne := pushFront_slot_zero_ne b h0 h1 k (by omega) hk
  have hz := slot_range b.pushFront 0 hp h1 (le_refl 0)
  have hk1 := slot_range b.pushFront ((k : Int) + 1) hp h1 (by omega)
  unfold get put
  have : ({ b.pushFront with data := wr b.pushFront.data (b.pushFront.slot 0) v } :
      CircleBuffer T).slot ((k : Int) + 1) = b.pushFront.slot ((k : Int) + 1) := by
    simp [slot, size, length_wr]
  rw [this, rd_wr_ne _ _ _ _ _ hne hz.1 hk1.1, pushFront_slot_succ b h0 k (by omega)]
  rfl

end CircleBuffer

theorem rd_mem {α : Type} (l : List α) (i : Int) (d : α) (h0 : 0 ≤ i) (h1 : i < l.length) :
    rd l i d ∈ l := by
  have h2 : i.toNat < l.length := by omega
  simp only [rd, h0, if_true, List.getD_eq_getElem?_getD, List.getElem?_eq_getElem h2,
    Option.getD_some]
  exact List.getElem_mem h2

/-- The sample that `step` writes at index `0` of the history. -/
theorem step_samples (E : Extern F) (a : Actor F) (inputCs : List IntBuffer)
    (hiddenTargetCsPrev : IntBuffer) (reward : F) (learnEnabled mimic : Bool) (seed : Nat) :
    (step E a inputCs hiddenTargetCsPrev reward learnEnabled mimic seed).1.historySamples =
      a.historySamples.pushFront.put 0
        { inputCs := (List.range a.visibleLayers.length).foldl
            (fun (ins : List IntBuffer) vli =>
              ins.set vli (copy (inputCs.getD vli []) (ins.getD vli [])))
            (a.historySamples.pushFront.get 0 default).inputCs
          hiddenTargetCsPrev := hiddenTargetCsPrev
          hiddenValuesPrev := (forwardAll E a inputCs seed).1.hiddenValues
          reward := reward } := by
  obtain ⟨vls, -, hv⟩ := step_frame E a inputCs hiddenTargetCsPrev reward learnEnabled mimic seed
  obtain ⟨fv, fc, hf⟩ := forwardAll_frame E a inputCs seed
  rw [hv]
  unfold stepRecord addSample
  simp only [hf, copy]
  split <;> rfl

theorem step_layers (E : Extern F) (a : Actor F) (inputCs : List IntBuffer)
    (hiddenTargetCsPrev : IntBuffer) (reward : F) (learnEnabled mimic : Bool) (seed : Nat) :
    (step E a inputCs hiddenTargetCsPrev reward learnEnabled mimic seed).1.visibleLayers.length =
      a.visibleLayers.length := by
  obtain ⟨vls, hl, hv⟩ := step_frame E a inputCs hiddenTargetCsPrev reward learnEnabled mimic seed
  obtain ⟨fv, fc, hf⟩ := forwardAll_frame E a inputCs seed
  rw [hv]
  simp only [hl]
  unfold stepRecord addSample
  simp only [hf]
  split <;> rfl

theorem step_historyOk (E : Extern F) (layers : Nat) (past : List (StepCall F)) (a : Actor F)
    (c : StepCall F) (seed : Nat) (h : HistoryOk layers past a)
    (hc : c.inputCs.length = layers) :
    HistoryOk layers (c :: past)
      (step E a c.inputCs c.hiddenTargetCsPrev c.reward c.learnEnabled c.mimic seed).1 := by
  obtain ⟨hstart, hsize, hL, hins, hhs, hget⟩ := h
  have hsam := step_samples E a c.inputCs c.hiddenTargetCsPrev c.reward c.learnEnabled c.mimic seed
  have hlay := step_layers E a c.inputCs c.hiddenTargetCsPrev c.reward c.learnEnabled c.mimic seed
  obtain ⟨hcount, hsz⟩ :=
    step_history E a c.inputCs c.hiddenTargetCsPrev c.reward c.learnEnabled c.mimic seed
  have hp := CircleBuffer.pushFront_start a.historySamples hstart hsize
  have hslot := CircleBuffer.slot_range a.historySamples.pushFront 0 hp hsize (le_refl 0)
  have hold : (a.historySamples.pushFront.get 0 default).inputCs.length = c.inputCs.length := by
    rw [hc]
    exact hins _ (rd_mem _ _ _ hslot.1 hslot.2)
  rw [hL, ← hc, copyLoop_eq _ _ hold] at hsam
  refine ⟨?_, ?_, ?_, ?_, ?_, ?_⟩
  · rw [hsam]; exact hp
  · rw [hsz]; exact hsize
  · rw [hlay]; exact hL
  · intro s hs
    rw [hsam] at hs
    rcases mem_wr hs with hs | hs
    · exact hins s hs
    · rw [hs]; exact hc
  · rw [hcount, hsz, hhs]
    simp only [List.length_cons, Nat.cast_add, Nat.cast_one]
    split <;> omega
  · intro k hk
    rw [hsam]
    cases k with
    | zero =>
      refine ⟨c, by simp, ?_⟩
      rw [Nat.cast_zero, CircleBuffer.get_put_zero _ _ _ hp hsize]
      exact ⟨rfl, rfl, rfl⟩
    | succ k =>
      have hk1 : ((k : Int) + 1) < a.historySamples.size := by
        rw [hcount, hhs] at hk
        push_cast at hk
        split at hk <;> omega
      have hk2 : (k : Int) < a.historySize := by
        rw [hcount] at hk
        push_cast at hk
        split at hk <;> omega
      obtain ⟨c0, hc0, hr⟩ := hget k hk2
      refine ⟨c0, by rw [List.getElem?_cons_succ]; exact hc0, ?_⟩
      rw [Nat.cast_succ, CircleBuffer.get_push_succ _ _ _ hstart hsize k hk1]
      exact hr

theorem length_createLayers (E : Extern F) (hs : Int3) (vlds : List VisibleLayerDesc)
    (seed : Nat) : (createLayers E hs vlds seed).1.length = vlds.length := by
  induction vlds generalizing seed with
  | nil => rfl
  | cons vld rest ih =>
    simp only [createLayers, List.length_cons]
    rw [ih]

theorem initRandom_historyOk (E : Extern F) (a : Actor F) (hs : Int3) (historyCapacity : Int)
    (vlds : List VisibleLayerDesc) (seed : Nat) (hcap : 1 ≤ historyCapacity)
    (hstart : 0 ≤ a.historySamples.start) :
    HistoryOk vlds.length [] (initRandom E a hs historyCapacity vlds seed).1 := by
  obtain ⟨h0, hC⟩ := initRandom_history E a hs historyCapacity vlds seed
  refine ⟨hstart, by rw [hC]; omega, length_createLayers E hs vlds seed, ?_, ?_, ?_⟩
  · intro s hs1
    simp only [initRandom, List.mem_map] at hs1
    obtain ⟨old, -, rfl⟩ := hs1
    simp
  · rw [h0, hC]
    simp
  · intro k hk
    rw [h0] at hk
    omega

theorem steps_historyOk (E : Extern F) (layers : Nat) (calls : List (StepCall F))
    (past : List (StepCall F)) (s : Actor F × Nat) (h : HistoryOk layers past s.1)
    (hshape : ∀ c ∈ calls, c.inputCs.length = layers) :
    HistoryOk layers (calls.reverse ++ past) (steps E s calls).1 := by
  induction calls generalizing past s with
  | nil => exact h
  | cons c rest ih =>
    have hst : steps E s (c :: rest) = steps E (step E s.1 c.inputCs c.hiddenTargetCsPrev
      c.reward c.learnEnabled c.mimic s.2) rest := rfl
    rw [hst, List.reverse_cons, List.append_assoc]
    exact ih (c :: past) _
      (step_historyOk E layers past s.1 c s.2 h (hshape c (List.mem_cons_self _ _)))
      (fun c1 hc1 => hshape c1 (List.mem_cons_of_mem _ hc1))

/-! ### The history under pointer arguments -/

theorem read_congr (p : IntBufferPtr) (a b : Actor F) (h : a.hiddenCs = b.hiddenCs) :
    p.read a = p.read b := by
  cases p
  · rfl
  · exact h

theorem contents_congr (c : StepCallPtr F) (a b : Actor F) (h : a.hiddenCs = b.hiddenCs) :
    c.contents a = c.contents b := by
  unfold StepCallPtr.contents
  rw [read_congr c.hiddenTargetCsPrev a b h]
  have hm : c.inputCs.map (fun (p : IntBufferPtr) => p.read a) =
      c.inputCs.map (fun (p : IntBufferPtr) => p.read b) :=
    List.map_congr_left (fun p _ => read_congr p a b h)
  rw [hm]

theorem map_read_caller (inputCs : List IntBuffer) (a : Actor F) :
    (inputCs.map IntBufferPtr.caller).map (fun (p : IntBufferPtr) => p.read a) = inputCs := by
  induction inputCs with
  | nil => rfl
  | cons b rest ih =>
    rw [List.map_cons, List.map_cons, ih]
    rfl

/-- On buffers of the caller the forward kernel on pointers is the forward kernel by value. -/
theorem forwardAllPtr_caller (E : Extern F) (a : Actor F) (inputCs : List IntBuffer)
    (seed : Nat) :
    forwardAllPtr E a (inputCs.map IntBufferPtr.caller) seed = forwardAll E a inputCs seed := by
  unfold forwardAllPtr forwardAll
  simp only [map_read_caller]

/-- On buffers of the caller `stepPtr` is `step`. -/
theorem stepPtr_caller (E : Extern F) (a : Actor F) (inputCs : List IntBuffer)
    (hiddenTargetCsPrev : IntBuffer) (reward : F) (learnEnabled mimic : Bool) (seed : Nat) :
    stepPtr E a (inputCs.map IntBufferPtr.caller) (IntBufferPtr.caller hiddenTargetCsPrev) reward
        learnEnabled mimic seed =
      step E a inputCs hiddenTargetCsPrev reward learnEnabled mimic seed := by
  unfold stepPtr step stepRecordPtr stepRecord
  simp only [forwardAllPtr_caller, map_read_caller]
  rfl

/-- On buffers of the caller `stepsPtr` is `steps`. -/
theorem stepsPtr_caller (E : Extern F) (calls : List (StepCall F)) (s : Actor F × Nat) :
    stepsPtr E s (calls.map StepCall.byPointer) = steps E s calls := by
  induction calls generalizing s with
  | nil => rfl
  | cons c rest ih =>
    have h1 : stepsPtr E s ((c :: rest).map StepCall.byPointer) =
        stepsPtr E (stepPtr E s.1 (c.inputCs.map IntBufferPtr.caller)
          (IntBufferPtr.caller c.hiddenTargetCsPrev) c.reward c.learnEnabled c.mimic s.2)
          (rest.map StepCall.byPointer) := rfl
    have h2 : steps E s (c :: rest) = steps E (step E s.1 c.inputCs c.hiddenTargetCsPrev
      c.reward c.learnEnabled c.mimic s.2) rest := rfl
    rw [h1, h2, stepPtr_caller, ih]

theorem forwardAllPtr_frame (E : Extern F) (a : Actor F) (inputCs : List IntBufferPtr)
    (seed : Nat) :
    ∃ hv hc, (forwardAllPtr E a inputCs seed).1 = { a with hiddenValues := hv, hiddenCs := hc } := by
  unfold forwardAllPtr
  exact foldl_inv
    (fun b : Actor F × Nat => ∃ hv hc, b.1 = { a with hiddenValues := hv, hiddenCs := hc }) _
    (fun b pos ⟨hv, hc, hb⟩ => by
      refine ⟨(forward E b.1 pos (inputCs.map (fun (p : IntBufferPtr) => p.read b.1)) b.2).1.hiddenValues,
        (forward E b.1 pos (inputCs.map (fun (p : IntBufferPtr) => p.read b.1)) b.2).1.hiddenCs, ?_⟩
      show (forward E b.1 pos (inputCs.map (fun (p : IntBufferPtr) => p.read b.1)) b.2).1 = _
      rw [forward_frame, hb]) _ _ ⟨_, _, rfl⟩

/-- The learning branch of `stepPtr` changes the weights only. -/
theorem stepPtr_frame (E : Extern F) (a : Actor F) (inputCs : List IntBufferPtr)
    (hiddenTargetCsPrev : IntBufferPtr) (reward : F) (learnEnabled mimic : Bool) (seed : Nat) :
    ∃ vls, vls.length =
        (stepRecordPtr E a inputCs hiddenTargetCsPrev reward seed).1.visibleLayers.length ∧
      (stepPtr E a inputCs hiddenTargetCsPrev reward learnEnabled mimic seed).1 =
        { (stepRecordPtr E a inputCs hiddenTargetCsPrev reward seed).1 with
          visibleLayers := vls } := by
  unfold stepPtr
  simp only []
  split
  · exact replays_frame E mimic _ _
  · exact ⟨_, rfl, rfl⟩

/-- When `stepPtr` returns, `hiddenCs` is what its forward kernel wrote: the actions that the
call selected. -/
theorem stepPtr_hiddenCs (E : Extern F) (a : Actor F) (inputCs : List IntBufferPtr)
    (hiddenTargetCsPrev : IntBufferPtr) (reward : F) (learnEnabled mimic : Bool) (seed : Nat) :
    (stepPtr E a inputCs hiddenTargetCsPrev reward learnEnabled mimic seed).1.hiddenCs =
      (forwardAllPtr E a inputCs seed).1.hiddenCs := by
  obtain ⟨vls, -, hv⟩ :=
    stepPtr_frame E a inputCs hiddenTargetCsPrev reward learnEnabled mimic seed
  rw [hv]
  unfold stepRecordPtr addSample
  simp only []
  split <;> rfl

theorem stepPtr_history (E : Extern F) (a : Actor F) (inputCs : List IntBufferPtr)
    (hiddenTargetCsPrev : IntBufferPtr) (reward : F) (learnEnabled mimic : Bool) (seed : Nat) :
    (stepPtr E a inputCs hiddenTargetCsPrev reward learnEnabled mimic seed).1.historySize =
        (if a.historySize < a.historySamples.size then a.historySize + 1 else a.historySize) ∧
      (stepPtr E a inputCs hiddenTargetCsPrev reward learnEnabled mimic seed).1.historySamples.size =
        a.historySamples.size := by
  obtain ⟨vls, -, hv⟩ :=
    stepPtr_frame E a inputCs hiddenTargetCsPrev reward learnEnabled mimic seed
  obtain ⟨fv, fc, hf⟩ := forwardAllPtr_frame E a inputCs seed
  rw [hv]
  unfold stepRecordPtr addSample
  simp only [hf, CircleBuffer.size, CircleBuffer.pushFront, CircleBuffer.put, length_wr]
  constructor
  · split <;> rfl
  · split <;> simp [length_wr]

/-- The sample that `stepPtr` writes at index `0` of the history: the buffers as they are after
the forward kernel. -/
theorem stepPtr_samples (E : Extern F) (a : Actor F) (inputCs : List IntBufferPtr)
    (hiddenTargetCsPrev : IntBufferPtr) (reward : F) (learnEnabled mimic : Bool) (seed : Nat) :
    (stepPtr E a inputCs hiddenTargetCsPrev reward learnEnabled mimic seed).1.historySamples =
      a.historySamples.pushFront.put 0
        { inputCs := (List.range a.visibleLayers.length).foldl
            (fun (ins : List IntBuffer) vli =>
              ins.set vli (copy
                ((inputCs.map (fun (p : IntBufferPtr) =>
                  p.read (forwardAllPtr E a inputCs seed).1)).getD vli []) (ins.getD vli [])))
            (a.historySamples.pushFront.get 0 default).inputCs
          hiddenTargetCsPrev := hiddenTargetCsPrev.read (forwardAllPtr E a inputCs seed).1
          hiddenValuesPrev := (forwardAllPtr E a inputCs seed).1.hiddenValues
          reward := reward } := by
  obtain ⟨vls, -, hv⟩ :=
    stepPtr_frame E a inputCs hiddenTargetCsPrev reward learnEnabled mimic seed
  obtain ⟨fv, fc, hf⟩ := forwardAllPtr_frame E a inputCs seed
  rw [hv]
  unfold stepRecordPtr addSample
  simp only [hf, copy]
  split <;> rfl

theorem stepPtr_layers (E : Extern F) (a : Actor F) (inputCs : List IntBufferPtr)
    (hiddenTargetCsPrev : IntBufferPtr) (reward : F) (learnEnabled mimic : Bool) (seed : Nat) :
    (stepPtr E a inputCs hiddenTargetCsPrev reward learnEnabled mimic seed).1.visibleLayers.length =
      a.visibleLayers.length := by
  obtain ⟨vls, hl, hv⟩ :=
    stepPtr_frame E a inputCs hiddenTargetCsPrev reward learnEnabled mimic seed
  obtain ⟨fv, fc, hf⟩ := forwardAllPtr_frame E a inputCs seed
  rw [hv]
  simp only [hl]
  unfold stepRecordPtr addSample
  simp only [hf]
  split <;> rfl

theorem stepPtr_historyOk (E : Extern F) (layers : Nat) (past : List (StepCall F))
    (a : Actor F) (c : StepCallPtr F) (seed : Nat) (h : HistoryOk layers past a)
    (hc : c.inputCs.length = layers) :
    HistoryOk layers
      (c.contents (stepPtr E a c.inputCs c.hiddenTargetCsPrev c.reward c.learnEnabled c.mimic
        seed).1 :: past)
      (stepPtr E a c.inputCs c.hiddenTargetCsPrev c.reward c.learnEnabled c.mimic seed).1 := by
  obtain ⟨hstart, hsize, hL, hins, hhs, hget⟩ := h
  have hsam :=
    stepPtr_samples E a c.inputCs c.hiddenTargetCsPrev c.reward c.learnEnabled c.mimic seed
  have hlay :=
    stepPtr_layers E a c.inputCs c.hiddenTargetCsPrev c.reward c.learnEnabled c.mimic seed
  obtain ⟨hcount, hsz⟩ :=
    stepPtr_history E a c.inputCs c.hiddenTargetCsPrev c.reward c.learnEnabled c.mimic seed
  rw [contents_congr c _ (forwardAllPtr E a c.inputCs seed).1
    (stepPtr_hiddenCs E a c.inputCs c.hiddenTargetCsPrev c.reward c.learnEnabled c.mimic seed)]
  have hp := CircleBuffer.pushFront_start a.historySamples hstart hsize
  have hslot := CircleBuffer.slot_range a.historySamples.pushFront 0 hp hsize (le_refl 0)
  have hlen : (c.inputCs.map (fun (p : IntBufferPtr) =>
      p.read (forwardAllPtr E a c.inputCs seed).1)).length = layers := by
    rw [List.length_map]; exact hc
  have hold : (a.historySamples.pushFront.get 0 default).inputCs.length =
      (c.inputCs.map (fun (p : IntBufferPtr) =>
        p.read (forwardAllPtr E a c.inputCs seed).1)).length := by
    rw [hlen]
    exact hins _ (rd_mem _ _ _ hslot.1 hslot.2)
  rw [hL, ← hlen, copyLoop_eq _ _ hold] at hsam
  refine ⟨?_, ?_, ?_, ?_, ?_, ?_⟩
  · rw [hsam]; exact hp
  · rw [hsz]; exact hsize
  · rw [hlay]; exact hL
  · intro s hs
    rw [hsam] at hs
    rcases mem_wr hs with hs | hs
    · exact hins s hs
    · rw [hs]; exact hlen
  · rw [hcount, hsz, hhs]
    simp only [List.length_cons, Nat.cast_add, Nat.cast_one]
    split <;> omega
  · intro k hk
    rw [hsam]
    cases k with
    | zero =>
      refine ⟨c.contents (forwardAllPtr E a c.inputCs seed).1, by simp, ?_⟩
      rw [Nat.cast_zero, CircleBuffer.get_put_zero _ _ _ hp hsize]
      exact ⟨rfl, rfl, rfl⟩
    | succ k =>
      have hk1 : ((k : Int) + 1) < a.historySamples.size := by
        rw [hcount, hhs] at hk
        push_cast at hk
        split at hk <;> omega
      have hk2 : (k : Int) < a.historySize := by
        rw [hcount] at hk
        push_cast at hk
        split at hk <;> omega
      obtain ⟨c0, hc0, hr⟩ := hget k hk2
      refine ⟨c0, by rw [List.getElem?_cons_succ]; exact hc0, ?_⟩
      rw [Nat.cast_succ, CircleBuffer.get_push_succ _ _ _ hstart hsize k hk1]
      exact hr

theorem stepsPtr_append (E : Extern F) (s : Actor F × Nat) (calls : List (StepCallPtr F))
    (c : StepCallPtr F) :
    stepsPtr E s (calls ++ [c]) =
      stepPtr E (stepsPtr E s calls).1 c.inputCs c.hiddenTargetCsPrev c.reward c.learnEnabled
        c.mimic (stepsPtr E s calls).2 := by
  unfold stepsPtr
  rw [List.foldl_append]
  rfl

/-- The history after a sequence of `stepPtr` calls: the call `k` calls before the most recent
one is recorded with the contents its buffers had in the state in which it returned. -/
theorem stepsPtr_historyOk (E : Extern F) (layers : Nat) (s : Actor F × Nat)
    (h : HistoryOk layers [] s.1) (calls : List (StepCallPtr F))
    (hshape : ∀ c ∈ calls, c.inputCs.length = layers) :
    ∃ past : List (StepCall F), HistoryOk layers past (stepsPtr E s calls).1 ∧
      past.length = calls.length ∧
      ∀ (k : Nat) (c : StepCallPtr F), calls.reverse[k]? = some c →
        past[k]? = some (c.contents (stepsPtr E s (calls.take (calls.length - k))).1) := by
  induction calls using List.reverseRecOn with
  | nil =>
    refine ⟨[], h, rfl, ?_⟩
    intro k c hkc
    simp at hkc
  | append_singleton calls c ih =>
    obtain ⟨past, hok, hlp, hpast⟩ := ih (fun c1 hc1 => hshape c1 (List.mem_append_left _ hc1))
    have hc : c.inputCs.length = layers :=
      hshape c (List.mem_append_right _ (List.mem_singleton_self c))
    refine ⟨c.contents (stepsPtr E s (calls ++ [c])).1 :: past, ?_, ?_, ?_⟩
    · rw [stepsPtr_append]
      exact stepPtr_historyOk E layers past _ c _ hok hc
    · rw [List.length_cons, hlp, List.length_append, List.length_singleton]
    · intro k c1 hkc
      rw [List.reverse_append, List.reverse_singleton, List.singleton_append] at hkc
      cases k with
      | zero =>
        rw [List.getElem?_cons_zero, Option.some.injEq] at hkc
        subst hkc
        rw [List.getElem?_cons_zero, Nat.sub_zero, List.take_length]
      | succ k =>
        rw [List.getElem?_cons_succ] at hkc
        rw [List.getElem?_cons_succ, hpast k c1 hkc]
        have hlen : (calls ++ [c]).length - (k + 1) = calls.length - k := by
          rw [List.length_append, List.length_singleton]
          omega
        rw [hlen, List.take_append_of_le_length (Nat.sub_le _ _)]

/-- After `initRandom` with `depth ≥ 1` and any sequence of `stepPtr` calls, `hiddenCs` has one
entry per column and every entry is a slot of its column: the shape of `hiddenCs` does not
depend on which buffers the arguments point to. -/
theorem stepsPtr_hiddenOk (E : Extern F) (hs : Int3) (hz : 1 ≤ hs.z)
    (calls : List (StepCallPtr F)) (s : Actor F × Nat) (h : HiddenOk hs s.1) :
    HiddenOk hs (stepsPtr E s calls).1 := by
  unfold stepsPtr
  refine foldl_inv (fun b : Actor F × Nat => HiddenOk hs b.1) _ (fun b c hb => ?_) _ _ h
  have hf : HiddenOk hs (forwardAllPtr E b.1 c.inputCs b.2).1 := by
    unfold forwardAllPtr
    rw [hb.1]
    exact foldl_inv (fun s : Actor F × Nat => HiddenOk hs s.1) _
      (fun s pos hs1 => forward_hiddenOk E hs hz s.1 pos _ s.2 hs1) _ _ hb
  obtain ⟨vls, -, hv⟩ :=
    stepPtr_frame E b.1 c.inputCs c.hiddenTargetCsPrev c.reward c.learnEnabled c.mimic b.2
  refine hf.congr ?_
    (stepPtr_hiddenCs E b.1 c.inputCs c.hiddenTargetCsPrev c.reward c.learnEnabled c.mimic b.2)
  show (stepPtr E b.1 c.inputCs c.hiddenTargetCsPrev c.reward c.learnEnabled c.mimic
    b.2).1.hiddenSize = _
  rw [hv]
  unfold stepRecordPtr addSample
  simp only []
  split <;> rfl

/-- C3, amended. For an actor initialised with `historyCapacity ≥ 1` (its circular buffer
starting at a non-negative `start`, `0` after construction) and after any sequence of `step`
calls that each supply one input buffer per visible layer: for every `k < historySize`,
`historySamples[k]` holds the reward of the call made `k` calls before the most recent one, and
the contents that the input buffers and the target buffer of that call have in the state in
which that call returned, which is the state in which `step` copied them. For a buffer of the
caller these are the contents passed to the call (`IntBufferPtr.read` of `caller b` is `b`);
for the actor's own `hiddenCs` they are the actions selected by that call. -/
theorem history_records_copied_buffers (E : Extern F) (a : Actor F) (hiddenSize : Int3)
    (historyCapacity : Int) (visibleLayerDescs : List VisibleLayerDesc) (seed : Nat)
    (calls : List (StepCallPtr F)) (k : Nat)
    (hcap : 1 ≤ historyCapacity) (hstart : 0 ≤ a.historySamples.start)
    (hshape : ∀ c ∈ calls, c.inputCs.length = visibleLayerDescs.length)
    (hk : (k : Int) < (stepsPtr E (initRandom E a hiddenSize historyCapacity visibleLayerDescs
      seed) calls).1.historySize) :
    ∃ c, calls.reverse[k]? = some c ∧
      Records ((stepsPtr E (initRandom E a hiddenSize historyCapacity visibleLayerDescs seed)
          calls).1.historySamples.get k default)
        (c.contents (stepsPtr E (initRandom E a hiddenSize historyCapacity visibleLayerDescs
          seed) (calls.take (calls.length - k))).1) := by
  obtain ⟨past, hok, hlen, hpast⟩ := stepsPtr_historyOk E visibleLayerDescs.length _
    (initRandom_historyOk E a hiddenSize historyCapacity visibleLayerDescs seed hcap hstart)
    calls hshape
  obtain ⟨r, hr, hrec⟩ := hok.2.2.2.2.2 k hk
  obtain ⟨hkl, -⟩ := List.getElem?_eq_some.mp hr
  have hkr : k < calls.reverse.length := by
    rw [List.length_reverse, ← hlen]; exact hkl
  have hc := hpast k _ (List.getElem?_eq_getElem hkr)
  rw [hr, Option.some.injEq] at hc
  refine ⟨_, List.getElem?_eq_getElem hkr, ?_⟩
  rw [← hc]
  exact hrec

/-! ### The replay gate -/

theorem stepRecord_frame (E : Extern F) (a : Actor F) (inputCs : List IntBuffer)
    (hiddenTargetCsPrev : IntBuffer) (reward : F) (seed : Nat) :
    (stepRecord E a inputCs hiddenTargetCsPrev reward seed).1.visibleLayers = a.visibleLayers ∧
      (stepRecord E a inputCs hiddenTargetCsPrev reward seed).1.minSteps = a.minSteps ∧
      (stepRecord E a inputCs hiddenTargetCsPrev reward seed).1.historySize =
        (if a.historySize < a.historySamples.size then a.historySize + 1
         else a.historySize) := by
  obtain ⟨fv, fc, hf⟩ := forwardAll_frame E a inputCs seed
  unfold stepRecord addSample
  simp only [hf, CircleBuffer.size, CircleBuffer.pushFront]
  split <;> exact ⟨rfl, rfl, rfl⟩

/-- C4. For every `step` call in which `learnEnabled` is false or the history size after the
push satisfies `historySize ≤ minSteps + 1`, the learning branch is not entered: the call ends
in the state reached before that branch (forward pass and new sample only), and every value
weight and action weight of every visible layer is the same after the call as before it. -/
theorem step_gate_closed (E : Extern F) (a : Actor F) (inputCs : List IntBuffer)
    (hiddenTargetCsPrev : IntBuffer) (reward : F) (learnEnabled mimic : Bool) (seed : Nat)
    (hgate : learnEnabled = false ∨
      (if a.historySize < a.historySamples.size then a.historySize + 1 else a.historySize)
        ≤ a.minSteps + 1) :
    step E a inputCs hiddenTargetCsPrev reward learnEnabled mimic seed =
        stepRecord E a inputCs hiddenTargetCsPrev reward seed ∧
      (step E a inputCs hiddenTargetCsPrev reward learnEnabled mimic seed).1.visibleLayers =
        a.visibleLayers := by
  obtain ⟨h1, h2, h3⟩ := stepRecord_frame E a inputCs hiddenTargetCsPrev reward seed
  have hs : step E a inputCs hiddenTargetCsPrev reward learnEnabled mimic seed =
      stepRecord E a inputCs hiddenTargetCsPrev reward seed := by
    unfold step
    simp only []
    rw [if_neg]
    rw [h2, h3]
    rintro ⟨hl, hg⟩
    rcases hgate with hgate | hgate
    · rw [hgate] at hl
      exact Bool.false_ne_true hl
    · omega
  exact ⟨hs, by rw [hs]; exact h1⟩

/-! ### The sampled index -/

/-- C8. Whenever `step` enters the learning branch (`historySize > minSteps + 1`) with
`minSteps ≥ 0` and a non-negative `rand()` result, the sampled `historyIndex` satisfies
`minSteps ≤ historyIndex ≤ historySize - 2`, so `historyIndex` and `historyIndex + 1` are
non-negative and smaller than `historySize`. -/
theorem historyIndex_bounds (r historySize minSteps : Int) (hgate : historySize > minSteps + 1)
    (hmin : 0 ≤ minSteps) (hr : 0 ≤ r) :
    minSteps ≤ historyIndex r historySize minSteps ∧
      historyIndex r historySize minSteps ≤ historySize - 2 ∧
      0 ≤ historyIndex r historySize minSteps ∧
      historyIndex r historySize minSteps + 1 < historySize := by
  unfold historyIndex
  have h1 : 0 ≤ Int.tmod r (historySize - 1 - minSteps) := Int.tmod_nonneg _ hr
  have h2 : Int.tmod r (historySize - 1 - minSteps) < historySize - 1 - minSteps :=
    Int.tmod_lt_of_pos _ (by omega)
  omega

/-! ### The deltas of `learn` -/

/-- A call of `learn` applies `learnDeltaValue` to the value weights and then, slot by slot,
`learnDeltaAction` to the action weights. -/
theorem learn_applies (E : Extern F) (a : Actor F) (pos : Int2) (inputCsPrev : List IntBuffer)
    (hiddenTargetCsPrev : IntBuffer) (hiddenValuesPrev : FloatBuffer F) (q g : F)
    (mimic : Bool) :
    learn E a pos inputCsPrev hiddenTargetCsPrev hiddenValuesPrev q g mimic =
      (List.range a.hiddenSize.z.toNat).foldl
        (fun (acc : Actor F) (hc : Nat) =>
          applyActionDelta acc inputCsPrev
            (learnDeltaAction E a pos inputCsPrev hiddenTargetCsPrev hiddenValuesPrev q g mimic
              (hc : Int))
            (address3 ⟨pos.x, pos.y, (hc : Int)⟩ a.hiddenSize))
        (applyValueDelta a inputCsPrev (learnDeltaValue a pos inputCsPrev q g)
          (address2 pos ⟨a.hiddenSize.x, a.hiddenSize.y⟩)) := by
  obtain ⟨vls, -, h⟩ := applyValueDelta_frame a inputCsPrev (learnDeltaValue a pos inputCsPrev q g)
    (address2 pos ⟨a.hiddenSize.x, a.hiddenSize.y⟩)
  have hz : (applyValueDelta a inputCsPrev (learnDeltaValue a pos inputCsPrev q g)
      (address2 pos ⟨a.hiddenSize.x, a.hiddenSize.y⟩)).hiddenSize = a.hiddenSize := by rw [h]
  unfold learn learnDeltaAction learnActivations
  simp only []
  rw [show (a.alpha * (q + g * rd a.hiddenValues (address2 pos ⟨a.hiddenSize.x, a.hiddenSize.y⟩) 0 -
      (valueCount a inputCsPrev (address2 pos ⟨a.hiddenSize.x, a.hiddenSize.y⟩)).1 /
        ((valueCount a inputCsPrev (address2 pos ⟨a.hiddenSize.x, a.hiddenSize.y⟩)).2 : F))) =
      learnDeltaValue a pos inputCsPrev q g from rfl]
  rw [hz]

/-! ### The replay iteration -/

theorem mem_columns (hs : Int3) (x y : Int) (hx0 : 0 ≤ x) (hx : x < hs.x) (hy0 : 0 ≤ y)
    (hy : y < hs.y) : (⟨x, y⟩ : Int2) ∈ columns hs := by
  unfold columns
  rw [List.mem_flatMap]
  refine ⟨x.toNat, List.mem_range.mpr (by omega), ?_⟩
  rw [List.mem_map]
  refine ⟨y.toNat, List.mem_range.mpr (by omega), ?_⟩
  rw [Int.toNat_of_nonneg hx0, Int.toNat_of_nonneg hy0]

/-- C6, as the code has it. When `step` enters the learning branch it runs `historyIters`
replay iterations; an iteration with sampled history index `i` calls `learn` for every hidden
column with the input columns and the value snapshot (`hiddenValuesPrev`) of history sample
`i + 1`, the target actions (`hiddenTargetCsPrev`) of history sample `i`, and the computed
`(q, g, mimic)`. -/
theorem replay_learn_arguments (E : Extern F) (a : Actor F) (inputCs : List IntBuffer)
    (hiddenTargetCsPrev : IntBuffer) (reward : F) (mimic : Bool) (seed : Nat) :
    ((stepRecord E a inputCs hiddenTargetCsPrev reward seed).1.historySize >
        (stepRecord E a inputCs hiddenTargetCsPrev reward seed).1.minSteps + 1 →
      step E a inputCs hiddenTargetCsPrev reward true mimic seed =
        (List.range (stepRecord E a inputCs hiddenTargetCsPrev reward seed).1.historyIters.toNat).foldl
          (fun (acc : Actor F × Nat) _ => replay E acc.1 mimic acc.2)
          (stepRecord E a inputCs hiddenTargetCsPrev reward seed)) ∧
      (∀ (b : Actor F) (sd : Nat),
        replay E b mimic sd =
          ((columns b.hiddenSize).foldl
            (fun (acc : Actor F) pos =>
              learn E acc pos
                (b.historySamples.get
                  (historyIndex (E.rand sd).1 b.historySize b.minSteps + 1) default).inputCs
                (b.historySamples.get
                  (historyIndex (E.rand sd).1 b.historySize b.minSteps) default).hiddenTargetCsPrev
                (b.historySamples.get
                  (historyIndex (E.rand sd).1 b.historySize b.minSteps + 1) default).hiddenValuesPrev
                (returnLoop b.historySamples b.gamma
                  (historyIndex (E.rand sd).1 b.historySize b.minSteps + 1).toNat (0, 1)).1
                (returnLoop b.historySamples b.gamma
                  (historyIndex (E.rand sd).1 b.historySize b.minSteps + 1).toNat (0, 1)).2
                mimic)
            b,
           (E.rand sd).2)) ∧
      ∀ (hs : Int3) (x y : Int), 0 ≤ x → x < hs.x → 0 ≤ y → y < hs.y →
        (⟨x, y⟩ : Int2) ∈ columns hs := by
  refine ⟨fun hgate => ?_, fun b sd => rfl, fun hs x y hx0 hx hy0 hy =>
    mem_columns hs x y hx0 hx hy0 hy⟩
  unfold step
  simp only []
  rw [if_pos ⟨trivial, hgate⟩]

/-! ### The value snapshot of a sample -/

/-- C7, as the code has it. For every `step` call on an actor with history storage, the
`hiddenValuesPrev` array of the newly pushed history sample (index `0`) equals the `hiddenValues`
that this call's forward pass has written, which are the actor's `hiddenValues` when the call
returns. -/
theorem pushed_values_are_forward_values (E : Extern F) (a : Actor F) (inputCs : List IntBuffer)
    (hiddenTargetCsPrev : IntBuffer) (reward : F) (learnEnabled mimic : Bool) (seed : Nat)
    (hstart : 0 ≤ a.historySamples.start) (hsize : 1 ≤ a.historySamples.size) :
    ((step E a inputCs hiddenTargetCsPrev reward learnEnabled mimic seed).1.historySamples.get 0
        default).hiddenValuesPrev = (forwardAll E a inputCs seed).1.hiddenValues ∧
      (step E a inputCs hiddenTargetCsPrev reward learnEnabled mimic seed).1.hiddenValues =
        (forwardAll E a inputCs seed).1.hiddenValues := by
  constructor
  · rw [step_samples, CircleBuffer.get_put_zero _ _ _
      (CircleBuffer.pushFront_start _ hstart hsize) hsize]
  · obtain ⟨vls, -, hv⟩ :=
      step_frame E a inputCs hiddenTargetCsPrev reward learnEnabled mimic seed
    rw [hv]
    unfold stepRecord addSample
    simp only []
    split <;> rfl

/-! ### The forward pass of one column -/

theorem foldl_pair {α : Type} (f : α → F) (g : α → Int) (l : List α) (v : F) (c : Int) :
    l.foldl (fun (acc : F × Int) x => (acc.1 + f x, acc.2 + g x)) (v, c) =
      (l.foldl (fun t x => t + f x) v, c + (l.map g).sum) := by
  induction l generalizing v c with
  | nil => simp
  | cons x xs ih =>
    simp only [List.foldl_cons, List.map_cons, List.sum_cons]
    rw [ih, add_assoc]

theorem foldl_total {α : Type} (f : α → F) (l : List α) (v : F) :
    l.foldl (fun t x => t + f x) v = (l.map f).foldl (fun t x => t + x) v := by
  rw [List.foldl_map]

/-- C12. `forward` at the column with flat index `col` sets `hiddenValues[col]` to the sum
over the visible layers of the value-weight one-hot sums for `col`, divided by `count`, where
`count` is the sum over the visible layers of `count(col) / depth of the layer` (`int` division
per layer); every one of the `depth` action logits of the column is the sum over the visible
layers of the action-weight one-hot sums of its slot divided by that same `count`, and these
logits are what the sampling of `hiddenCs[col]` uses. Sums of `float`s are taken in loop order,
starting from `0.0f`. -/
theorem forward_value_and_logits (E : Extern F) (a : Actor F) (pos : Int2)
    (inputCs : List IntBuffer) (seed : Nat) :
    valueCount a inputCs (address2 pos ⟨a.hiddenSize.x, a.hiddenSize.y⟩) =
        (total ((List.range a.visibleLayers.length).map (fun vli =>
            (a.visibleLayers.getD vli default).valueWeights.multiplyOHVs (inputCs.getD vli [])
              (address2 pos ⟨a.hiddenSize.x, a.hiddenSize.y⟩)
              (a.visibleLayerDescs.getD vli default).size.z)),
          ((List.range a.visibleLayers.length).map (fun vli =>
            Int.tdiv ((a.visibleLayers.getD vli default).valueWeights.count
                (address2 pos ⟨a.hiddenSize.x, a.hiddenSize.y⟩))
              (a.visibleLayerDescs.getD vli default).size.z)).sum) ∧
      (forward E a pos inputCs seed).1.hiddenValues =
        wr a.hiddenValues (address2 pos ⟨a.hiddenSize.x, a.hiddenSize.y⟩)
          ((valueCount a inputCs (address2 pos ⟨a.hiddenSize.x, a.hiddenSize.y⟩)).1 /
            (((valueCount a inputCs (address2 pos ⟨a.hiddenSize.x, a.hiddenSize.y⟩)).2 : Int) :
              F)) ∧
      (0 ≤ address2 pos ⟨a.hiddenSize.x, a.hiddenSize.y⟩ →
        address2 pos ⟨a.hiddenSize.x, a.hiddenSize.y⟩ < a.hiddenValues.length →
        rd (forward E a pos inputCs seed).1.hiddenValues
            (address2 pos ⟨a.hiddenSize.x, a.hiddenSize.y⟩) 0 =
          (valueCount a inputCs (address2 pos ⟨a.hiddenSize.x, a.hiddenSize.y⟩)).1 /
            (((valueCount a inputCs (address2 pos ⟨a.hiddenSize.x, a.hiddenSize.y⟩)).2 : Int) :
              F)) ∧
      logits a pos inputCs (valueCount a inputCs (address2 pos ⟨a.hiddenSize.x, a.hiddenSize.y⟩)).2 =
        (List.range a.hiddenSize.z.toNat).map (fun (hc : Nat) =>
          total ((List.range a.visibleLayers.length).map (fun vli =>
            (a.visibleLayers.getD vli default).actionWeights.multiplyOHVs (inputCs.getD vli [])
              (address3 ⟨pos.x, pos.y, (hc : Int)⟩ a.hiddenSize)
              (a.visibleLayerDescs.getD vli default).size.z)) /
            (((valueCount a inputCs (address2 pos ⟨a.hiddenSize.x, a.hiddenSize.y⟩)).2 : Int) :
              F)) ∧
      (forward E a pos inputCs seed).1.hiddenCs =
        wr a.hiddenCs (address2 pos ⟨a.hiddenSize.x, a.hiddenSize.y⟩)
          (selectFrom
            ((E.randf seed).1 * total (expActivations E (logits a pos inputCs
              (valueCount a inputCs (address2 pos ⟨a.hiddenSize.x, a.hiddenSize.y⟩)).2)))
            0 0
            (expActivations E (logits a pos inputCs
              (valueCount a inputCs (address2 pos ⟨a.hiddenSize.x, a.hiddenSize.y⟩)).2))) := by
  refine ⟨?_, rfl, fun h0 h1 => rd_wr_same _ _ _ _ h0 h1, ?_, rfl⟩
  · unfold valueCount total
    rw [foldl_pair, foldl_total, zero_add]
  · unfold logits actionSum total
    apply List.map_congr_left
    intro hc _
    rw [foldl_total]

/-! ### The sampling walk -/

theorem selectFrom_spec (cusp : F) (l : List F) (hc : Int) (s : F) :
    (selectFrom cusp hc s l = 0 ∧
        ∀ k : Nat, k < l.length → ¬ cusp ≤ (l.take (k + 1)).foldl (fun t x => t + x) s) ∨
      ∃ r : Nat, r < l.length ∧ selectFrom cusp hc s l = hc + r ∧
        cusp ≤ (l.take (r + 1)).foldl (fun t x => t + x) s ∧
        ∀ j : Nat, j < r → ¬ cusp ≤ (l.take (j + 1)).foldl (fun t x => t + x) s := by
  induction l generalizing hc s with
  | nil => exact Or.inl ⟨rfl, fun k hk => absurd hk (Nat.not_lt_zero k)⟩
  | cons x rest ih =>
    unfold selectFrom
    by_cases h : s + x ≥ cusp
    · rw [if_pos h]
      refine Or.inr ⟨0, Nat.succ_pos _, by simp, ?_, fun j hj => absurd hj (Nat.not_lt_zero j)⟩
      simpa using h
    · rw [if_neg h]
      rcases ih (hc + 1) (s + x) with ⟨h0, hall⟩ | ⟨r, hr, hsel, hge, hlt⟩
      · refine Or.inl ⟨h0, fun k hk => ?_⟩
        cases k with
        | zero => simpa using h
        | succ k =>
          simp only [List.take_succ_cons, List.foldl_cons]
          exact hall k (by simpa using hk)
      · refine Or.inr ⟨r + 1, by simpa using hr, ?_, ?_, fun j hj => ?_⟩
        · rw [hsel]
          push_cast
          ring
        · simpa only [List.take_succ_cons, List.foldl_cons] using hge
        · cases j with
          | zero => simpa using h
          | succ j =>
            simp only [List.take_succ_cons, List.foldl_cons]
            exact hlt j (by omega)

/-- C13. Given the exponentiated activations `a_0 .. a_{depth-1}` of a column and the threshold
`cusp`, `forward` stores in `hiddenCs[col]` the least index `hc` such that
`a_0 + ... + a_hc >= cusp` (the running sum taken in loop order from `0.0f`), and stores `0`
when no index satisfies this; the stored index is `selectFrom`, a function of the activations
and `cusp` only. -/
theorem forward_selects_least (E : Extern F) (a : Actor F) (pos : Int2)
    (inputCs : List IntBuffer) (seed : Nat) :
    (forward E a pos inputCs seed).1.hiddenCs =
        wr a.hiddenCs (address2 pos ⟨a.hiddenSize.x, a.hiddenSize.y⟩)
          (selectFrom
            ((E.randf seed).1 * total (expActivations E (logits a pos inputCs
              (valueCount a inputCs (address2 pos ⟨a.hiddenSize.x, a.hiddenSize.y⟩)).2)))
            0 0
            (expActivations E (logits a pos inputCs
              (valueCount a inputCs (address2 pos ⟨a.hiddenSize.x, a.hiddenSize.y⟩)).2))) ∧
      ∀ (activations : List F) (cusp : F),
        (selectFrom cusp 0 0 activations = 0 ∧
            ∀ k : Nat, k < activations.length → ¬ cusp ≤ total (activations.take (k + 1))) ∨
          ∃ r : Nat, r < activations.length ∧ selectFrom cusp 0 0 activations = r ∧
            cusp ≤ total (activations.take (r + 1)) ∧
            ∀ j : Nat, j < r → ¬ cusp ≤ total (activations.take (j + 1)) := by
  refine ⟨rfl, fun activations cusp => ?_⟩
  rcases selectFrom_spec cusp activations 0 0 with h | ⟨r, hr, hsel, hge, hlt⟩
  · exact Or.inl h
  · exact Or.inr ⟨r, hr, by rw [hsel, zero_add], hge, hlt⟩

/-! ### The rotation of the circular buffer -/

theorem CircleBuffer.pushFront_start_eq {T : Type} (b : CircleBuffer T) (hn : 1 ≤ b.size)
    (h0 : 0 ≤ b.start) :
    b.pushFront.start % b.size = (b.start - 1) % b.size ∧
      (b.start < b.size → b.pushFront.start = (b.start - 1) % b.size ∧
        0 ≤ b.pushFront.start ∧ b.pushFront.start < b.size) := by
  unfold CircleBuffer.pushFront
  simp only []
  split
  · have hs : b.start = 0 := by omega
    rw [hs]
    have h1 : ((0 : Int) - 1 + b.size) % b.size = b.size - 1 := by
      rw [Int.emod_eq_of_lt (by omega) (by omega)]
      ring
    have h2 : ((0 : Int) - 1) % b.size = b.size - 1 := by
      have h3 : ((0 : Int) - 1) % b.size = ((0 : Int) - 1 + b.size) % b.size := by
        rw [Int.add_emod_self]
      rw [h3, h1]
    refine ⟨by rw [h1, h2], fun _ => ⟨by rw [h2]; ring, by omega, by omega⟩⟩
  · refine ⟨rfl, fun hlt => ⟨?_, by omega, by omega⟩⟩
    rw [Int.emod_eq_of_lt (by omega) (by omega)]

/-- C17. For a `CircleBuffer` of capacity `n ≥ 1` (with `start ≥ 0`), `pushFront` moves `start`
back by one modulo `n` and changes no slot's contents: afterwards logical index `k + 1` refers
to the slot, and so to the element, that was at logical index `k`, for every `k ≥ 0` and in
particular for `0 ≤ k < n - 1`; logical index `0` refers to the storage slot that was at logical
index `n - 1`; and that is the slot which `step` then overwrites with the new sample. -/
theorem pushFront_rotates {T : Type} (b : CircleBuffer T) (hn : 1 ≤ b.size)
    (h0 : 0 ≤ b.start) :
    b.pushFront.data = b.data ∧
      b.pushFront.start % b.size = (b.start - 1) % b.size ∧
      (b.start < b.size → b.pushFront.start = (b.start - 1) % b.size) ∧
      (∀ (k : Int) (d : T), 0 ≤ k →
        b.pushFront.slot (k + 1) = b.slot k ∧ b.pushFront.get (k + 1) d = b.get k d) ∧
      b.pushFront.slot 0 = b.slot (b.size - 1) ∧
      ∀ (E : Extern F) (a : Actor F) (inputCs : List IntBuffer) (hiddenTargetCsPrev : IntBuffer)
        (reward : F) (learnEnabled mimic : Bool) (seed : Nat),
        ∃ s : HistorySample F,
          (step E a inputCs hiddenTargetCsPrev reward learnEnabled mimic seed).1.historySamples.data =
            wr a.historySamples.data (a.historySamples.pushFront.slot 0) s ∧
          (step E a inputCs hiddenTargetCsPrev reward learnEnabled mimic seed).1.historySamples.start =
            a.historySamples.pushFront.start := by
  obtain ⟨hmod, hred⟩ := CircleBuffer.pushFront_start_eq b hn h0
  refine ⟨rfl, hmod, fun hlt => (hred hlt).1, fun k d hk => ?_, ?_, ?_⟩
  · have hs := CircleBuffer.pushFront_slot_succ b h0 k hk
    refine ⟨hs, ?_⟩
    unfold CircleBuffer.get
    rw [hs]
    rfl
  · have hp := CircleBuffer.pushFront_start b h0 hn
    unfold CircleBuffer.slot
    rw [CircleBuffer.pushFront_size, Int.tmod_eq_emod (by omega) (by omega),
      Int.tmod_eq_emod (by omega) (by omega), add_zero, hmod]
    have h1 : b.start + (b.size - 1) = b.start - 1 + b.size := by ring
    rw [h1, Int.add_emod_self]
  · intro E a inputCs hiddenTargetCsPrev reward learnEnabled mimic seed
    rw [step_samples]
    exact ⟨_, rfl, rfl⟩

theorem CircleBuffer.iterate_pushFront {T : Type} (b : CircleBuffer T) (hn : 1 ≤ b.size)
    (h0 : 0 ≤ b.start) (hlt : b.start < b.size) (m : Nat) :
    0 ≤ (Nat.iterate CircleBuffer.pushFront m b).start ∧
      (Nat.iterate CircleBuffer.pushFront m b).start < b.size ∧
      (Nat.iterate CircleBuffer.pushFront m b).size = b.size := by
  induction m with
  | zero => exact ⟨h0, hlt, rfl⟩
  | succ m ih =>
    rw [Function.iterate_succ_apply']
    obtain ⟨i0, i1, i2⟩ := ih
    have hr := (CircleBuffer.pushFront_start_eq _ (by rw [i2]; exact hn) i0).2
      (by rw [i2]; exact i1)
    rw [i2] at hr
    exact ⟨hr.2.1, hr.2.2, by rw [CircleBuffer.pushFront_size, i2]⟩

/-- C18. For a `CircleBuffer` of capacity `n ≥ 1` whose `start` is initially `0`, after any
number of `pushFront` calls `start` satisfies `0 ≤ start < n`, so `operator[]` with any index
`≥ 0` accesses a physical slot in `[0, n)`. -/
theorem pushFront_start_in_range {T : Type} (b : CircleBuffer T) (m : Nat) (index : Int)
    (hn : 1 ≤ b.size) (h0 : b.start = 0) (hi : 0 ≤ index) :
    0 ≤ (Nat.iterate CircleBuffer.pushFront m b).start ∧
      (Nat.iterate CircleBuffer.pushFront m b).start < b.size ∧
      0 ≤ (Nat.iterate CircleBuffer.pushFront m b).slot index ∧
      (Nat.iterate CircleBuffer.pushFront m b).slot index < b.size := by
  obtain ⟨i0, i1, i2⟩ := CircleBuffer.iterate_pushFront b hn (by omega) (by omega) m
  have hs := CircleBuffer.slot_range (Nat.iterate CircleBuffer.pushFront m b) index i0
    (by rw [i2]; exact hn) hi
  rw [i2] at hs
  exact ⟨i0, i1, hs.1, hs.2⟩

/-! ### The weight updates of `learn`, layer by layer -/

theorem layerStep_getElem? (upd : Nat → VisibleLayerDesc → VisibleLayer F → VisibleLayer F)
    (a : Actor F) (n : Nat) (vls : List (VisibleLayer F))
    (hB : ∀ i, vls[i]? =
      if i < n then (a.visibleLayers[i]?).map (upd i (a.visibleLayerDescs.getD i default))
      else a.visibleLayers[i]?) (i : Nat) :
    (vls.set n (upd n (a.visibleLayerDescs.getD n default) (vls.getD n default)))[i]? =
      if i < n + 1 then (a.visibleLayers[i]?).map (upd i (a.visibleLayerDescs.getD i default))
      else a.visibleLayers[i]? := by
  have hn := hB n
  rw [if_neg (lt_irrefl n)] at hn
  rw [List.getElem?_set]
  by_cases h1 : n = i
  · subst h1
    rw [if_pos rfl, if_pos (Nat.lt_succ_self n), List.getD_eq_getElem?_getD vls n, hn]
    cases hget : a.visibleLayers[n]? with
    | none =>
      rw [hget] at hn
      have hlen : ¬ n < vls.length := by
        intro hlt
        rw [List.getElem?_eq_getElem hlt] at hn
        exact Option.noConfusion hn
      rw [if_neg hlen]
      rfl
    | some vl =>
      rw [hget] at hn
      have hlen : n < vls.length := by
        by_contra hge
        rw [List.getElem?_eq_none (Nat.le_of_not_lt hge)] at hn
        exact Option.noConfusion hn
      rw [if_pos hlen]
      rfl
  · rw [if_neg h1, hB i]
    by_cases h2 : i < n
    · rw [if_pos h2, if_pos (by omega)]
    · rw [if_neg h2, if_neg (by omega)]

/-- A loop over the visible layers that rewrites layer `vli` at iteration `vli` changes
exactly the layers it visits, each from its value before the loop. -/
theorem layerLoop_getElem? (upd : Nat → VisibleLayerDesc → VisibleLayer F → VisibleLayer F)
    (a : Actor F) (n i : Nat) :
    ((List.range n).foldl
        (fun (b : Actor F) vli =>
          { b with visibleLayers := (b.visibleLayers.set vli
              (upd vli (b.visibleLayerDescs.getD vli default)
                (b.visibleLayers.getD vli default))) }) a).visibleLayerDescs =
        a.visibleLayerDescs ∧
      ((List.range n).foldl
        (fun (b : Actor F) vli =>
          { b with visibleLayers := (b.visibleLayers.set vli
              (upd vli (b.visibleLayerDescs.getD vli default)
                (b.visibleLayers.getD vli default))) }) a).visibleLayers[i]? =
        if i < n then (a.visibleLayers[i]?).map (upd i (a.visibleLayerDescs.getD i default))
        else a.visibleLayers[i]? := by
  induction n generalizing i with
  | zero => exact ⟨rfl, by simp⟩
  | succ n ih =>
    rw [List.range_succ, List.foldl_append]
    simp only [List.foldl_cons, List.foldl_nil]
    refine ⟨(ih 0).1, ?_⟩
    rw [(ih 0).1]
    exact layerStep_getElem? upd a n _ (fun j => (ih j).2) i

theorem applyValueDelta_layer (a : Actor F) (inputCsPrev : List IntBuffer) (delta : F)
    (col : Int) (i : Nat) :
    (applyValueDelta a inputCsPrev delta col).visibleLayerDescs = a.visibleLayerDescs ∧
      (applyValueDelta a inputCsPrev delta col).visibleLayers[i]? =
        (a.visibleLayers[i]?).map (fun vl =>
          { vl with valueWeights := (vl.valueWeights.deltaOHVs (inputCsPrev.getD i []) delta col
              (a.visibleLayerDescs.getD i default).size.z) }) := by
  have h := layerLoop_getElem?
    (fun vli vld vl => { vl with valueWeights :=
      (vl.valueWeights.deltaOHVs (inputCsPrev.getD vli []) delta col vld.size.z) })
    a a.visibleLayers.length i
  refine ⟨h.1, ?_⟩
  by_cases hi : i < a.visibleLayers.length
  · have h2 := h.2
    rw [if_pos hi] at h2
    exact h2
  · have h2 := h.2
    rw [if_neg hi] at h2
    rw [List.getElem?_eq_none (Nat.le_of_not_lt hi)] at h2 ⊢
    exact h2

theorem applyActionDelta_layer (a : Actor F) (inputCsPrev : List IntBuffer) (delta : F)
    (row : Int) (i : Nat) :
    (applyActionDelta a inputCsPrev delta row).visibleLayerDescs = a.visibleLayerDescs ∧
      (applyActionDelta a inputCsPrev delta row).visibleLayers[i]? =
        (a.visibleLayers[i]?).map (fun vl =>
          { vl with actionWeights := (vl.actionWeights.deltaOHVs (inputCsPrev.getD i []) delta row
              (a.visibleLayerDescs.getD i default).size.z) }) := by
  have h := layerLoop_getElem?
    (fun vli vld vl => { vl with actionWeights :=
      (vl.actionWeights.deltaOHVs (inputCsPrev.getD vli []) delta row vld.size.z) })
    a a.visibleLayers.length i
  refine ⟨h.1, ?_⟩
  by_cases hi : i < a.visibleLayers.length
  · have h2 := h.2
    rw [if_pos hi] at h2
    exact h2
  · have h2 := h.2
    rw [if_neg hi] at h2
    rw [List.getElem?_eq_none (Nat.le_of_not_lt hi)] at h2 ⊢
    exact h2

theorem applyActionDelta_valueWeights (b : Actor F) (inputCsPrev : List IntBuffer) (delta : F)
    (row : Int) (j : Nat) :
    ((applyActionDelta b inputCsPrev delta row).visibleLayers[j]?).map
        (fun (vl : VisibleLayer F) => vl.valueWeights) =
      (b.visibleLayers[j]?).map (fun (vl : VisibleLayer F) => vl.valueWeights) := by
  rw [(applyActionDelta_layer b inputCsPrev delta row j).2, Option.map_map]
  rfl

theorem applyValueDelta_actionWeights (b : Actor F) (inputCsPrev : List IntBuffer) (delta : F)
    (col : Int) (j : Nat) :
    ((applyValueDelta b inputCsPrev delta col).visibleLayers[j]?).map
        (fun (vl : VisibleLayer F) => vl.actionWeights) =
      (b.visibleLayers[j]?).map (fun (vl : VisibleLayer F) => vl.actionWeights) := by
  rw [(applyValueDelta_layer b inputCsPrev delta col j).2, Option.map_map]
  rfl

theorem learn_valueWeights (E : Extern F) (a : Actor F) (pos : Int2)
    (inputCsPrev : List IntBuffer) (hiddenTargetCsPrev : IntBuffer)
    (hiddenValuesPrev : FloatBuffer F) (q g : F) (mimic : Bool) (i : Nat) :
    ((learn E a pos inputCsPrev hiddenTargetCsPrev hiddenValuesPrev q g mimic).visibleLayers[i]?).map
        (fun (vl : VisibleLayer F) => vl.valueWeights) =
      (a.visibleLayers[i]?).map (fun (vl : VisibleLayer F) =>
        vl.valueWeights.deltaOHVs (inputCsPrev.getD i []) (learnDeltaValue a pos inputCsPrev q g)
          (address2 pos ⟨a.hiddenSize.x, a.hiddenSize.y⟩)
          (a.visibleLayerDescs.getD i default).size.z) := by
  rw [learn_applies]
  have hinv := foldl_inv
    (fun b : Actor F => ∀ j,
      (b.visibleLayers[j]?).map (fun (vl : VisibleLayer F) => vl.valueWeights) =
      ((applyValueDelta a inputCsPrev (learnDeltaValue a pos inputCsPrev q g)
        (address2 pos ⟨a.hiddenSize.x, a.hiddenSize.y⟩)).visibleLayers[j]?).map
          (fun (vl : VisibleLayer F) => vl.valueWeights))
    (fun (acc : Actor F) (hc : Nat) =>
      applyActionDelta acc inputCsPrev
        (learnDeltaAction E a pos inputCsPrev hiddenTargetCsPrev hiddenValuesPrev q g mimic
          (hc : Int))
        (address3 ⟨pos.x, pos.y, (hc : Int)⟩ a.hiddenSize))
    (fun b hc hb j => (applyActionDelta_valueWeights b inputCsPrev _ _ j).trans (hb j))
    (List.range a.hiddenSize.z.toNat)
    (applyValueDelta a inputCsPrev (learnDeltaValue a pos inputCsPrev q g)
      (address2 pos ⟨a.hiddenSize.x, a.hiddenSize.y⟩))
    (fun j => rfl)
  rw [hinv i, (applyValueDelta_layer a inputCsPrev _ _ i).2, Option.map_map]
  rfl

/-- C14. For every `learn` call on column `col`, the delta applied to the value weights of
every visible layer, with the old inputs as mask, is
`alpha * ((q + g * hiddenValues[col]) - value)`: `hiddenValues[col]` is the actor's current
value estimate, and `value` is `sum / count` recomputed from the old inputs and the weights as
they are before the call, the very quotient that `forward` stores for these inputs. -/
theorem learn_value_delta (E : Extern F) (a : Actor F) (pos : Int2)
    (inputCsPrev : List IntBuffer) (hiddenTargetCsPrev : IntBuffer)
    (hiddenValuesPrev : FloatBuffer F) (q g : F) (mimic : Bool) (seed : Nat) (vli : Nat) :
    learnDeltaValue a pos inputCsPrev q g =
        a.alpha * ((q + g * rd a.hiddenValues (address2 pos ⟨a.hiddenSize.x, a.hiddenSize.y⟩) 0) -
          (valueCount a inputCsPrev (address2 pos ⟨a.hiddenSize.x, a.hiddenSize.y⟩)).1 /
            (((valueCount a inputCsPrev (address2 pos ⟨a.hiddenSize.x, a.hiddenSize.y⟩)).2 : Int) :
              F)) ∧
      (forward E a pos inputCsPrev seed).1.hiddenValues =
        wr a.hiddenValues (address2 pos ⟨a.hiddenSize.x, a.hiddenSize.y⟩)
          ((valueCount a inputCsPrev (address2 pos ⟨a.hiddenSize.x, a.hiddenSize.y⟩)).1 /
            (((valueCount a inputCsPrev (address2 pos ⟨a.hiddenSize.x, a.hiddenSize.y⟩)).2 : Int) :
              F)) ∧
      ((learn E a pos inputCsPrev hiddenTargetCsPrev hiddenValuesPrev q g
          mimic).visibleLayers[vli]?).map (fun (vl : VisibleLayer F) => vl.valueWeights) =
        (a.visibleLayers[vli]?).map (fun (vl : VisibleLayer F) =>
          vl.valueWeights.deltaOHVs (inputCsPrev.getD vli [])
            (learnDeltaValue a pos inputCsPrev q g)
            (address2 pos ⟨a.hiddenSize.x, a.hiddenSize.y⟩)
            (a.visibleLayerDescs.getD vli default).size.z) ∧
      (learn E a pos inputCsPrev hiddenTargetCsPrev hiddenValuesPrev q g
          mimic).visibleLayers.length = a.visibleLayers.length := by
  refine ⟨rfl, rfl, learn_valueWeights E a pos inputCsPrev hiddenTargetCsPrev hiddenValuesPrev
    q g mimic vli, ?_⟩
  obtain ⟨vls, hl, h⟩ := learn_frame E a pos inputCsPrev hiddenTargetCsPrev hiddenValuesPrev
    q g mimic
  rw [h]
  exact hl

/-! ### The action pass of `learn` reads the weights of before the call -/

theorem getD_actionWeights (vls wls : List (VisibleLayer F)) (j : Nat)
    (h : (vls[j]?).map (fun (vl : VisibleLayer F) => vl.actionWeights) =
      (wls[j]?).map (fun (vl : VisibleLayer F) => vl.actionWeights)) :
    (vls.getD j default).actionWeights = (wls.getD j default).actionWeights := by
  rw [List.getD_eq_getElem?_getD, List.getD_eq_getElem?_getD]
  cases h1 : vls[j]? with
  | none =>
    cases h2 : wls[j]? with
    | none => rfl
    | some w =>
      rw [h1, h2] at h
      exact Option.noConfusion h
  | some v =>
    cases h2 : wls[j]? with
    | none =>
      rw [h1, h2] at h
      exact Option.noConfusion h
    | some w =>
      rw [h1, h2] at h
      exact Option.some.inj h

theorem logits_applyValueDelta (a : Actor F) (pos : Int2) (inputCs : List IntBuffer)
    (delta : F) (col count : Int) :
    logits (applyValueDelta a inputCs delta col) pos inputCs count =
      logits a pos inputCs count := by
  obtain ⟨vls, hl, hf⟩ := applyValueDelta_frame a inputCs delta col
  have hw : ∀ j, (vls.getD j default).actionWeights =
      (a.visibleLayers.getD j default).actionWeights := by
    intro j
    apply getD_actionWeights
    have h := applyValueDelta_actionWeights a inputCs delta col j
    rw [hf] at h
    exact h
  rw [hf]
  unfold logits actionSum
  simp only [hl, hw]

/-- The delta that `learn` applies to slot `hc` is `deltaAction` on the activations recomputed
from the old inputs and the weights of before the call. -/
theorem learnDeltaAction_eq (E : Extern F) (a : Actor F) (pos : Int2)
    (inputCsPrev : List IntBuffer) (hiddenTargetCsPrev : IntBuffer)
    (hiddenValuesPrev : FloatBuffer F) (q g : F) (mimic : Bool) (hc : Int) :
    learnDeltaAction E a pos inputCsPrev hiddenTargetCsPrev hiddenValuesPrev q g mimic hc =
      deltaAction a.beta
        (q + g * rd a.hiddenValues (address2 pos ⟨a.hiddenSize.x, a.hiddenSize.y⟩) 0 -
          rd hiddenValuesPrev (address2 pos ⟨a.hiddenSize.x, a.hiddenSize.y⟩) 0)
        (rd hiddenTargetCsPrev (address2 pos ⟨a.hiddenSize.x, a.hiddenSize.y⟩) 0)
        (expActivations E (logits a pos inputCsPrev
          (valueCount a inputCsPrev (address2 pos ⟨a.hiddenSize.x, a.hiddenSize.y⟩)).2))
        mimic hc := by
  obtain ⟨vls, -, hf⟩ := applyValueDelta_frame a inputCsPrev
    (learnDeltaValue a pos inputCsPrev q g) (address2 pos ⟨a.hiddenSize.x, a.hiddenSize.y⟩)
  unfold learnDeltaAction learnActivations
  simp only [logits_applyValueDelta]
  rw [hf]

theorem actionLoop_layer (inputCsPrev : List IntBuffer) (deltas : Nat → F) (rows : Nat → Int)
    (l : List Nat) (b : Actor F) (i : Nat) :
    (l.foldl (fun (acc : Actor F) (hc : Nat) =>
        applyActionDelta acc inputCsPrev (deltas hc) (rows hc)) b).visibleLayerDescs =
        b.visibleLayerDescs ∧
      ((l.foldl (fun (acc : Actor F) (hc : Nat) =>
        applyActionDelta acc inputCsPrev (deltas hc) (rows hc)) b).visibleLayers[i]?).map
          (fun (vl : VisibleLayer F) => vl.actionWeights) =
        (b.visibleLayers[i]?).map (fun (vl : VisibleLayer F) =>
          l.foldl (fun (w : SparseMatrix F) (hc : Nat) =>
            w.deltaOHVs (inputCsPrev.getD i []) (deltas hc) (rows hc)
              (b.visibleLayerDescs.getD i default).size.z) vl.actionWeights) := by
  induction l generalizing b with
  | nil => exact ⟨rfl, rfl⟩
  | cons hc rest ih =>
    simp only [List.foldl_cons]
    obtain ⟨hd, hl⟩ := applyActionDelta_layer b inputCsPrev (deltas hc) (rows hc) i
    obtain ⟨ih1, ih2⟩ := ih (applyActionDelta b inputCsPrev (deltas hc) (rows hc))
    refine ⟨ih1.trans hd, ?_⟩
    rw [ih2, hl, hd, Option.map_map]
    rfl

/-- The action weights of every visible layer after `learn`: the deltas of the slots
`0 .. depth - 1` applied in turn, each to the row of its slot. -/
theorem learn_actionWeights (E : Extern F) (a : Actor F) (pos : Int2)
    (inputCsPrev : List IntBuffer) (hiddenTargetCsPrev : IntBuffer)
    (hiddenValuesPrev : FloatBuffer F) (q g : F) (mimic : Bool) (i : Nat) :
    ((learn E a pos inputCsPrev hiddenTargetCsPrev hiddenValuesPrev q g mimic).visibleLayers[i]?).map
        (fun (vl : VisibleLayer F) => vl.actionWeights) =
      (a.visibleLayers[i]?).map (fun (vl : VisibleLayer F) =>
        (List.range a.hiddenSize.z.toNat).foldl (fun (w : SparseMatrix F) (hc : Nat) =>
          w.deltaOHVs (inputCsPrev.getD i [])
            (learnDeltaAction E a pos inputCsPrev hiddenTargetCsPrev hiddenValuesPrev q g mimic
              (hc : Int))
            (address3 ⟨pos.x, pos.y, (hc : Int)⟩ a.hiddenSize)
            (a.visibleLayerDescs.getD i default).size.z) vl.actionWeights) := by
  rw [learn_applies]
  have h := (actionLoop_layer inputCsPrev
    (fun hc => learnDeltaAction E a pos inputCsPrev hiddenTargetCsPrev hiddenValuesPrev q g mimic
      (hc : Int))
    (fun hc => address3 ⟨pos.x, pos.y, (hc : Int)⟩ a.hiddenSize)
    (List.range a.hiddenSize.z.toNat)
    (applyValueDelta a inputCsPrev (learnDeltaValue a pos inputCsPrev q g)
      (address2 pos ⟨a.hiddenSize.x, a.hiddenSize.y⟩)) i).2
  obtain ⟨hd, hl⟩ := applyValueDelta_layer a inputCsPrev (learnDeltaValue a pos inputCsPrev q g)
    (address2 pos ⟨a.hiddenSize.x, a.hiddenSize.y⟩) i
  rw [hd] at h
  rw [h, hl, Option.map_map]
  rfl

/-! ### Addressing -/

theorem address2_range (w h x y : Int) (hx0 : 0 ≤ x) (hx : x < w) (hy0 : 0 ≤ y) (hy : y < h) :
    0 ≤ address2 ⟨x, y⟩ ⟨w, h⟩ ∧ address2 ⟨x, y⟩ ⟨w, h⟩ < w * h := by
  unfold address2
  simp only []
  have h1 : 0 ≤ x * h := mul_nonneg hx0 (by omega)
  have h2 : (x + 1) * h ≤ w * h := mul_le_mul_of_nonneg_right (by omega) (by omega)
  have h3 : (x + 1) * h = x * h + h := by ring
  omega

theorem address2_injective (w h x y x2 y2 : Int) (hy0 : 0 ≤ y) (hy : y < h) (hy20 : 0 ≤ y2)
    (hy2 : y2 < h) (heq : address2 ⟨x, y⟩ ⟨w, h⟩ = address2 ⟨x2, y2⟩ ⟨w, h⟩) :
    x = x2 ∧ y = y2 := by
  unfold address2 at heq
  simp only [] at heq
  have hxx : x = x2 := by
    rcases lt_trichotomy x x2 with hlt | heq2 | hgt
    · exfalso
      have h2 : (x + 1) * h ≤ x2 * h := mul_le_mul_of_nonneg_right (by omega) (by omega)
      have h3 : (x + 1) * h = x * h + h := by ring
      omega
    · exact heq2
    · exfalso
      have h2 : (x2 + 1) * h ≤ x * h := mul_le_mul_of_nonneg_right (by omega) (by omega)
      have h3 : (x2 + 1) * h = x2 * h + h := by ring
      omega
  subst hxx
  exact ⟨rfl, by omega⟩

theorem address3_eq (w h d x y c : Int) :
    address3 ⟨x, y, c⟩ ⟨w, h, d⟩ = address2 ⟨x, y⟩ ⟨w, h⟩ * d + c := by
  unfold address3 address2
  simp only []
  ring

/-- C21. For dimensions `(w, h, d)` with `d ≥ 1` and positions `0 ≤ x < w`, `0 ≤ y < h`,
`0 ≤ c < d`: `address2((x, y), (w, h))` lies in `[0, w * h)` and is injective in `(x, y)`;
`address3((x, y, c), (w, h, d)) = address2((x, y), (w, h)) * d + c` lies in `[0, w * h * d)` and
is injective in `(x, y, c)`; hence `forward` at one column leaves the `hiddenCs` and
`hiddenValues` entries of every other column as they were, and distinct (column, slot) pairs
address distinct weight-matrix rows. -/
theorem address_range_injective (w h d x y c x2 y2 c2 : Int) (hd : 1 ≤ d)
    (hx : 0 ≤ x ∧ x < w) (hy : 0 ≤ y ∧ y < h) (hc : 0 ≤ c ∧ c < d)
    (hx2 : 0 ≤ x2 ∧ x2 < w) (hy2 : 0 ≤ y2 ∧ y2 < h) (hc2 : 0 ≤ c2 ∧ c2 < d) :
    (0 ≤ address2 ⟨x, y⟩ ⟨w, h⟩ ∧ address2 ⟨x, y⟩ ⟨w, h⟩ < w * h) ∧
      (address2 ⟨x, y⟩ ⟨w, h⟩ = address2 ⟨x2, y2⟩ ⟨w, h⟩ → x = x2 ∧ y = y2) ∧
      address3 ⟨x, y, c⟩ ⟨w, h, d⟩ = address2 ⟨x, y⟩ ⟨w, h⟩ * d + c ∧
      (0 ≤ address3 ⟨x, y, c⟩ ⟨w, h, d⟩ ∧ address3 ⟨x, y, c⟩ ⟨w, h, d⟩ < w * h * d) ∧
      (address3 ⟨x, y, c⟩ ⟨w, h, d⟩ = address3 ⟨x2, y2, c2⟩ ⟨w, h, d⟩ →
        x = x2 ∧ y = y2 ∧ c = c2) ∧
      ∀ (E : Extern F) (a : Actor F) (inputCs : List IntBuffer) (seed : Nat) (i : Int) (v : F),
        a.hiddenSize = ⟨w, h, d⟩ → ¬ (x = x2 ∧ y = y2) →
        rd (forward E a ⟨x2, y2⟩ inputCs seed).1.hiddenCs (address2 ⟨x, y⟩ ⟨w, h⟩) i =
            rd a.hiddenCs (address2 ⟨x, y⟩ ⟨w, h⟩) i ∧
          rd (forward E a ⟨x2, y2⟩ inputCs seed).1.hiddenValues (address2 ⟨x, y⟩ ⟨w, h⟩) v =
            rd a.hiddenValues (address2 ⟨x, y⟩ ⟨w, h⟩) v := by
  have hr := address2_range w h x y hx.1 hx.2 hy.1 hy.2
  have hr2 := address2_range w h x2 y2 hx2.1 hx2.2 hy2.1 hy2.2
  have hinj := address2_injective w h x y x2 y2 hy.1 hy.2 hy2.1 hy2.2
  have h3 := address3_eq w h d x y c
  have h32 := address3_eq w h d x2 y2 c2
  have hcol : address2 ⟨x, y⟩ ⟨w, h⟩ * d + c = address2 ⟨x2, y2⟩ ⟨w, h⟩ * d + c2 →
      address2 ⟨x, y⟩ ⟨w, h⟩ = address2 ⟨x2, y2⟩ ⟨w, h⟩ ∧ c = c2 := by
    intro heq
    have hA : address2 ⟨x, y⟩ ⟨w, h⟩ = address2 ⟨x2, y2⟩ ⟨w, h⟩ := by
      rcases lt_trichotomy (address2 ⟨x, y⟩ ⟨w, h⟩) (address2 ⟨x2, y2⟩ ⟨w, h⟩)
        with hlt | he | hgt
      · exfalso
        have h2 : (address2 ⟨x, y⟩ ⟨w, h⟩ + 1) * d ≤ address2 ⟨x2, y2⟩ ⟨w, h⟩ * d :=
          mul_le_mul_of_nonneg_right (by omega) (by omega)
        have h4 : (address2 ⟨x, y⟩ ⟨w, h⟩ + 1) * d = address2 ⟨x, y⟩ ⟨w, h⟩ * d + d := by ring
        omega
      · exact he
      · exfalso
        have h2 : (address2 ⟨x2, y2⟩ ⟨w, h⟩ + 1) * d ≤ address2 ⟨x, y⟩ ⟨w, h⟩ * d :=
          mul_le_mul_of_nonneg_right (by omega) (by omega)
        have h4 : (address2 ⟨x2, y2⟩ ⟨w, h⟩ + 1) * d = address2 ⟨x2, y2⟩ ⟨w, h⟩ * d + d := by
          ring
        omega
    refine ⟨hA, ?_⟩
    rw [hA] at heq
    omega
  refine ⟨hr, hinj, h3, ?_, ?_, ?_⟩
  · rw [h3]
    have h1 : 0 ≤ address2 ⟨x, y⟩ ⟨w, h⟩ * d := mul_nonneg hr.1 (by omega)
    have h2 : (address2 ⟨x, y⟩ ⟨w, h⟩ + 1) * d ≤ w * h * d :=
      mul_le_mul_of_nonneg_right (by omega) (by omega)
    have h4 : (address2 ⟨x, y⟩ ⟨w, h⟩ + 1) * d = address2 ⟨x, y⟩ ⟨w, h⟩ * d + d := by ring
    omega
  · intro heq
    rw [h3, h32] at heq
    obtain ⟨hA, hcc⟩ := hcol heq
    obtain ⟨hxx, hyy⟩ := hinj hA
    exact ⟨hxx, hyy, hcc⟩
  · intro E a inputCs seed i v hsize hne
    have hdiff : address2 ⟨x2, y2⟩ ⟨w, h⟩ ≠ address2 ⟨x, y⟩ ⟨w, h⟩ :=
      fun he => hne (hinj he.symm)
    constructor
    · show rd (wr a.hiddenCs (address2 ⟨x2, y2⟩ ⟨a.hiddenSize.x, a.hiddenSize.y⟩) _) _ i = _
      rw [hsize]
      exact rd_wr_ne _ _ _ _ _ hdiff hr2.1 hr.1
    · show rd (wr a.hiddenValues (address2 ⟨x2, y2⟩ ⟨a.hiddenSize.x, a.hiddenSize.y⟩) _) _ v = _
      rw [hsize]
      exact rd_wr_ne _ _ _ _ _ hdiff hr2.1 hr.1

end Generic

/-! ## Exact arithmetic

From here on `float` is an ordered field `K` (for instance the rationals or the reals). -/

section Exact

variable {K : Type} [LinearOrderedField K]

/-! ### The discounted return -/

theorem returnLoop_eq (samples : CircleBuffer (HistorySample K)) (gamma : K) (n : Nat)
    (q g : K) :
    returnLoop samples gamma n (q, g) =
      (q + ∑ t ∈ Finset.range n, (samples.get (t : Int) default).reward * g * gamma ^ (n - 1 - t),
        g * gamma ^ n) := by
  induction n generalizing q g with
  | zero => simp [returnLoop]
  | succ n ih =>
    rw [returnLoop, ih, Finset.sum_range_succ]
    refine Prod.ext ?_ ?_
    · simp only [Nat.add_sub_cancel, Nat.sub_self, pow_zero, mul_one]
      have hsum : ∀ t ∈ Finset.range n,
          (samples.get (t : Int) default).reward * (g * gamma) * gamma ^ (n - 1 - t) =
            (samples.get (t : Int) default).reward * g * gamma ^ (n - t) := by
        intro t ht
        have hlt : t < n := Finset.mem_range.mp ht
        have hn : n - t = (n - 1 - t) + 1 := by omega
        rw [hn, pow_succ]
        ring
      rw [Finset.sum_congr rfl hsum]
      ring
    · simp only [pow_succ]
      ring

/-- C5. For every history, every `gamma` and every sampled index `i ≥ 0`, the return loop of
`step` ends with `q = Σ_{t = 0..i} reward[t] * gamma^(i - t)` and `g = gamma^(i + 1)`, in exact
arithmetic; and for rewards `[1, 1, 1]`, `gamma = 0.5` and `i = 2` this gives `q = 1.75`. -/
theorem return_loop_closed_form (samples : CircleBuffer (HistorySample K)) (gamma : K)
    (i : Nat) :
    returnLoop samples gamma ((i : Int) + 1).toNat (0, 1) =
        (∑ t ∈ Finset.range (i + 1), (samples.get (t : Int) default).reward * gamma ^ (i - t),
          gamma ^ (i + 1)) ∧
      (returnLoop exampleHistory (0.5 : ℚ) ((2 : Int) + 1).toNat (0, 1)).1 = 1.75 := by
  constructor
  · have hi : ((i : Int) + 1).toNat = i + 1 := by omega
    rw [hi, returnLoop_eq]
    simp
  · have h2 : ((2 : Int) + 1).toNat = 2 + 1 := by decide
    have m0 : Int.tmod 0 3 = 0 := by decide
    have m1 : Int.tmod 1 3 = 1 := by decide
    have m2 : Int.tmod 2 3 = 2 := by decide
    rw [h2, returnLoop_eq]
    simp [Finset.sum_range_succ, exampleHistory, CircleBuffer.get, CircleBuffer.slot,
      CircleBuffer.size, rd, m0, m1, m2]
    norm_num

/-! ### The sign of the action update under `mimic` -/

theorem total_eq_sum (l : List K) : total l = l.sum := by
  unfold total
  exact List.sum_eq_foldl.symm

theorem floor_total (t : K) : 0 < max (0.0001 : K) t ∧ t ≤ max (0.0001 : K) t := by
  unfold max
  split
  · rename_i h
    exact ⟨by norm_num, le_of_lt h⟩
  · rename_i h
    have h1 : (0.0001 : K) ≤ t := not_lt.mp h
    have h2 : (0 : K) < 0.0001 := by norm_num
    exact ⟨lt_of_lt_of_le h2 h1, le_refl t⟩

theorem expActivations_pos (E : Extern K) (hexp : ∀ x, 0 < E.expf x) (sums : List K) :
    ∀ x ∈ expActivations E sums, 0 < x := by
  intro x hx
  unfold expActivations at hx
  rw [List.mem_map] at hx
  obtain ⟨s, -, rfl⟩ := hx
  exact hexp _

theorem rd_le_total (acts : List K) (hpos : ∀ x ∈ acts, 0 < x) (hc : Int) :
    0 ≤ rd acts hc 0 ∧ rd acts hc 0 ≤ total acts := by
  have hnn : ∀ x ∈ acts, 0 ≤ x := fun x hx => le_of_lt (hpos x hx)
  have hsum : 0 ≤ total acts := by
    rw [total_eq_sum]
    exact List.sum_nonneg hnn
  unfold rd
  split
  · rw [List.getD_eq_getElem?_getD]
    cases hget : acts[hc.toNat]? with
    | none => exact ⟨le_refl 0, hsum⟩
    | some v =>
      have hv : v ∈ acts := List.getElem?_mem hget
      simp only [Option.getD_some]
      exact ⟨hnn v hv, by rw [total_eq_sum]; exact List.single_le_sum hnn v hv⟩
  · exact ⟨le_refl 0, hsum⟩

/-- The softmax probability `activations[hc] / max(0.0001f, total)` lies in `[0, 1]`. -/
theorem probability_bounds (E : Extern K) (hexp : ∀ x, 0 < E.expf x) (sums : List K)
    (hc : Int) :
    0 ≤ rd (expActivations E sums) hc 0 / max (0.0001 : K) (total (expActivations E sums)) ∧
      rd (expActivations E sums) hc 0 / max (0.0001 : K) (total (expActivations E sums)) ≤ 1 := by
  obtain ⟨h0, h1⟩ := rd_le_total (expActivations E sums) (expActivations_pos E hexp sums) hc
  obtain ⟨hf, ht⟩ := floor_total (total (expActivations E sums))
  exact ⟨div_nonneg h0 (le_of_lt hf), (div_le_one hf).mpr (le_trans h1 ht)⟩

theorem applyValueDelta_beta (a : Actor K) (inputCsPrev : List IntBuffer) (delta : K)
    (col : Int) : (applyValueDelta a inputCsPrev delta col).beta = a.beta := by
  obtain ⟨vls, -, h⟩ := applyValueDelta_frame a inputCsPrev delta col
  rw [h]

/-- C9. For every `learn` call with `mimic = true` and `beta ≥ 0`, over an ordered field with a
positive exponential: the action-weight delta is `≥ 0` for the target slot and `≤ 0` for every
other slot, for all values of `q`, `g`, `hiddenValues` and `hiddenValuesPrev` (whatever the
sign of the TD error), all inputs and all weights. -/
theorem mimic_delta_sign (E : Extern K) (a : Actor K) (pos : Int2)
    (inputCsPrev : List IntBuffer) (hiddenTargetCsPrev : IntBuffer)
    (hiddenValuesPrev : FloatBuffer K) (q g : K) (hc : Int)
    (hexp : ∀ x, 0 < E.expf x) (hbeta : 0 ≤ a.beta) :
    (hc = rd hiddenTargetCsPrev (address2 pos ⟨a.hiddenSize.x, a.hiddenSize.y⟩) 0 →
        0 ≤ learnDeltaAction E a pos inputCsPrev hiddenTargetCsPrev hiddenValuesPrev q g true hc) ∧
      (hc ≠ rd hiddenTargetCsPrev (address2 pos ⟨a.hiddenSize.x, a.hiddenSize.y⟩) 0 →
        learnDeltaAction E a pos inputCsPrev hiddenTargetCsPrev hiddenValuesPrev q g true hc
          ≤ 0) := by
  unfold learnDeltaAction learnActivations deltaAction
  simp only [if_true, applyValueDelta_beta]
  obtain ⟨hp0, hp1⟩ := probability_bounds E hexp
    (logits (applyValueDelta a inputCsPrev (learnDeltaValue a pos inputCsPrev q g)
      (address2 pos ⟨a.hiddenSize.x, a.hiddenSize.y⟩)) pos inputCsPrev
      (valueCount a inputCsPrev (address2 pos ⟨a.hiddenSize.x, a.hiddenSize.y⟩)).2) hc
  constructor
  · intro h
    rw [if_pos h]
    exact mul_nonneg hbeta (sub_nonneg.mpr hp1)
  · intro h
    rw [if_neg h]
    have : (0 : K) - rd (expActivations E (logits (applyValueDelta a inputCsPrev
        (learnDeltaValue a pos inputCsPrev q g)
        (address2 pos ⟨a.hiddenSize.x, a.hiddenSize.y⟩)) pos inputCsPrev
        (valueCount a inputCsPrev (address2 pos ⟨a.hiddenSize.x, a.hiddenSize.y⟩)).2)) hc 0 /
        max (0.0001 : K) (total (expActivations E (logits (applyValueDelta a inputCsPrev
        (learnDeltaValue a pos inputCsPrev q g)
        (address2 pos ⟨a.hiddenSize.x, a.hiddenSize.y⟩)) pos inputCsPrev
        (valueCount a inputCsPrev (address2 pos ⟨a.hiddenSize.x, a.hiddenSize.y⟩)).2))) ≤ 0 := by
      linarith
    exact mul_nonpos_iff.mpr (Or.inl ⟨hbeta, this⟩)

/-! ### The softmax of `forward` and `learn` -/

theorem max_eq_sup (x y : K) : max x y = x ⊔ y := by
  unfold max
  split
  · rename_i h
    exact (sup_of_le_left (le_of_lt h)).symm
  · rename_i h
    exact (sup_of_le_right (not_lt.mp h)).symm

theorem foldl_max (l : List K) (init : K) :
    init ≤ l.foldl (fun m s => max m s) init ∧
      (∀ s ∈ l, s ≤ l.foldl (fun m s => max m s) init) ∧
      (l.foldl (fun m s => max m s) init = init ∨ l.foldl (fun m s => max m s) init ∈ l) := by
  induction l generalizing init with
  | nil => exact ⟨le_refl _, fun s hs => absurd hs (List.not_mem_nil s), Or.inl rfl⟩
  | cons x xs ih =>
    simp only [List.foldl_cons]
    obtain ⟨h1, h2, h3⟩ := ih (max init x)
    have hi : init ≤ max init x := by rw [max_eq_sup]; exact le_sup_left
    have hx : x ≤ max init x := by rw [max_eq_sup]; exact le_sup_right
    refine ⟨le_trans hi h1, ?_, ?_⟩
    · intro s hs
      rcases List.mem_cons.mp hs with rfl | hs
      · exact le_trans hx h1
      · exact h2 s hs
    · rcases h3 with h3 | h3
      · rw [h3]
        unfold max
        split
        · exact Or.inl rfl
        · exact Or.inr (List.mem_cons_self _ _)
      · exact Or.inr (List.mem_cons_of_mem _ h3)

/-- When some logit reaches the sentinel `-999999.0f`, the running maximum is the largest
logit. -/
theorem maxActivation_largest (sums : List K) (h : ∃ s ∈ sums, (-999999.0 : K) ≤ s) :
    maxActivation sums ∈ sums ∧ ∀ s ∈ sums, s ≤ maxActivation sums := by
  obtain ⟨h1, h2, h3⟩ := foldl_max sums (-999999.0 : K)
  refine ⟨?_, h2⟩
  rcases h3 with h3 | h3
  · obtain ⟨s, hs, hge⟩ := h
    have hle : s ≤ (-999999.0 : K) := by
      have := h2 s hs
      rw [h3] at this
      exact this
    have heq : s = (-999999.0 : K) := le_antisymm hle hge
    unfold maxActivation
    rw [h3, ← heq]
    exact hs
  · exact h3

theorem expActivations_range (E : Extern K) (sums : List K) (hpos : ∀ x, 0 < E.expf x)
    (hzero : E.expf 0 = 1) (hle : ∀ x, x ≤ 0 → E.expf x ≤ 1)
    (h : ∃ s ∈ sums, (-999999.0 : K) ≤ s) :
    (∀ x ∈ expActivations E sums, 0 < x ∧ x ≤ 1) ∧ 1 ∈ expActivations E sums := by
  obtain ⟨hmem, hmax⟩ := maxActivation_largest sums h
  constructor
  · intro x hx
    unfold expActivations at hx
    rw [List.mem_map] at hx
    obtain ⟨s, hs, rfl⟩ := hx
    exact ⟨hpos _, hle _ (sub_nonpos.mpr (hmax s hs))⟩
  · unfold expActivations
    rw [List.mem_map]
    exact ⟨maxActivation sums, hmem, by rw [sub_self, hzero]⟩

theorem total_bounds (E : Extern K) (sums : List K) (hpos : ∀ x, 0 < E.expf x)
    (hzero : E.expf 0 = 1) (hle : ∀ x, x ≤ 0 → E.expf x ≤ 1)
    (h : ∃ s ∈ sums, (-999999.0 : K) ≤ s) :
    1 ≤ total (expActivations E sums) ∧ total (expActivations E sums) ≤ sums.length := by
  obtain ⟨hr, hone⟩ := expActivations_range E sums hpos hzero hle h
  rw [total_eq_sum]
  constructor
  · exact List.single_le_sum (fun x hx => le_of_lt (hr x hx).1) 1 hone
  · have := List.sum_le_card_nsmul (expActivations E sums) 1 (fun x hx => (hr x hx).2)
    rw [length_expActivations, nsmul_eq_mul, mul_one] at this
    exact this

theorem floor_inactive (t : K) (h : (0.0001 : K) ≤ t) : max (0.0001 : K) t = t := by
  unfold max
  rw [if_neg (not_lt.mpr h)]

theorem map_rd_range (l : List K) :
    (List.range l.length).map (fun (hc : Nat) => rd l (hc : Int) 0) = l := by
  apply List.ext_getElem
  · simp
  · intro n h1 h2
    rw [List.getElem_map, List.getElem_range]
    unfold rd
    rw [if_pos (Int.natCast_nonneg n), Int.toNat_natCast, List.getD_eq_getElem?_getD,
      List.getElem?_eq_getElem h2]
    rfl

/-- The probabilities of `learn` over the slots of a column add up to
`total / max(0.0001f, total)`. -/
theorem sum_probability (acts : List K) :
    ((List.range acts.length).map (fun (hc : Nat) => probability acts (hc : Int))).sum =
      total acts / max (0.0001 : K) (total acts) := by
  unfold probability
  simp only [div_eq_mul_inv]
  rw [List.sum_map_mul_right, map_rd_range, total_eq_sum]

theorem one_le_total (E : Extern K) (sums : List K) (hpos : ∀ x, 0 < E.expf x)
    (hzero : E.expf 0 = 1) (h : ∃ s ∈ sums, (-999999.0 : K) ≤ s) :
    1 ≤ total (expActivations E sums) := by
  obtain ⟨hmem, -⟩ := maxActivation_largest sums h
  rw [total_eq_sum]
  refine List.single_le_sum (fun x hx => le_of_lt (expActivations_pos E hpos sums x hx)) 1 ?_
  unfold expActivations
  rw [List.mem_map]
  exact ⟨maxActivation sums, hmem, by rw [sub_self, hzero]⟩

theorem sum_probability_one (E : Extern K) (sums : List K) (hpos : ∀ x, 0 < E.expf x)
    (hzero : E.expf 0 = 1) (h : ∃ s ∈ sums, (-999999.0 : K) ≤ s) :
    ((List.range (expActivations E sums).length).map (fun (hc : Nat) =>
      probability (expActivations E sums) (hc : Int))).sum = 1 := by
  have h1 := one_le_total E sums hpos hzero h
  rw [sum_probability, floor_inactive _ (le_trans (by norm_num) h1)]
  exact div_self (ne_of_gt (lt_of_lt_of_le one_pos h1))

theorem sum_map_sub (l : List Nat) (f g : Nat → K) :
    (l.map (fun i => f i - g i)).sum = (l.map f).sum - (l.map g).sum := by
  induction l with
  | nil => simp
  | cons x xs ih =>
    simp only [List.map_cons, List.sum_cons, ih]
    ring

/-- The real exponential meets the three assumptions made on `expf` below. -/
theorem real_exp_admissible (E : Extern ℝ) (h : E.expf = Real.exp) :
    (∀ x, 0 < E.expf x) ∧ E.expf 0 = 1 ∧ ∀ x, x ≤ 0 → E.expf x ≤ 1 := by
  rw [h]
  exact ⟨Real.exp_pos, Real.exp_zero, fun x hx => Real.exp_le_one_iff.mpr hx⟩

/-- C19. In `learn` and `forward`, for `depth ≥ 1` and logits that are all `≥ -999999`, over an
ordered field with an exponential that is positive, `1` at `0` and at most `1` on non-positive
arguments: `maxActivation` is the largest logit, every exponentiated activation lies in
`(0, 1]` and at least one equals `1`, hence `1 ≤ total ≤ depth` and the floor
`max(0.0001f, total)` of `learn` is `total` itself. -/
theorem softmax_floor_inactive (E : Extern K) (sums : List K) (hpos : ∀ x, 0 < E.expf x)
    (hzero : E.expf 0 = 1) (hle : ∀ x, x ≤ 0 → E.expf x ≤ 1) (hdepth : 1 ≤ sums.length)
    (hlogits : ∀ s ∈ sums, (-999999.0 : K) ≤ s) :
    maxActivation sums ∈ sums ∧ (∀ s ∈ sums, s ≤ maxActivation sums) ∧
      (∀ x ∈ expActivations E sums, 0 < x ∧ x ≤ 1) ∧ 1 ∈ expActivations E sums ∧
      1 ≤ total (expActivations E sums) ∧
      total (expActivations E sums) ≤ (expActivations E sums).length ∧
      max (0.0001 : K) (total (expActivations E sums)) = total (expActivations E sums) := by
  have h : ∃ s ∈ sums, (-999999.0 : K) ≤ s := by
    cases sums with
    | nil => exact absurd hdepth (by simp)
    | cons s rest => exact ⟨s, List.mem_cons_self _ _, hlogits s (List.mem_cons_self _ _)⟩
  obtain ⟨h1, h2⟩ := maxActivation_largest sums h
  obtain ⟨h3, h4⟩ := expActivations_range E sums hpos hzero hle h
  obtain ⟨h5, h6⟩ := total_bounds E sums hpos hzero hle h
  refine ⟨h1, h2, h3, h4, h5, by rw [length_expActivations]; exact h6, ?_⟩
  exact floor_inactive _ (le_trans (by norm_num) h5)

/-- C11, as the code has it. For every `depth ≥ 1` and every vector of `depth` logits, over an
ordered field with a positive exponential that is `1` at `0`: the sampling weights
`activations[hc] / total` of `forward` sum to `1`; the probabilities of `learn`,
`activations[hc] / max(0.0001f, total)`, sum to `1` exactly when `total ≥ 0.0001`, and that is
the case whenever some logit is `≥ -999999`, the start value of the running maximum. -/
theorem softmax_sums_to_one (E : Extern K) (sums : List K) (hpos : ∀ x, 0 < E.expf x)
    (hzero : E.expf 0 = 1) (hdepth : 1 ≤ sums.length) :
    ((List.range sums.length).map (fun (hc : Nat) =>
        rd (expActivations E sums) (hc : Int) 0 / total (expActivations E sums))).sum = 1 ∧
      (((List.range sums.length).map (fun (hc : Nat) =>
          probability (expActivations E sums) (hc : Int))).sum = 1 ↔
        (0.0001 : K) ≤ total (expActivations E sums)) ∧
      ((∃ s ∈ sums, (-999999.0 : K) ≤ s) →
        ((List.range sums.length).map (fun (hc : Nat) =>
          probability (expActivations E sums) (hc : Int))).sum = 1) := by
  have hlen := length_expActivations E sums
  have htot : 0 < total (expActivations E sums) := by
    rw [total_eq_sum]
    cases hs : expActivations E sums with
    | nil =>
      rw [hs] at hlen
      simp only [List.length_nil] at hlen
      omega
    | cons x rest =>
      have hx : 0 < x := expActivations_pos E hpos sums x (by rw [hs]; exact List.mem_cons_self _ _)
      have hrest : 0 ≤ rest.sum := List.sum_nonneg (fun y hy =>
        le_of_lt (expActivations_pos E hpos sums y (by rw [hs]; exact List.mem_cons_of_mem _ hy)))
      rw [List.sum_cons]
      linarith
  have hsum := sum_probability (expActivations E sums)
  rw [hlen] at hsum
  have hiff : ((List.range sums.length).map (fun (hc : Nat) =>
      probability (expActivations E sums) (hc : Int))).sum = 1 ↔
      (0.0001 : K) ≤ total (expActivations E sums) := by
    rw [hsum]
    obtain ⟨hf, ht⟩ := floor_total (total (expActivations E sums))
    rw [div_eq_one_iff_eq (ne_of_gt hf)]
    constructor
    · intro heq
      by_contra hlt
      have hgt : (0.0001 : K) > total (expActivations E sums) := not_le.mp hlt
      have hm : max (0.0001 : K) (total (expActivations E sums)) = 0.0001 := by
        unfold max
        rw [if_pos hgt]
      rw [hm] at heq
      rw [heq] at hgt
      exact lt_irrefl _ hgt
    · intro hge
      exact (floor_inactive _ hge).symm
  refine ⟨?_, hiff, fun h => ?_⟩
  · simp only [div_eq_mul_inv]
    rw [List.sum_map_mul_right]
    have := map_rd_range (expActivations E sums)
    rw [hlen] at this
    rw [this, ← total_eq_sum]
    exact mul_inv_cancel₀ (ne_of_gt htot)
  · apply hiff.mpr
    have hle1 : (1 : K) ≤ total (expActivations E sums) := by
      obtain ⟨hmem, hmax⟩ := maxActivation_largest sums h
      rw [total_eq_sum]
      refine List.single_le_sum (fun x hx => le_of_lt (expActivations_pos E hpos sums x hx)) 1 ?_
      unfold expActivations
      rw [List.mem_map]
      exact ⟨maxActivation sums, hmem, by rw [sub_self, hzero]⟩
    exact le_trans (by norm_num) hle1

/-! ### The action update of `learn` -/

/-- C15. For every `learn` call and every action slot `hc` of the column, over an ordered
field: the delta applied to the action weights of slot `hc` (in every visible layer, at the row
of the slot, with the old inputs as mask) equals `step * (y - p(hc))`, where `y = 1` if `hc` is
the stored target action and `0` otherwise, `p(hc) = activations[hc] / max(0.0001f, total)` is
the probability recomputed from the old inputs and the weights of before the call (the softmax
`activations[hc] / total` whenever `total ≥ 0.0001`),
`tdErrorAction = (q + g * hiddenValues[col]) - hiddenValuesPrev[col]`, and `step` is `beta` if
`mimic`, otherwise `-beta` if `tdErrorAction ≤ 0` and `+beta` if `tdErrorAction > 0`; two calls
whose `tdErrorAction` have the same sign apply the same delta. -/
theorem learn_action_delta (E : Extern K) (a : Actor K) (pos : Int2)
    (inputCsPrev : List IntBuffer) (hiddenTargetCsPrev : IntBuffer)
    (hiddenValuesPrev : FloatBuffer K) (q g : K) (mimic : Bool) (hc : Int) (vli : Nat) :
    learnDeltaAction E a pos inputCsPrev hiddenTargetCsPrev hiddenValuesPrev q g mimic hc =
        (if mimic = true then a.beta
          else if (q + g * rd a.hiddenValues (address2 pos ⟨a.hiddenSize.x, a.hiddenSize.y⟩) 0) -
              rd hiddenValuesPrev (address2 pos ⟨a.hiddenSize.x, a.hiddenSize.y⟩) 0 ≤ 0
            then -a.beta else a.beta) *
          ((if hc = rd hiddenTargetCsPrev (address2 pos ⟨a.hiddenSize.x, a.hiddenSize.y⟩) 0
              then 1 else 0) -
            probability (expActivations E (logits a pos inputCsPrev
              (valueCount a inputCsPrev (address2 pos ⟨a.hiddenSize.x, a.hiddenSize.y⟩)).2))
              hc) ∧
      ((learn E a pos inputCsPrev hiddenTargetCsPrev hiddenValuesPrev q g
          mimic).visibleLayers[vli]?).map (fun (vl : VisibleLayer K) => vl.actionWeights) =
        (a.visibleLayers[vli]?).map (fun (vl : VisibleLayer K) =>
          (List.range a.hiddenSize.z.toNat).foldl (fun (w : SparseMatrix K) (s : Nat) =>
            w.deltaOHVs (inputCsPrev.getD vli [])
              (learnDeltaAction E a pos inputCsPrev hiddenTargetCsPrev hiddenValuesPrev q g mimic
                (s : Int))
              (address3 ⟨pos.x, pos.y, (s : Int)⟩ a.hiddenSize)
              (a.visibleLayerDescs.getD vli default).size.z) vl.actionWeights) ∧
      (∀ (hiddenValuesPrev2 : FloatBuffer K) (q2 g2 : K),
        (0 < (q + g * rd a.hiddenValues (address2 pos ⟨a.hiddenSize.x, a.hiddenSize.y⟩) 0) -
            rd hiddenValuesPrev (address2 pos ⟨a.hiddenSize.x, a.hiddenSize.y⟩) 0 ↔
          0 < (q2 + g2 * rd a.hiddenValues (address2 pos ⟨a.hiddenSize.x, a.hiddenSize.y⟩) 0) -
            rd hiddenValuesPrev2 (address2 pos ⟨a.hiddenSize.x, a.hiddenSize.y⟩) 0) →
        learnDeltaAction E a pos inputCsPrev hiddenTargetCsPrev hiddenValuesPrev2 q2 g2 mimic hc =
          learnDeltaAction E a pos inputCsPrev hiddenTargetCsPrev hiddenValuesPrev q g mimic hc) ∧
      ((0.0001 : K) ≤ total (expActivations E (logits a pos inputCsPrev
          (valueCount a inputCsPrev (address2 pos ⟨a.hiddenSize.x, a.hiddenSize.y⟩)).2)) →
        probability (expActivations E (logits a pos inputCsPrev
            (valueCount a inputCsPrev (address2 pos ⟨a.hiddenSize.x, a.hiddenSize.y⟩)).2)) hc =
          rd (expActivations E (logits a pos inputCsPrev
              (valueCount a inputCsPrev (address2 pos ⟨a.hiddenSize.x, a.hiddenSize.y⟩)).2)) hc 0 /
            total (expActivations E (logits a pos inputCsPrev
              (valueCount a inputCsPrev (address2 pos ⟨a.hiddenSize.x, a.hiddenSize.y⟩)).2))) := by
  refine ⟨?_, learn_actionWeights E a pos inputCsPrev hiddenTargetCsPrev hiddenValuesPrev q g
    mimic vli, ?_, fun hge => by unfold probability; rw [floor_inactive _ hge]⟩
  · rw [learnDeltaAction_eq]
    unfold deltaAction probability
    cases mimic with
    | true => simp
    | false =>
      simp only [Bool.false_eq_true, if_false]
      by_cases h : (q + g * rd a.hiddenValues (address2 pos ⟨a.hiddenSize.x, a.hiddenSize.y⟩) 0) -
          rd hiddenValuesPrev (address2 pos ⟨a.hiddenSize.x, a.hiddenSize.y⟩) 0 ≤ 0
      · rw [if_pos h, if_neg (not_lt.mpr h)]
      · rw [if_neg h, if_pos (not_le.mp h)]
  · intro hiddenValuesPrev2 q2 g2 hsign
    rw [learnDeltaAction_eq, learnDeltaAction_eq]
    unfold deltaAction
    by_cases h : 0 < (q + g * rd a.hiddenValues
        (address2 pos ⟨a.hiddenSize.x, a.hiddenSize.y⟩) 0) -
        rd hiddenValuesPrev (address2 pos ⟨a.hiddenSize.x, a.hiddenSize.y⟩) 0
    · rw [if_pos h, if_pos (hsign.mp h)]
    · rw [if_neg h, if_neg (fun h2 => h (hsign.mpr h2))]

/-- C16, as the code has it. For every `learn` call with `mimic = false` and `beta ≥ 0`, over
an ordered field with a positive exponential: when `newValue = q + g * hiddenValues[col]` is
above `hiddenValuesPrev[col]` (`tdErrorAction > 0`) the update moves the policy toward the
target action (delta `≥ 0` for the target slot, `≤ 0` for the other slots), and otherwise
(`newValue ≤ hiddenValuesPrev[col]`) it moves away from it (delta `≤ 0` for the target slot,
`≥ 0` for the other slots). -/
theorem advantage_sign_update (E : Extern K) (a : Actor K) (pos : Int2)
    (inputCsPrev : List IntBuffer) (hiddenTargetCsPrev : IntBuffer)
    (hiddenValuesPrev : FloatBuffer K) (q g : K) (hc : Int)
    (hexp : ∀ x, 0 < E.expf x) (hbeta : 0 ≤ a.beta) :
    (rd hiddenValuesPrev (address2 pos ⟨a.hiddenSize.x, a.hiddenSize.y⟩) 0 <
        q + g * rd a.hiddenValues (address2 pos ⟨a.hiddenSize.x, a.hiddenSize.y⟩) 0 →
      (hc = rd hiddenTargetCsPrev (address2 pos ⟨a.hiddenSize.x, a.hiddenSize.y⟩) 0 →
        0 ≤ learnDeltaAction E a pos inputCsPrev hiddenTargetCsPrev hiddenValuesPrev q g false
          hc) ∧
      (hc ≠ rd hiddenTargetCsPrev (address2 pos ⟨a.hiddenSize.x, a.hiddenSize.y⟩) 0 →
        learnDeltaAction E a pos inputCsPrev hiddenTargetCsPrev hiddenValuesPrev q g false hc
          ≤ 0)) ∧
      (q + g * rd a.hiddenValues (address2 pos ⟨a.hiddenSize.x, a.hiddenSize.y⟩) 0 ≤
          rd hiddenValuesPrev (address2 pos ⟨a.hiddenSize.x, a.hiddenSize.y⟩) 0 →
        (hc = rd hiddenTargetCsPrev (address2 pos ⟨a.hiddenSize.x, a.hiddenSize.y⟩) 0 →
          learnDeltaAction E a pos inputCsPrev hiddenTargetCsPrev hiddenValuesPrev q g false hc
            ≤ 0) ∧
        (hc ≠ rd hiddenTargetCsPrev (address2 pos ⟨a.hiddenSize.x, a.hiddenSize.y⟩) 0 →
          0 ≤ learnDeltaAction E a pos inputCsPrev hiddenTargetCsPrev hiddenValuesPrev q g false
            hc)) := by
  obtain ⟨hp0, hp1⟩ := probability_bounds E hexp
    (logits a pos inputCsPrev
      (valueCount a inputCsPrev (address2 pos ⟨a.hiddenSize.x, a.hiddenSize.y⟩)).2) hc
  rw [learnDeltaAction_eq]
  unfold deltaAction
  simp only [Bool.false_eq_true, if_false]
  constructor
  · intro habove
    rw [if_pos (sub_pos.mpr habove)]
    constructor
    · intro h
      rw [if_pos h]
      exact mul_nonneg hbeta (sub_nonneg.mpr hp1)
    · intro h
      rw [if_neg h]
      exact mul_nonpos_iff.mpr (Or.inl ⟨hbeta, by linarith⟩)
  · intro hbelow
    rw [if_neg (not_lt.mpr (sub_nonpos.mpr hbelow))]
    constructor
    · intro h
      rw [if_pos h]
      exact mul_nonpos_iff.mpr (Or.inr ⟨by linarith, sub_nonneg.mpr hp1⟩)
    · intro h
      rw [if_neg h]
      exact mul_nonneg_iff.mpr (Or.inr ⟨by linarith, by linarith⟩)

/-! ### The deltas of a column add up to zero -/

theorem sum_indicator (target : Int) (n : Nat) :
    ((List.range n).map (fun (hc : Nat) => if (hc : Int) = target then (1 : K) else 0)).sum =
      if 0 ≤ target ∧ target < n then 1 else 0 := by
  induction n with
  | zero =>
    rw [if_neg (by push_cast; omega)]
    rfl
  | succ n ih =>
    rw [List.sum_range_succ, ih]
    by_cases h1 : (n : Int) = target
    · rw [if_pos h1, if_neg (by omega), if_pos (by push_cast; omega), zero_add]
    · rw [if_neg h1, add_zero]
      by_cases h2 : 0 ≤ target ∧ target < n
      · rw [if_pos h2, if_pos (by push_cast; omega)]
      · rw [if_neg h2, if_neg (by push_cast; omega)]

/-- C20. For every `learn` call with `depth ≥ 1`, a target action in `[0, depth)` and logits
all `≥ -999999`, over an ordered field with a positive exponential that is `1` at `0`: the
action deltas of the `depth` slots of the column sum to zero, for either value of `mimic` and
either sign of the TD error. -/
theorem action_deltas_sum_zero (E : Extern K) (a : Actor K) (pos : Int2)
    (inputCsPrev : List IntBuffer) (hiddenTargetCsPrev : IntBuffer)
    (hiddenValuesPrev : FloatBuffer K) (q g : K) (mimic : Bool)
    (hexp : ∀ x, 0 < E.expf x) (hzero : E.expf 0 = 1) (hdepth : 1 ≤ a.hiddenSize.z)
    (htarget : 0 ≤ rd hiddenTargetCsPrev (address2 pos ⟨a.hiddenSize.x, a.hiddenSize.y⟩) 0 ∧
      rd hiddenTargetCsPrev (address2 pos ⟨a.hiddenSize.x, a.hiddenSize.y⟩) 0 < a.hiddenSize.z)
    (hlogits : ∀ s ∈ logits a pos inputCsPrev
      (valueCount a inputCsPrev (address2 pos ⟨a.hiddenSize.x, a.hiddenSize.y⟩)).2,
      (-999999.0 : K) ≤ s) :
    ((List.range a.hiddenSize.z.toNat).map (fun (hc : Nat) =>
      learnDeltaAction E a pos inputCsPrev hiddenTargetCsPrev hiddenValuesPrev q g mimic
        (hc : Int))).sum = 0 := by
  have hlen := length_logits a pos inputCsPrev
    (valueCount a inputCsPrev (address2 pos ⟨a.hiddenSize.x, a.hiddenSize.y⟩)).2
  have hsome : ∃ s ∈ logits a pos inputCsPrev
      (valueCount a inputCsPrev (address2 pos ⟨a.hiddenSize.x, a.hiddenSize.y⟩)).2,
      (-999999.0 : K) ≤ s := by
    cases hl : logits a pos inputCsPrev
        (valueCount a inputCsPrev (address2 pos ⟨a.hiddenSize.x, a.hiddenSize.y⟩)).2 with
    | nil =>
      rw [hl] at hlen
      simp only [List.length_nil] at hlen
      omega
    | cons s rest =>
      exact ⟨s, List.mem_cons_self _ _, hlogits s (by rw [hl]; exact List.mem_cons_self _ _)⟩
  have hp := sum_probability_one E _ hexp hzero hsome
  rw [length_expActivations, hlen] at hp
  have hy := sum_indicator (K := K)
    (rd hiddenTargetCsPrev (address2 pos ⟨a.hiddenSize.x, a.hiddenSize.y⟩) 0)
    a.hiddenSize.z.toNat
  rw [if_pos ⟨htarget.1, by omega⟩] at hy
  have hfun : (fun (hc : Nat) =>
      learnDeltaAction E a pos inputCsPrev hiddenTargetCsPrev hiddenValuesPrev q g mimic
        (hc : Int)) =
      fun (hc : Nat) =>
        (if mimic = true then a.beta
          else (if (q + g * rd a.hiddenValues (address2 pos ⟨a.hiddenSize.x, a.hiddenSize.y⟩) 0) -
            rd hiddenValuesPrev (address2 pos ⟨a.hiddenSize.x, a.hiddenSize.y⟩) 0 > 0
            then a.beta else -a.beta)) *
          ((if (hc : Int) =
              rd hiddenTargetCsPrev (address2 pos ⟨a.hiddenSize.x, a.hiddenSize.y⟩) 0
            then (1 : K) else 0) -
            probability (expActivations E (logits a pos inputCsPrev
              (valueCount a inputCsPrev (address2 pos ⟨a.hiddenSize.x, a.hiddenSize.y⟩)).2))
              (hc : Int)) := by
    funext hc
    rw [learnDeltaAction_eq]
    rfl
  rw [hfun, List.sum_map_mul_left, sum_map_sub, hy, hp, sub_self, mul_zero]

end Exact

/-! ## IEEE special values

Here `float` is `Flt`, where a division by zero gives an infinity or NaN. -/

section Special

theorem Flt.div_zero_not_finite (x : Flt) : (x / ((0 : Int) : Flt)).isFinite = false := by
  show (Flt.div x (Flt.fin ((0 : Int) : ℚ))).isFinite = false
  cases x with
  | fin a =>
    simp only [Flt.div, Int.cast_zero, if_true, Flt.signed]
    split
    · rfl
    · split <;> rfl
  | pinf => simp [Flt.div, Flt.isFinite]
  | ninf => simp [Flt.div, Flt.isFinite]
  | nan => rfl

theorem logits_zero_count (a : Actor Flt) (pos : Int2) (inputCs : List IntBuffer) :
    ∀ l ∈ logits a pos inputCs 0, l.isFinite = false := by
  intro l hl
  unfold logits at hl
  rw [List.mem_map] at hl
  obtain ⟨hc, -, rfl⟩ := hl
  exact Flt.div_zero_not_finite _

/-- C10, as the code has it. For `forward` and `learn` on a hidden column whose normalisation
count is zero, the code divides by that count without a guard: the value estimate
`value / count`, which `forward` stores in `hiddenValues`, and every logit `sum / count` of
`forward` and of `learn` are divisions by zero, which in IEEE arithmetic give NaN or an infinity
and never a finite default. -/
theorem zero_count_divides (E : Extern Flt) (a : Actor Flt) (pos : Int2)
    (inputCs : List IntBuffer) (seed : Nat) (q g : Flt)
    (hcount : (valueCount a inputCs (address2 pos ⟨a.hiddenSize.x, a.hiddenSize.y⟩)).2 = 0) :
    ((valueCount a inputCs (address2 pos ⟨a.hiddenSize.x, a.hiddenSize.y⟩)).1 /
        (((valueCount a inputCs (address2 pos ⟨a.hiddenSize.x, a.hiddenSize.y⟩)).2 : Int) :
          Flt)).isFinite = false ∧
      (forward E a pos inputCs seed).1.hiddenValues =
        wr a.hiddenValues (address2 pos ⟨a.hiddenSize.x, a.hiddenSize.y⟩)
          ((valueCount a inputCs (address2 pos ⟨a.hiddenSize.x, a.hiddenSize.y⟩)).1 /
            (((valueCount a inputCs (address2 pos ⟨a.hiddenSize.x, a.hiddenSize.y⟩)).2 : Int) :
              Flt)) ∧
      (∀ l ∈ logits a pos inputCs
          (valueCount a inputCs (address2 pos ⟨a.hiddenSize.x, a.hiddenSize.y⟩)).2,
        l.isFinite = false) ∧
      (∀ l ∈ logits
          (applyValueDelta a inputCs (learnDeltaValue a pos inputCs q g)
            (address2 pos ⟨a.hiddenSize.x, a.hiddenSize.y⟩))
          pos inputCs (valueCount a inputCs (address2 pos ⟨a.hiddenSize.x, a.hiddenSize.y⟩)).2,
        l.isFinite = false) := by
  refine ⟨?_, rfl, ?_, ?_⟩
  · rw [hcount]
    exact Flt.div_zero_not_finite _
  · rw [hcount]
    exact logits_zero_count a pos inputCs
  · rw [hcount]
    exact logits_zero_count _ pos inputCs

end Special

/-! ### Where the code departs from the specification -/

set_option maxRecDepth 100000 in
unseal Rat.add Rat.mul Rat.inv Rat.sub Rat.ofScientific in
/-- C3 fails as stated: a first call of `step` on `exampleActor` that passes the actor's own
`hiddenCs` as `hiddenTargetCsPrev` passes the target actions `[0, 0]`, and `historySamples[0]`
holds `[1, 1]`, the actions that the forward kernel of this call has selected. -/
theorem aliased_target_not_recorded :
    IntBufferPtr.hiddenCs.read exampleActor.1 = [0, 0] ∧
      ((stepPtr exampleExtern exampleActor.1 [IntBufferPtr.caller [0]] IntBufferPtr.hiddenCs 1
        true false exampleActor.2).1.historySamples.get 0 default).hiddenTargetCsPrev = [1, 1] ∧
      ¬ Records
        ((stepPtr exampleExtern exampleActor.1 [IntBufferPtr.caller [0]] IntBufferPtr.hiddenCs 1
          true false exampleActor.2).1.historySamples.get 0 default)
        (StepCallPtr.contents
          { inputCs := [IntBufferPtr.caller [0]], hiddenTargetCsPrev := IntBufferPtr.hiddenCs,
            reward := 1, learnEnabled := true, mimic := false }
          exampleActor.1) := by
  unfold Records
  decide

set_option maxRecDepth 100000 in
unseal Rat.add Rat.mul Rat.inv Rat.sub Rat.ofScientific in
/-- C6 fails as stated: in the third call of `step` on `trainedActor` the replay iteration
of the code differs from the one that takes the value snapshot from history sample `i`. -/
theorem replay_differs_from_spec :
    replay exampleExtern recordedActor.1 false recordedActor.2 ≠
      replaySpec exampleExtern recordedActor.1 false recordedActor.2 := by
  decide

set_option maxRecDepth 100000 in
unseal Rat.add Rat.mul Rat.inv Rat.sub Rat.ofScientific in
/-- C7 fails as stated: a third call of `step` on `trainedActor` stores `[3/100]`, the value
its own forward pass computes, while `hiddenValues` was `[0]` before the call. -/
theorem pushed_values_not_prestep :
    trainedActor.1.hiddenValues = [0] ∧
      ((step exampleExtern trainedActor.1 [[0]] [0] 0 false false
        trainedActor.2).1.historySamples.get 0 default).hiddenValuesPrev = [3 / 100] ∧
      ((step exampleExtern trainedActor.1 [[0]] [0] 0 false false
        trainedActor.2).1.historySamples.get 0 default).hiddenValuesPrev ≠
        trainedActor.1.hiddenValues := by
  decide

set_option maxRecDepth 100000 in
unseal Rat.add Rat.mul Rat.inv Rat.sub Rat.ofScientific in
/-- C10 fails as stated: on the unconnected column the count is `0`, and `forward` stores NaN
as value estimate and computes NaN for both logits. -/
theorem zero_count_gives_nan :
    (valueCount unconnectedActor [[0]] 0).2 = 0 ∧
      (forward unconnectedExtern unconnectedActor ⟨0, 0⟩ [[0]] 0).1.hiddenValues = [Flt.nan] ∧
      logits unconnectedActor ⟨0, 0⟩ [[0]] 0 = [Flt.nan, Flt.nan] := by
  decide

/-- C11 fails as stated: over the reals with the real exponential, for `depth = 1` and the
single logit `-1009999` the running maximum stays at its start value `-999999`, the activation
is `exp(-10000) < 0.0001`, and the probability `activations[0] / max(0.0001f, total)` of `learn`
is not `1`. -/
theorem floored_softmax_not_normalised :
    ((List.range 1).map (fun (hc : Nat) =>
      probability
        (expActivations
          ({ expf := Real.exp, rand := fun seed => (0, seed), randf := fun seed => (0, seed),
             randfRange := fun _ _ seed => (0, seed),
             initSMLocalRF := fun _ _ _ => SparseMatrix.empty } : Extern ℝ)
          [(-1009999 : ℝ)])
        (hc : Int))).sum ≠ 1 := by
  have hm : maxActivation [(-1009999 : ℝ)] = -999999 := by
    unfold maxActivation
    simp only [List.foldl_cons, List.foldl_nil]
    unfold max
    rw [if_pos (by norm_num)]
    norm_num
  have hsmall : Real.exp (-10000) < 0.0001 := by
    rw [Real.exp_neg]
    have h1 : (10000 : ℝ) + 1 < Real.exp 10000 := Real.add_one_lt_exp (by norm_num)
    have h2 : (0 : ℝ) < Real.exp 10000 := Real.exp_pos _
    rw [inv_lt_comm₀ h2 (by norm_num)]
    norm_num
    linarith
  have hacts : expActivations
      ({ expf := Real.exp, rand := fun seed => (0, seed), randf := fun seed => (0, seed),
         randfRange := fun _ _ seed => (0, seed),
         initSMLocalRF := fun _ _ _ => SparseMatrix.empty } : Extern ℝ)
      [(-1009999 : ℝ)] = [Real.exp (-10000)] := by
    unfold expActivations
    simp only [List.map_cons, List.map_nil, hm]
    norm_num
  rw [hacts]
  have htot : total [Real.exp (-10000)] = Real.exp (-10000) := by
    unfold total
    simp
  have hmax : max (0.0001 : ℝ) (Real.exp (-10000)) = 0.0001 := by
    unfold max
    rw [if_pos hsmall]
  have hp : probability [Real.exp (-10000)] ((0 : Nat) : Int) = Real.exp (-10000) / 0.0001 := by
    unfold probability
    rw [htot, hmax]
    simp [rd]
  have hr : List.range 1 = [0] := rfl
  rw [hr]
  simp only [List.map_cons, List.map_nil, List.sum_cons, List.sum_nil, add_zero]
  rw [hp]
  intro h
  rw [div_eq_one_iff_eq (by norm_num)] at h
  rw [h] at hsmall
  exact lt_irrefl _ hsmall

set_option maxRecDepth 100000 in
unseal Rat.add Rat.mul Rat.inv Rat.sub Rat.ofScientific in
/-- C16 fails as stated: on `trainedActor` with `q = 0`, `g = 0` and the stored value `1`,
`newValue = 0` is below `hiddenValuesPrev[col] = 1`, the target action is slot `0`, and the
delta of slot `0` is negative while that of slot `1` is positive: the update moves away from
the target. -/
theorem below_stored_value_moves_away :
    (0 : ℚ) + 0 * rd trainedActor.1.hiddenValues
        (address2 ⟨0, 0⟩ ⟨trainedActor.1.hiddenSize.x, trainedActor.1.hiddenSize.y⟩) 0 <
        rd [(1 : ℚ)]
          (address2 ⟨0, 0⟩ ⟨trainedActor.1.hiddenSize.x, trainedActor.1.hiddenSize.y⟩) 0 ∧
      rd [(0 : Int)]
        (address2 ⟨0, 0⟩ ⟨trainedActor.1.hiddenSize.x, trainedActor.1.hiddenSize.y⟩) 0 = 0 ∧
      (0 : ℚ) < trainedActor.1.beta ∧
      learnDeltaAction exampleExtern trainedActor.1 ⟨0, 0⟩ [[0]] [0] [1] 0 0 false 0 < 0 ∧
      0 < learnDeltaAction exampleExtern trainedActor.1 ⟨0, 0⟩ [[0]] [0] [1] 0 0 false 1 := by
  decide

/-! ### Instances of the theorems that have hypotheses -/

theorem hiddenCs_shape_witness :
    (1 : Int) ≤ (⟨2, 1, 3⟩ : Int3).z ∧
      ((steps exampleExtern exampleActor exampleCalls).1.hiddenCs.length
          = ((⟨2, 1, 3⟩ : Int3).x * (⟨2, 1, 3⟩ : Int3).y).toNat ∧
        ∀ c ∈ (steps exampleExtern exampleActor exampleCalls).1.hiddenCs,
          0 ≤ c ∧ c < (⟨2, 1, 3⟩ : Int3).z) :=
  ⟨by decide, hiddenCs_shape exampleExtern Actor.new ⟨2, 1, 3⟩ 2
    [{ size := ⟨1, 1, 2⟩, radius := 1 }] 0 exampleCalls (by decide)⟩

set_option maxRecDepth 100000 in
unseal Rat.add Rat.mul Rat.inv Rat.sub Rat.ofScientific in
theorem history_records_copied_buffers_witness :
    (1 : Int) ≤ 2 ∧ 0 ≤ (Actor.new : Actor ℚ).historySamples.start ∧
      (∀ c ∈ exampleCallsPtr, c.inputCs.length = 1) ∧
      ((1 : Nat) : Int) < (stepsPtr exampleExtern exampleActor exampleCallsPtr).1.historySize ∧
      ∃ c, exampleCallsPtr.reverse[1]? = some c ∧
        Records ((stepsPtr exampleExtern exampleActor exampleCallsPtr).1.historySamples.get
            ((1 : Nat) : Int) default)
          (c.contents (stepsPtr exampleExtern exampleActor
            (exampleCallsPtr.take (exampleCallsPtr.length - 1))).1) := by
  have hk : ((1 : Nat) : Int) <
      (stepsPtr exampleExtern exampleActor exampleCallsPtr).1.historySize := by
    decide
  exact ⟨by decide, le_refl 0, by decide, hk,
    history_records_copied_buffers exampleExtern Actor.new ⟨2, 1, 3⟩ 2
      [{ size := ⟨1, 1, 2⟩, radius := 1 }] 0 exampleCallsPtr 1 (by decide) (le_refl 0)
      (by decide) hk⟩

theorem step_gate_closed_witness :
    ((true = false ∨
        (if exampleActor.1.historySize < exampleActor.1.historySamples.size
          then exampleActor.1.historySize + 1 else exampleActor.1.historySize)
          ≤ exampleActor.1.minSteps + 1)) ∧
      (step exampleExtern exampleActor.1 [[0]] [0, 0] 1 true false 0 =
          stepRecord exampleExtern exampleActor.1 [[0]] [0, 0] 1 0 ∧
        (step exampleExtern exampleActor.1 [[0]] [0, 0] 1 true false 0).1.visibleLayers =
          exampleActor.1.visibleLayers) :=
  ⟨Or.inr (by decide), step_gate_closed exampleExtern exampleActor.1 [[0]] [0, 0] 1 true false 0
    (Or.inr (by decide))⟩

theorem historyIndex_bounds_witness :
    (3 : Int) > 1 + 1 ∧ (0 : Int) ≤ 1 ∧ (0 : Int) ≤ 7 ∧
      ((1 : Int) ≤ historyIndex 7 3 1 ∧ historyIndex 7 3 1 ≤ 3 - 2 ∧
        0 ≤ historyIndex 7 3 1 ∧ historyIndex 7 3 1 + 1 < 3) :=
  ⟨by decide, by decide, by decide, historyIndex_bounds 7 3 1 (by decide) (by decide) (by decide)⟩

set_option maxRecDepth 100000 in
unseal Rat.add Rat.mul Rat.inv Rat.sub Rat.ofScientific in
theorem pushed_values_are_forward_values_witness :
    0 ≤ trainedActor.1.historySamples.start ∧ 1 ≤ trainedActor.1.historySamples.size ∧
      (((step exampleExtern trainedActor.1 [[0]] [0] 0 false false
          trainedActor.2).1.historySamples.get 0 default).hiddenValuesPrev =
          (forwardAll exampleExtern trainedActor.1 [[0]] trainedActor.2).1.hiddenValues ∧
        (step exampleExtern trainedActor.1 [[0]] [0] 0 false false trainedActor.2).1.hiddenValues =
          (forwardAll exampleExtern trainedActor.1 [[0]] trainedActor.2).1.hiddenValues) :=
  ⟨by decide, by decide,
    pushed_values_are_forward_values exampleExtern trainedActor.1 [[0]] [0] 0 false false
      trainedActor.2 (by decide) (by decide)⟩

theorem exampleExtern_expf_pos : ∀ x : ℚ, 0 < exampleExtern.expf x := by
  intro x
  show 0 < 1 / (1 + x * x)
  exact div_pos one_pos (by nlinarith [mul_self_nonneg x])

set_option maxRecDepth 100000 in
unseal Rat.add Rat.mul Rat.inv Rat.sub Rat.ofScientific in
theorem mimic_delta_sign_witness :
    (∀ x : ℚ, 0 < exampleExtern.expf x) ∧ 0 ≤ trainedActor.1.beta ∧
      ((0 : Int) = rd [0] (address2 ⟨0, 0⟩
          ⟨trainedActor.1.hiddenSize.x, trainedActor.1.hiddenSize.y⟩) 0 →
        0 ≤ learnDeltaAction exampleExtern trainedActor.1 ⟨0, 0⟩ [[0]] [0] [0] 1 1 true 0) ∧
      ((0 : Int) ≠ rd [0] (address2 ⟨0, 0⟩
          ⟨trainedActor.1.hiddenSize.x, trainedActor.1.hiddenSize.y⟩) 0 →
        learnDeltaAction exampleExtern trainedActor.1 ⟨0, 0⟩ [[0]] [0] [0] 1 1 true 0 ≤ 0) :=
  ⟨exampleExtern_expf_pos, by decide,
    mimic_delta_sign exampleExtern trainedActor.1 ⟨0, 0⟩ [[0]] [0] [0] 1 1 0
      exampleExtern_expf_pos (by decide)⟩

set_option maxRecDepth 100000 in
unseal Rat.add Rat.mul Rat.inv Rat.sub Rat.ofScientific in
theorem zero_count_divides_witness :
    (valueCount unconnectedActor [[0]]
        (address2 ⟨0, 0⟩ ⟨unconnectedActor.hiddenSize.x, unconnectedActor.hiddenSize.y⟩)).2 = 0 ∧
      (((valueCount unconnectedActor [[0]]
            (address2 ⟨0, 0⟩
              ⟨unconnectedActor.hiddenSize.x, unconnectedActor.hiddenSize.y⟩)).1 /
          (((valueCount unconnectedActor [[0]]
            (address2 ⟨0, 0⟩
              ⟨unconnectedActor.hiddenSize.x, unconnectedActor.hiddenSize.y⟩)).2 : Int) :
            Flt)).isFinite = false ∧
        (forward unconnectedExtern unconnectedActor ⟨0, 0⟩ [[0]] 0).1.hiddenValues =
          wr unconnectedActor.hiddenValues
            (address2 ⟨0, 0⟩ ⟨unconnectedActor.hiddenSize.x, unconnectedActor.hiddenSize.y⟩)
            ((valueCount unconnectedActor [[0]]
              (address2 ⟨0, 0⟩
                ⟨unconnectedActor.hiddenSize.x, unconnectedActor.hiddenSize.y⟩)).1 /
            (((valueCount unconnectedActor [[0]]
              (address2 ⟨0, 0⟩
                ⟨unconnectedActor.hiddenSize.x, unconnectedActor.hiddenSize.y⟩)).2 : Int) :
              Flt)) ∧
        (∀ l ∈ logits unconnectedActor ⟨0, 0⟩ [[0]]
            (valueCount unconnectedActor [[0]]
              (address2 ⟨0, 0⟩
                ⟨unconnectedActor.hiddenSize.x, unconnectedActor.hiddenSize.y⟩)).2,
          l.isFinite = false) ∧
        (∀ l ∈ logits
            (applyValueDelta unconnectedActor [[0]]
              (learnDeltaValue unconnectedActor ⟨0, 0⟩ [[0]] 0 1)
              (address2 ⟨0, 0⟩ ⟨unconnectedActor.hiddenSize.x, unconnectedActor.hiddenSize.y⟩))
            ⟨0, 0⟩ [[0]]
            (valueCount unconnectedActor [[0]]
              (address2 ⟨0, 0⟩
                ⟨unconnectedActor.hiddenSize.x, unconnectedActor.hiddenSize.y⟩)).2,
          l.isFinite = false)) :=
  ⟨by decide, zero_count_divides unconnectedExtern unconnectedActor ⟨0, 0⟩ [[0]] 0 0 1
    (by decide)⟩

theorem exampleExtern_expf_zero : exampleExtern.expf 0 = 1 := by
  show (1 : ℚ) / (1 + 0 * 0) = 1
  norm_num

theorem exampleExtern_expf_le_one : ∀ x : ℚ, x ≤ 0 → exampleExtern.expf x ≤ 1 := by
  intro x _
  show 1 / (1 + x * x) ≤ 1
  rw [div_le_one (by nlinarith [mul_self_nonneg x])]
  nlinarith [mul_self_nonneg x]

theorem softmax_sums_to_one_witness :
    (∀ x : ℚ, 0 < exampleExtern.expf x) ∧ exampleExtern.expf 0 = 1 ∧
      1 ≤ [(0 : ℚ), -1].length ∧
      (((List.range [(0 : ℚ), -1].length).map (fun (hc : Nat) =>
          rd (expActivations exampleExtern [(0 : ℚ), -1]) (hc : Int) 0 /
            total (expActivations exampleExtern [(0 : ℚ), -1]))).sum = 1 ∧
        (((List.range [(0 : ℚ), -1].length).map (fun (hc : Nat) =>
            probability (expActivations exampleExtern [(0 : ℚ), -1]) (hc : Int))).sum = 1 ↔
          (0.0001 : ℚ) ≤ total (expActivations exampleExtern [(0 : ℚ), -1])) ∧
        ((∃ s ∈ [(0 : ℚ), -1], (-999999.0 : ℚ) ≤ s) →
          ((List.range [(0 : ℚ), -1].length).map (fun (hc : Nat) =>
            probability (expActivations exampleExtern [(0 : ℚ), -1]) (hc : Int))).sum = 1)) :=
  ⟨exampleExtern_expf_pos, exampleExtern_expf_zero, by decide,
    softmax_sums_to_one exampleExtern [(0 : ℚ), -1] exampleExtern_expf_pos
      exampleExtern_expf_zero (by decide)⟩

set_option maxRecDepth 100000 in
unseal Rat.add Rat.mul Rat.inv Rat.sub Rat.ofScientific in
theorem advantage_sign_update_witness :
    (∀ x : ℚ, 0 < exampleExtern.expf x) ∧ 0 ≤ trainedActor.1.beta ∧
      ((rd [(0 : ℚ)]
            (address2 ⟨0, 0⟩ ⟨trainedActor.1.hiddenSize.x, trainedActor.1.hiddenSize.y⟩) 0 <
          1 + 1 * rd trainedActor.1.hiddenValues
            (address2 ⟨0, 0⟩ ⟨trainedActor.1.hiddenSize.x, trainedActor.1.hiddenSize.y⟩) 0 →
        ((0 : Int) = rd [0]
            (address2 ⟨0, 0⟩ ⟨trainedActor.1.hiddenSize.x, trainedActor.1.hiddenSize.y⟩) 0 →
          0 ≤ learnDeltaAction exampleExtern trainedActor.1 ⟨0, 0⟩ [[0]] [0] [0] 1 1 false 0) ∧
        ((0 : Int) ≠ rd [0]
            (address2 ⟨0, 0⟩ ⟨trainedActor.1.hiddenSize.x, trainedActor.1.hiddenSize.y⟩) 0 →
          learnDeltaAction exampleExtern trainedActor.1 ⟨0, 0⟩ [[0]] [0] [0] 1 1 false 0 ≤ 0)) ∧
      (1 + 1 * rd trainedActor.1.hiddenValues
            (address2 ⟨0, 0⟩ ⟨trainedActor.1.hiddenSize.x, trainedActor.1.hiddenSize.y⟩) 0 ≤
          rd [(0 : ℚ)]
            (address2 ⟨0, 0⟩ ⟨trainedActor.1.hiddenSize.x, trainedActor.1.hiddenSize.y⟩) 0 →
        ((0 : Int) = rd [0]
            (address2 ⟨0, 0⟩ ⟨trainedActor.1.hiddenSize.x, trainedActor.1.hiddenSize.y⟩) 0 →
          learnDeltaAction exampleExtern trainedActor.1 ⟨0, 0⟩ [[0]] [0] [0] 1 1 false 0 ≤ 0) ∧
        ((0 : Int) ≠ rd [0]
            (address2 ⟨0, 0⟩ ⟨trainedActor.1.hiddenSize.x, trainedActor.1.hiddenSize.y⟩) 0 →
          0 ≤ learnDeltaAction exampleExtern trainedActor.1 ⟨0, 0⟩ [[0]] [0] [0] 1 1 false
            0))) :=
  ⟨exampleExtern_expf_pos, by decide,
    advantage_sign_update exampleExtern trainedActor.1 ⟨0, 0⟩ [[0]] [0] [0] 1 1 0
      exampleExtern_expf_pos (by decide)⟩

theorem pushFront_rotates_witness :
    1 ≤ exampleHistory.size ∧ 0 ≤ exampleHistory.start ∧
      (exampleHistory.pushFront.data = exampleHistory.data ∧
        exampleHistory.pushFront.start % exampleHistory.size =
          (exampleHistory.start - 1) % exampleHistory.size ∧
        (exampleHistory.start < exampleHistory.size →
          exampleHistory.pushFront.start = (exampleHistory.start - 1) % exampleHistory.size) ∧
        (∀ (k : Int) (d : HistorySample ℚ), 0 ≤ k →
          exampleHistory.pushFront.slot (k + 1) = exampleHistory.slot k ∧
            exampleHistory.pushFront.get (k + 1) d = exampleHistory.get k d) ∧
        exampleHistory.pushFront.slot 0 = exampleHistory.slot (exampleHistory.size - 1) ∧
        ∀ (E : Extern ℚ) (a : Actor ℚ) (inputCs : List IntBuffer)
          (hiddenTargetCsPrev : IntBuffer) (reward : ℚ) (learnEnabled mimic : Bool) (seed : Nat),
          ∃ s : HistorySample ℚ,
            (step E a inputCs hiddenTargetCsPrev reward learnEnabled mimic
                seed).1.historySamples.data =
              wr a.historySamples.data (a.historySamples.pushFront.slot 0) s ∧
            (step E a inputCs hiddenTargetCsPrev reward learnEnabled mimic
                seed).1.historySamples.start =
              a.historySamples.pushFront.start) :=
  ⟨by decide, by decide, pushFront_rotates (F := ℚ) exampleHistory (by decide) (by decide)⟩

theorem pushFront_start_in_range_witness :
    1 ≤ exampleHistory.size ∧ exampleHistory.start = 0 ∧ (0 : Int) ≤ 2 ∧
      (0 ≤ (Nat.iterate CircleBuffer.pushFront 5 exampleHistory).start ∧
        (Nat.iterate CircleBuffer.pushFront 5 exampleHistory).start < exampleHistory.size ∧
        0 ≤ (Nat.iterate CircleBuffer.pushFront 5 exampleHistory).slot 2 ∧
        (Nat.iterate CircleBuffer.pushFront 5 exampleHistory).slot 2 < exampleHistory.size) :=
  ⟨by decide, rfl, by decide,
    pushFront_start_in_range exampleHistory 5 2 (by decide) rfl (by decide)⟩

set_option maxRecDepth 100000 in
unseal Rat.add Rat.mul Rat.inv Rat.sub Rat.ofScientific in
theorem softmax_floor_inactive_witness :
    (∀ x : ℚ, 0 < exampleExtern.expf x) ∧ exampleExtern.expf 0 = 1 ∧
      (∀ x : ℚ, x ≤ 0 → exampleExtern.expf x ≤ 1) ∧ 1 ≤ [(0 : ℚ), -1].length ∧
      (∀ s ∈ [(0 : ℚ), -1], (-999999.0 : ℚ) ≤ s) ∧
      (maxActivation [(0 : ℚ), -1] ∈ [(0 : ℚ), -1] ∧
        (∀ s ∈ [(0 : ℚ), -1], s ≤ maxActivation [(0 : ℚ), -1]) ∧
        (∀ x ∈ expActivations exampleExtern [(0 : ℚ), -1], 0 < x ∧ x ≤ 1) ∧
        1 ∈ expActivations exampleExtern [(0 : ℚ), -1] ∧
        1 ≤ total (expActivations exampleExtern [(0 : ℚ), -1]) ∧
        total (expActivations exampleExtern [(0 : ℚ), -1]) ≤
          (expActivations exampleExtern [(0 : ℚ), -1]).length ∧
        max (0.0001 : ℚ) (total (expActivations exampleExtern [(0 : ℚ), -1])) =
          total (expActivations exampleExtern [(0 : ℚ), -1])) :=
  ⟨exampleExtern_expf_pos, exampleExtern_expf_zero, exampleExtern_expf_le_one, by decide,
    by decide,
    softmax_floor_inactive exampleExtern [(0 : ℚ), -1] exampleExtern_expf_pos
      exampleExtern_expf_zero exampleExtern_expf_le_one (by decide) (by decide)⟩

set_option maxRecDepth 100000 in
unseal Rat.add Rat.mul Rat.inv Rat.sub Rat.ofScientific in
theorem action_deltas_sum_zero_witness :
    (∀ x : ℚ, 0 < exampleExtern.expf x) ∧ exampleExtern.expf 0 = 1 ∧
      1 ≤ trainedActor.1.hiddenSize.z ∧
      (0 ≤ rd [(1 : Int)]
          (address2 ⟨0, 0⟩ ⟨trainedActor.1.hiddenSize.x, trainedActor.1.hiddenSize.y⟩) 0 ∧
        rd [(1 : Int)]
          (address2 ⟨0, 0⟩ ⟨trainedActor.1.hiddenSize.x, trainedActor.1.hiddenSize.y⟩) 0 <
          trainedActor.1.hiddenSize.z) ∧
      (∀ s ∈ logits trainedActor.1 ⟨0, 0⟩ [[0]]
          (valueCount trainedActor.1 [[0]]
            (address2 ⟨0, 0⟩ ⟨trainedActor.1.hiddenSize.x, trainedActor.1.hiddenSize.y⟩)).2,
        (-999999.0 : ℚ) ≤ s) ∧
      ((List.range trainedActor.1.hiddenSize.z.toNat).map (fun (hc : Nat) =>
        learnDeltaAction exampleExtern trainedActor.1 ⟨0, 0⟩ [[0]] [1] [0] 1 1 false
          (hc : Int))).sum = 0 :=
  ⟨exampleExtern_expf_pos, exampleExtern_expf_zero, by decide, by decide, by decide,
    action_deltas_sum_zero exampleExtern trainedActor.1 ⟨0, 0⟩ [[0]] [1] [0] 1 1 false
      exampleExtern_expf_pos exampleExtern_expf_zero (by decide) (by decide) (by decide)⟩

theorem address_range_injective_witness :
    (1 : Int) ≤ 4 ∧ ((0 : Int) ≤ 1 ∧ (1 : Int) < 2) ∧ ((0 : Int) ≤ 2 ∧ (2 : Int) < 3) ∧
      ((0 : Int) ≤ 3 ∧ (3 : Int) < 4) ∧ ((0 : Int) ≤ 0 ∧ (0 : Int) < 2) ∧
      ((0 : Int) ≤ 1 ∧ (1 : Int) < 3) ∧ ((0 : Int) ≤ 2 ∧ (2 : Int) < 4) ∧
      ((0 ≤ address2 ⟨1, 2⟩ ⟨2, 3⟩ ∧ address2 ⟨1, 2⟩ ⟨2, 3⟩ < 2 * 3) ∧
        (address2 ⟨1, 2⟩ ⟨2, 3⟩ = address2 ⟨0, 1⟩ ⟨2, 3⟩ → (1 : Int) = 0 ∧ (2 : Int) = 1) ∧
        address3 ⟨1, 2, 3⟩ ⟨2, 3, 4⟩ = address2 ⟨1, 2⟩ ⟨2, 3⟩ * 4 + 3 ∧
        (0 ≤ address3 ⟨1, 2, 3⟩ ⟨2, 3, 4⟩ ∧ address3 ⟨1, 2, 3⟩ ⟨2, 3, 4⟩ < 2 * 3 * 4) ∧
        (address3 ⟨1, 2, 3⟩ ⟨2, 3, 4⟩ = address3 ⟨0, 1, 2⟩ ⟨2, 3, 4⟩ →
          (1 : Int) = 0 ∧ (2 : Int) = 1 ∧ (3 : Int) = 2) ∧
        ∀ (E : Extern ℚ) (a : Actor ℚ) (inputCs : List IntBuffer) (seed : Nat) (i : Int)
          (v : ℚ),
          a.hiddenSize = ⟨2, 3, 4⟩ → ¬ ((1 : Int) = 0 ∧ (2 : Int) = 1) →
          rd (forward E a ⟨0, 1⟩ inputCs seed).1.hiddenCs (address2 ⟨1, 2⟩ ⟨2, 3⟩) i =
              rd a.hiddenCs (address2 ⟨1, 2⟩ ⟨2, 3⟩) i ∧
            rd (forward E a ⟨0, 1⟩ inputCs seed).1.hiddenValues (address2 ⟨1, 2⟩ ⟨2, 3⟩) v =
              rd a.hiddenValues (address2 ⟨1, 2⟩ ⟨2, 3⟩) v) :=
  ⟨by decide, by decide, by decide, by decide, by decide, by decide, by decide,
    address_range_injective (F := ℚ) 2 3 4 1 2 3 0 1 2 (by decide) (by decide) (by decide)
      (by decide) (by decide) (by decide) (by decide)⟩

end ogmaneo
